import Mathlib

/-!
Shallow embedding of `src/codemod/undecorate.ts` (the MobX "undecorate"
codemod) and proofs about it.

The codemod is a jscodeshift transform.  We embed the mutable syntax tree as
pure inductive data and every tree mutation as a pure function returning the
new tree.  The transform's `warn` helper dereferences `node.loc!.start`; for a
node without a source location (every node built by the `j.*` builders has
`loc = null`) this is a runtime `TypeError`, which we model by running the
whole pipeline in `Except Unit`: `.error ()` is "the transform threw".

Only top-level statements are modeled (imports, class declarations, expression
statements); the claims under study all concern top-level constructs.
-/

namespace Undecorate

/-- Source location of a parsed node.  Nodes synthesized by the transform's
builders carry no location (`none`), mirroring `loc: null` on builder output. -/
structure Loc where
  line : Nat
  col : Nat
deriving DecidableEq, Repr

/-- A statement inside a method/constructor body.  The transform only ever
inspects whether the first statement of a constructor is a `super(...)` call
(undecorate.ts lines 528-534), and inserts the `initializeObservables(this)`
call; everything else is opaque. -/
inductive BodyStmt where
  | superCall
  | initObs
  | plainStmt (id : Nat)
deriving DecidableEq, Repr

mutual
/-- Expressions, restricted to the shapes `undecorate.ts` discriminates on.
`complexExpr` stands for any other source expression shape. -/
inductive Expr where
  | ident (name : String) (loc : Option Loc)
  | memberAcc (obj : Expr) (prop : Expr) (isComputed : Bool) (loc : Option Loc)
  | callExpr (callee : Expr) (args : List Expr) (loc : Option Loc)
  | objectExpr (entries : List Entry) (loc : Option Loc)
  | arrayExpr (loc : Option Loc)
  | litExpr (v : Nat) (loc : Option Loc)
  | arrowFnExpr (params : Nat) (body : List BodyStmt) (isAsync : Bool) (retType : Nat)
      (loc : Option Loc)
  | functionExpr (params : Nat) (body : List BodyStmt) (isAsync : Bool) (isGenerator : Bool)
      (retType : Nat) (loc : Option Loc)
  | assignExpr (lhs rhs : Expr)
  | nullExpr
  | complexExpr (loc : Option Loc)

/-- One property of the object literal passed as second argument to a
`decorate(...)` call (undecorate.ts lines 151-163 discriminate on
`ObjectProperty.check`, `method`, `shorthand`, `computed` and the key shape). -/
inductive Entry where
  | prop (keyName : Option String) (keyLoc : Option Loc)
      (isMethod isShorthand isComputed : Bool) (value : Expr) (loc : Option Loc)
  | spread (loc : Option Loc)
end

/-- A decorator attached to a class member.  `loc` is the location of the
`Decorator` wrapper node itself: parsed decorators have one, decorators built
by `j.decorator(...)` (undecorate.ts line 199) have `loc = null`. -/
structure Decorator where
  expr : Expr
  loc : Option Loc

/-- Member kind.  `field` is a `ClassProperty`; `ctor`, `getter`, `setter`,
`method` are the `ClassMethod` kinds; `otherKind` stands for class body
elements that are neither (they pass through the rewriting untouched,
undecorate.ts lines 218-223). -/
inductive MKind where
  | field
  | ctor
  | getter
  | setter
  | method
  | otherKind
deriving DecidableEq, Repr

/-- A class body member.  Modeled as one record covering `ClassProperty` and
`ClassMethod`; `value` is the `ClassProperty` value (JavaScript also lets the
transform assign `.value` on a `ClassMethod` object, undecorate.ts line 346,
so the field exists for every kind). -/
structure Member where
  kind : MKind
  key : Expr
  value : Option Expr
  params : Nat
  body : List BodyStmt
  isGenerator : Bool
  isAsync : Bool
  decorators : List Decorator
  isStatic : Bool
  comments : Nat
  retType : Nat
  loc : Option Loc

/-- `j.ClassMethod.check` on a member of our model. -/
def isClassMethod (m : Member) : Bool :=
  match m.kind with
  | .ctor | .getter | .setter | .method => true
  | .field | .otherKind => false

/-- `j.ClassProperty.check` on a member of our model. -/
def isClassProperty (m : Member) : Bool :=
  m.kind = MKind.field

/-- A class declaration: optional name, whether it has a superclass, body. -/
structure ClassDecl where
  name : Option String
  hasSuper : Bool
  body : List Member
  loc : Option Loc

/-- An import specifier; `named n` is an `ImportSpecifier` whose
`imported.name` is `n`, `otherSpec` covers default/namespace specifiers. -/
inductive ImpSpec where
  | named (name : String)
  | otherSpec
deriving DecidableEq, Repr

/-- A top-level statement. -/
inductive Stmt where
  | impStmt (src : String) (specifiers : List ImpSpec)
  | classStmt (c : ClassDecl)
  | exprStmt (e : Expr) (loc : Option Loc)
  | otherStmt (loc : Option Loc)

/-- Location stored on an expression node (`node.loc`). -/
def exprLoc : Expr → Option Loc
  | .ident _ l => l
  | .memberAcc _ _ _ l => l
  | .callExpr _ _ l => l
  | .objectExpr _ l => l
  | .arrayExpr l => l
  | .litExpr _ l => l
  | .arrowFnExpr _ _ _ _ l => l
  | .functionExpr _ _ _ _ _ l => l
  | .assignExpr _ _ => none
  | .nullExpr => none
  | .complexExpr l => l

/-- Location stored on an `Entry` node. -/
def entryLoc : Entry → Option Loc
  | .prop _ _ _ _ _ _ l => l
  | .spread l => l

/-- Name of an identifier expression, if it is one. -/
def identName? : Expr → Option String
  | .ident n _ => some n
  | _ => none

/-- `validDecorators` (undecorate.ts line 17). -/
def validDecorators : List String := ["action", "observable", "computed"]

/-! ## Diagnostic messages

The real `warn` prints an interpolated message plus a caret-annotated source
line; we keep only the stable message prefix, which is what the claims are
about. -/

def msgTwoArgs : String := "Expected a decorate call with two arguments"
def msgFirstArg : String := "Expected an identifier as first argument to decorate"
def msgSecondArg : String := "Expected a plain object as second argument to decorate"
def msgNoClass : String := "Expected exactly one class declaration"
def msgPlainProp : String := "Expected plain property definition"
def msgComposed : String := "Cannot undecorate composed decorators"
def msgMissing : String := "Failed to find member"
def msgMultiple : String := "Found multiple decorators, skipping.."
def msgNonMobx : String := "Found non-mobx decorator"
def msgStatic : String := "Static properties are not supported"
def msgUnknownAction : String := "Uknown case for undecorate action "
def msgTooComplex : String := "Decorator expression too complex, please convert manually"
def msgOneArg : String := "Expected exactly one argument"
def msgAnon : String := "Cannot transform action of anonymous class"
def msgNewCtor : String := "Generated new constructor; super arguments may need revisiting"
def msgNoMobxImp : String := "Failed to find mobx import"

/-! ## State threaded through the transform -/

/-- File-level mutable state of `tranform`: emitted diagnostics and the
`changed` flag. -/
structure TSt where
  diags : List String
  changed : Bool

/-- Per-class state while rewriting members: file state plus
`effects.needsConstructor`, the indices (into the pre-rewrite body) of members
pushed onto `effects.membersToRemove`, and the statements inserted after the
class by `clazzPath.insertAfter` (accumulated in reverse: each `insertAfter`
puts its statement directly after the class, before earlier insertions). -/
structure HSt where
  diags : List String
  changed : Bool
  needsCtor : Bool
  removeIdxs : List Nat
  after : List Stmt

/-- `warn` (undecorate.ts lines 561-572) at file level: reads
`node.loc!.start.line`, hence throws a `TypeError` when the node has no
location. -/
def warnT (msg : String) (loc : Option Loc) (st : TSt) : Except Unit TSt :=
  match loc with
  | none => .error ()
  | some _ => .ok { st with diags := st.diags ++ [msg] }

/-- `warn` used from within per-class rewriting (same function, richer state). -/
def warnH (msg : String) (loc : Option Loc) (ps : HSt) : Except Unit HSt :=
  match loc with
  | none => .error ()
  | some _ => .ok { ps with diags := ps.diags ++ [msg] }

/-! ## List helpers mirroring JavaScript `splice` -/

/-- `arr.splice(n, 0, a)`: insert before position `n`, appending when `n` is
past the end. -/
def insertAtPos {α : Type} (l : List α) (n : Nat) (a : α) : List α :=
  match n, l with
  | 0, l => a :: l
  | _ + 1, [] => [a]
  | n + 1, x :: xs => x :: insertAtPos xs n a

/-! ## The decorator classifier (`parseProperty`, undecorate.ts lines 420-488) -/

/-- The `expr` slot of the parsed property info: for a `ClassMethod` it is the
method node itself, for a `ClassProperty` it is the (possibly null) value. -/
inductive PropExpr where
  | ofMethod (m : Member)
  | ofValue (v : Option Expr)

/-- `propInfo.type`. -/
inductive PType where
  | fieldT
  | methodT
  | getterT
deriving DecidableEq, Repr

/-- Result of `parseProperty`.  `setterIdx` is the index (into the class body
it was searched in) of the first sibling `set` accessor with the same
identifier key, standing for the `setterExpr` node reference. -/
structure PropInfo where
  isCallExpression : Bool
  baseDecorator : String
  subDecorator : String
  ptype : PType
  pexpr : PropExpr
  callArg : Option Expr
  setterIdx : Option Nat

/-- `toArrowFn` (undecorate.ts lines 547-559).  Arrow functions and values
that are not class methods are returned unchanged; a generator method is
wrapped as a (generator) function expression, every other method as an arrow
function, both carrying the async flag and return type. -/
def toArrowFn : PropExpr → Option Expr
  | .ofValue v => v
  | .ofMethod mm =>
      if isClassMethod mm then
        some (if mm.isGenerator then
          .functionExpr mm.params mm.body mm.isAsync true mm.retType none
        else
          .arrowFnExpr mm.params mm.body mm.isAsync mm.retType none)
      else
        none

/-- `fnCall` (undecorate.ts lines 538-545).  The second name slot holds `""`
where the source computes a falsy value (`false` or the empty sub-decorator);
`name.filter(Boolean).length === 2` is then `n2 != ""`.  Arguments are
filtered by `filter(Boolean)`: absent (`undefined`/`null`) ones are dropped;
AST node objects are always truthy. -/
def fnCall (n1 : String) (n2 : String) (args : List (Option Expr)) : Expr :=
  .callExpr
    (if n2 ≠ "" then
      .memberAcc (.ident n1 none) (.ident n2 none) false none
    else
      .ident n1 none)
    (args.filterMap id) none

/-- The `"bound"` second slot of the `fnCall` name in the two `action.bound`
cases: kept only when the wrapped value is still a `FunctionExpression`
(undecorate.ts lines 302, 315). -/
def boundFlag : Option Expr → String
  | some (.functionExpr ..) => "bound"
  | _ => ""

/-- Setter-sibling lookup used by `parseProperty` (undecorate.ts lines
470-477): first class body member that is a `set`-kind `ClassMethod` whose
identifier key equals the identifier key of `p`. -/
def setterLookup (origBody : List Member) (p : Member) : Option Nat :=
  origBody.findIdx? (fun mm =>
    isClassMethod mm && mm.kind == MKind.setter &&
      (match mm.key, p.key with
       | .ident a _, .ident b _ => a == b
       | _, _ => false))

/-- The decorator-expression classification step of `parseProperty`
(undecorate.ts lines 429-454): extract `baseDecorator` and `subDecorator`,
warning on shapes deemed too complex. -/
def parsePropertyStep (decExpr : Expr) (ps : HSt) : Except Unit (String × String × HSt) :=
  match decExpr with
  | .callExpr callee _ _ =>
    match callee with
    | .memberAcc (.ident o _) (.ident pr _) _ _ => .ok (o, pr, ps)
    | .memberAcc _ _ _ _ =>
      match warnH msgTooComplex (exprLoc decExpr) ps with
      | .error e => .error e
      | .ok ps => .ok ("", "", ps)
    | .ident n _ => .ok (n, "", ps)
    | _ =>
      match warnH msgTooComplex (exprLoc decExpr) ps with
      | .error e => .error e
      | .ok ps => .ok ("", "", ps)
  | .memberAcc (.ident o _) (.ident pr _) _ _ => .ok (o, pr, ps)
  | .ident n _ => .ok (n, "", ps)
  | _ =>
    match warnH msgTooComplex (exprLoc decExpr) ps with
    | .error e => .error e
    | .ok ps => .ok ("", "", ps)

/-- The exactly-one-argument check of `parseProperty` (undecorate.ts lines
455-461): warn when the decorator is a call with an argument count other than
one. -/
def parseArgGuard (decExpr : Expr) (ps : HSt) : Except Unit HSt :=
  let argBad : Bool := match decExpr with
    | .callExpr _ args _ => args.length ≠ 1
    | _ => false
  if argBad then warnH msgOneArg (exprLoc decExpr) ps else .ok ps

/-- `parseProperty` (undecorate.ts lines 420-488).  Reads the first decorator
of `p` and classifies its expression; warns (never aborts the member) on
shapes it deems too complex or on call expressions without exactly one
argument. -/
def parseProperty (origBody : List Member) (p : Member) (ps : HSt) :
    Except Unit (PropInfo × HSt) :=
  match p.decorators with
  | [] => .error ()
  | d :: _ =>
    let decExpr := d.expr
    let isCall : Bool := match decExpr with | .callExpr .. => true | _ => false
    let step : Except Unit (String × String × HSt) := parsePropertyStep decExpr ps
    match step with
    | .error e => .error e
    | .ok (base, sub, ps) =>
      let afterArg : Except Unit HSt := parseArgGuard decExpr ps
      match afterArg with
      | .error e => .error e
      | .ok ps =>
        let callArg : Option Expr := match decExpr with
          | .callExpr _ args _ => args.head?
          | _ => none
        .ok ({ isCallExpression := isCall
               baseDecorator := base
               subDecorator := sub
               ptype :=
                 if isClassMethod p then
                   (if p.kind = MKind.getter then PType.getterT else PType.methodT)
                 else PType.fieldT
               pexpr := if isClassMethod p then PropExpr.ofMethod p else PropExpr.ofValue p.value
               callArg := callArg
               setterIdx := setterLookup origBody p }, ps)

/-- Build the `ClassProperty` node `j.classProperty(key, value)` with comments
carried over (used for the `action.bound` method and `computed` rewrites). -/
def mkFieldFrom (key : Expr) (value : Expr) (comments : Nat) : Member :=
  { kind := .field, key := key, value := some value, params := 0, body := []
    isGenerator := false, isAsync := false, decorators := [], isStatic := false
    comments := comments, retType := 0, loc := none }

/-- `generateActionInitializationOnPrototype` (undecorate.ts lines 378-418):
for a named class, record an `X.prototype.key = action(arg?, X.prototype.key)`
statement to insert after the class; for an anonymous class, warn only. -/
def genProto (cname : Option String) (m : Member) (pi : PropInfo) (ps : HSt) :
    Except Unit (Member × Bool × HSt) :=
  match cname with
  | none =>
    match warnH msgAnon m.loc ps with
    | .error e => .error e
    | .ok ps => .ok (m, false, ps)
  | some cid =>
    let isComputedName := (identName? m.key).isNone
    let protoM : Expr :=
      .memberAcc (.memberAcc (.ident cid none) (.ident "prototype" none) false none)
        m.key isComputedName none
    let stmt : Stmt :=
      .exprStmt (.assignExpr protoM (fnCall "action" "" [pi.callArg, some protoM])) none
    .ok (m, false, { ps with after := stmt :: ps.after })

/-- The check at undecorate.ts line 278: a bare identifier decorator whose
name is not in the `decoratorsUsed` scope. -/
def identOutOfScope (scope : List String) (e : Expr) : Bool :=
  match e with
  | .ident n _ => !(scope.contains n)
  | _ => false

/-- The dispatch table of `handleProperty` (undecorate.ts lines 289-375): runs
after the early rejects, on the parsed decorator info, with the member's
decorator list already spliced empty. -/
def hpDispatch (cname : Option String) (origBody : List Member)
    (m : Member) (pi : PropInfo) (ps : HSt) : Except Unit (Member × Bool × HSt) :=
  let m := { m with decorators := [] }
  if pi.baseDecorator = "action" then
    let ps := { ps with changed := true }
    if pi.ptype = PType.fieldT ∧ pi.subDecorator = "bound" then
      let arrowFn := toArrowFn (.ofValue m.value)
      let v := fnCall "action" (boundFlag arrowFn) [pi.callArg, arrowFn]
      .ok ({ m with value := some v }, false, ps)
    else if pi.ptype = PType.methodT ∧ pi.subDecorator = "bound" then
      let arrowFn := toArrowFn pi.pexpr
      .ok (mkFieldFrom m.key
             (fnCall "action" (boundFlag arrowFn) [pi.callArg, arrowFn]) m.comments,
           true, ps)
    else if pi.ptype = PType.fieldT ∧ pi.subDecorator = "" then
      .ok ({ m with value := some (fnCall "action" "" [pi.callArg, m.value]) },
           false, ps)
    else if pi.ptype = PType.methodT then
      genProto cname m pi ps
    else
      match warnH msgUnknownAction m.loc ps with
      | .error e => .error e
      | .ok ps => .ok (m, false, ps)
  else if pi.baseDecorator = "observable" then
    let ps := { ps with changed := true, needsCtor := true }
    .ok ({ m with value := some (fnCall "observable" pi.subDecorator [m.value]) },
         false, ps)
  else if pi.baseDecorator = "computed" then
    let ps := { ps with changed := true, needsCtor := true }
    let setterM := pi.setterIdx.bind (fun i => origBody[i]?)
    let res := mkFieldFrom m.key
      (fnCall "computed" pi.subDecorator
        [toArrowFn pi.pexpr,
         setterM.bind (fun sm => toArrowFn (.ofMethod sm)),
         pi.callArg]) m.comments
    let ps := match pi.setterIdx with
      | some i => { ps with removeIdxs := ps.removeIdxs ++ [i] }
      | none => ps
    .ok (res, true, ps)
  else
    .ok (m, false, ps)

/-- `handleProperty` (undecorate.ts lines 257-376).  Returns the member that
replaces the input in the class body, a flag telling whether it is a brand-new
node (only the `action.bound`-method and `computed` rewrites build a new
`ClassProperty`; every other path returns the same — possibly mutated — node,
which matters for the reference-equality `membersToRemove` filter), and the
updated state. -/
def hp (scope : List String) (cname : Option String) (origBody : List Member)
    (m : Member) (ps : HSt) : Except Unit (Member × Bool × HSt) :=
  match m.decorators with
  | [] => .ok (m, false, ps)
  | d0 :: _ :: _ =>
    match warnH msgMultiple d0.loc ps with
    | .error e => .error e
    | .ok ps => .ok (m, false, ps)
  | [dec] =>
    let expr := dec.expr
    if identOutOfScope scope expr then
      match warnH msgNonMobx dec.loc ps with
      | .error e => .error e
      | .ok ps => .ok (m, false, ps)
    else if m.isStatic then
      match warnH msgStatic m.loc ps with
      | .error e => .error e
      | .ok ps => .ok (m, false, ps)
    else
      match parseProperty origBody m ps with
      | .error e => .error e
      | .ok (pi, ps) => hpDispatch cname origBody m pi ps

/-! ## Constructor synthesis (`createConstructor`, undecorate.ts lines 490-536) -/

/-- The synthesized zero-parameter constructor with the given body. -/
def mkCtor (body : List BodyStmt) : Member :=
  { kind := .ctor, key := .ident "constructor" none, value := none, params := 0
    body := body, isGenerator := false, isAsync := false, decorators := []
    isStatic := false, comments := 0, retType := 0, loc := none }

/-- `createConstructor`.  If no constructor exists, synthesize one — body
`[super(); initializeObservables(this)]` when the class has a superclass
(warning that the super arguments may need revisiting), else just the init
call — inserted before the first `ClassMethod` member or appended.  If one
exists, splice the init call after a leading `super(...)` statement, else at
the front. -/
def createConstructor (c : ClassDecl) (diags : List String) :
    Except Unit (ClassDecl × List String) :=
  let needsSuper := c.hasSuper
  match c.body.findIdx? (fun mm => isClassMethod mm && mm.kind == MKind.ctor) with
  | none =>
    let warned : Except Unit (List String) :=
      if needsSuper then
        match c.loc with
        | none => .error ()
        | some _ => .ok (diags ++ [msgNewCtor])
      else .ok diags
    match warned with
    | .error e => .error e
    | .ok diags =>
      let ctorD := mkCtor (if needsSuper then [.superCall, .initObs] else [.initObs])
      let body' :=
        match c.body.findIdx? (fun mm => isClassMethod mm) with
        | none => c.body ++ [ctorD]
        | some i => insertAtPos c.body i ctorD
      .ok ({ c with body := body' }, diags)
  | some i =>
    match c.body[i]? with
    | none => .error ()
    | some cm =>
      let hasSuperStmt : Bool := match cm.body.head? with
        | some .superCall => true
        | _ => false
      let cm' := { cm with body := insertAtPos cm.body (if hasSuperStmt then 1 else 0) .initObs }
      .ok ({ c with body := c.body.set i cm' }, diags)

/-! ## Rewriting one class (undecorate.ts lines 210-231) -/

/-- The `clazz.body.body.map(...)` step: `handleProperty` on every
`ClassProperty`/`ClassMethod`, other members pass through.  Each result is
paired with the new-node flag. -/
def hpMapIdx (scope : List String) (cname : Option String) (origBody : List Member) :
    List Member → HSt → Except Unit (List (Member × Bool) × HSt)
  | [], ps => .ok ([], ps)
  | m :: rest, ps =>
    if isClassProperty m || isClassMethod m then
      match hp scope cname origBody m ps with
      | .error e => .error e
      | .ok (m', isNew, ps') =>
        match hpMapIdx scope cname origBody rest ps' with
        | .error e => .error e
        | .ok (l, psf) => .ok ((m', isNew) :: l, psf)
    else
      match hpMapIdx scope cname origBody rest ps with
      | .error e => .error e
      | .ok (l, psf) => .ok ((m, false) :: l, psf)

/-- The `.filter(elem => !effects.membersToRemove.includes(elem))` step.
`membersToRemove` holds references to pre-rewrite member nodes; a mapped
element is removed exactly when its position was recorded and `handleProperty`
returned the original node for it (reference equality).  Implemented as a
positional walk. -/
def removeFilterAux (rem : List Nat) : List (Member × Bool) → Nat → List Member
  | [], _ => []
  | (m, isNew) :: rest, i =>
    if rem.contains i && !isNew then removeFilterAux rem rest (i + 1)
    else m :: removeFilterAux rem rest (i + 1)

def removeFilter (mapped : List (Member × Bool)) (rem : List Nat) : List Member :=
  removeFilterAux rem mapped 0

/-- Process one class declaration: map members through `handleProperty`,
apply the removal filter, then synthesize/patch the constructor when some
member requires it.  Returns the rewritten class, the statements to insert
after it, the `needsConstructor` flag, and the updated diagnostics/changed. -/
def handleClass (scope : List String) (c : ClassDecl) (diags : List String)
    (changed : Bool) : Except Unit (ClassDecl × List Stmt × Bool × List String × Bool) :=
  let ps0 : HSt := { diags := diags, changed := changed, needsCtor := false
                     removeIdxs := [], after := [] }
  match hpMapIdx scope c.name c.body c.body ps0 with
  | .error e => .error e
  | .ok (mapped, ps) =>
    let body1 := removeFilter mapped ps.removeIdxs
    if ps.needsCtor then
      match createConstructor { c with body := body1 } ps.diags with
      | .error e => .error e
      | .ok (c', diags') => .ok (c', ps.after, true, diags', ps.changed)
    else
      .ok ({ c with body := body1 }, ps.after, false, ps.diags, ps.changed)

/-- `source.find(j.ClassDeclaration).forEach(...)`: rewrite every (top-level)
class in statement order, splicing the `insertAfter` statements directly after
each class.  Also accumulates `needsInitializeImport`. -/
def classLoop (scope : List String) :
    List Stmt → List String → Bool → Bool → Except Unit (List Stmt × List String × Bool × Bool)
  | [], diags, changed, needsInit => .ok ([], diags, changed, needsInit)
  | .classStmt c :: rest, diags, changed, needsInit =>
    match handleClass scope c diags changed with
    | .error e => .error e
    | .ok (c', after, nc, diags', changed') =>
      match classLoop scope rest diags' changed' (needsInit || nc) with
      | .error e => .error e
      | .ok (rest', d, ch, ni) => .ok (.classStmt c' :: (after ++ rest'), d, ch, ni)
  | s :: rest, diags, changed, needsInit =>
    match classLoop scope rest diags changed needsInit with
    | .error e => .error e
    | .ok (rest', d, ch, ni) => .ok (s :: rest', d, ch, ni)

/-! ## Import scanning (undecorate.ts lines 78-99) -/

/-- Add to the `decoratorsUsed` set (insertion-ordered). -/
def addUnique (l : List String) (s : String) : List String :=
  if l.contains s then l else l ++ [s]

/-- Index recorded in `decorateIndex`: the forEach overwrites it at every
`decorate` specifier, so it ends up the last matching index. -/
def lastDecorateIdx : List ImpSpec → Option Nat
  | [] => none
  | sp :: rest =>
    match lastDecorateIdx rest with
    | some i => some (i + 1)
    | none => if sp = ImpSpec.named "decorate" then some 0 else none

/-- Collect one specifier into `decoratorsUsed` (undecorate.ts lines 82-88). -/
def collectSpec (sc : List String) (sp : ImpSpec) : List String :=
  match sp with
  | .named n => if validDecorators.contains n then addUnique sc n else sc
  | .otherSpec => sc

/-- Scan one `mobx` import declaration: collect supported decorator names,
detect (and splice out) the `decorate` specifier. -/
def scanOne (scope : List String) (uses : Bool) (specs : List ImpSpec) :
    List String × Bool × List ImpSpec :=
  let scope' := specs.foldl collectSpec scope
  let uses' := uses || specs.contains (ImpSpec.named "decorate")
  let specs' :=
    match lastDecorateIdx specs with
    | none => specs
    | some i => specs.eraseIdx i
  (scope', uses', specs')

/-- `source.find(j.ImportDeclaration).forEach(...)`: returns the statements
with `decorate` specifiers spliced out of mobx imports, the collected
`decoratorsUsed` scope, and `usesDecorate`. -/
def scanImps : List Stmt → List String → Bool → List Stmt × List String × Bool
  | [], sc, us => ([], sc, us)
  | .impStmt src specs :: rest, sc, us =>
    if src = "mobx" then
      let r := scanOne sc us specs
      let rec' := scanImps rest r.1 r.2.1
      (.impStmt src r.2.2 :: rec'.1, rec'.2.1, rec'.2.2)
    else
      let rec' := scanImps rest sc us
      (.impStmt src specs :: rec'.1, rec'.2.1, rec'.2.2)
  | s :: rest, sc, us =>
    let rec' := scanImps rest sc us
    (s :: rec'.1, rec'.2.1, rec'.2.2)

/-! ## The legacy-call (decorate) rewriter (undecorate.ts lines 101-207) -/

/-- Does the entry's value denote `observable` (bare identifier or
`observable.x` member form), undecorate.ts lines 178-183. -/
def obsShaped : Expr → Bool
  | .ident n _ => n == "observable"
  | .memberAcc (.ident n _) _ _ _ => n == "observable"
  | _ => false

/-- `j.ArrayExpression.check(prop.value)` (undecorate.ts line 164). -/
def isArrayE : Expr → Bool
  | .arrayExpr _ => true
  | _ => false

/-- Lookup used at undecorate.ts lines 170-175: first class body member that
is a `ClassProperty` or `ClassMethod` with the given identifier key name. -/
def memberIdx (body : List Member) (name : String) : Option Nat :=
  body.findIdx? (fun mm =>
    (isClassProperty mm || isClassMethod mm) &&
      (match mm.key with | .ident a _ => a == name | _ => false))

/-- The field synthesized for an undeclared `observable` entry:
`j.classProperty(prop.key, null)` with the entry value attached as its sole
decorator (built by `j.decorator`, hence without location). -/
def mkSynthField (name : String) (keyLoc : Option Loc) (v : Expr) : Member :=
  { kind := .field, key := .ident name keyLoc, value := none, params := 0, body := []
    isGenerator := false, isAsync := false, decorators := [{ expr := v, loc := none }]
    isStatic := false, comments := 0, retType := 0, loc := none }

/-- Replace a found member's decorator list by the entry value
(undecorate.ts line 199). -/
def setDec (body : List Member) (i : Nat) (v : Expr) : List Member :=
  match body[i]? with
  | none => body
  | some mm => body.set i { mm with decorators := [{ expr := v, loc := none }] }

/-- Process one entry of the decorate mapping (the body of the
`decorators.properties.forEach` at undecorate.ts lines 151-200).  Returns the
updated class body, insertion offset, `canRemoveDecorateCall`, and state. -/
def entryStep (body : List Member) (off : Nat) (canR : Bool) (st : TSt) (e : Entry) :
    Except Unit (List Member × Nat × Bool × TSt) :=
  match e with
  | .spread l =>
    match warnT msgPlainProp l st with
    | .error er => .error er
    | .ok st => .ok (body, off, false, st)
  | .prop kname kloc isM isS isC v l =>
    if isM || isS || isC || kname.isNone then
      match warnT msgPlainProp l st with
      | .error er => .error er
      | .ok st => .ok (body, off, false, st)
    else if isArrayE v then
      match warnT msgComposed (exprLoc v) st with
      | .error er => .error er
      | .ok st => .ok (body, off, false, st)
    else
      let name := kname.getD ""
      match memberIdx body name with
      | some i => .ok (setDec body i v, off, canR, st)
      | none =>
        if obsShaped v then
          .ok (insertAtPos body off (mkSynthField name kloc v), off + 1, canR, st)
        else
          match warnT msgMissing l st with
          | .error er => .error er
          | .ok st => .ok (body, off, false, st)

/-- Fold `entryStep` over the mapping entries. -/
def runEntries (body : List Member) (off : Nat) (canR : Bool) (st : TSt) :
    List Entry → Except Unit (List Member × Nat × Bool × TSt)
  | [] => .ok (body, off, canR, st)
  | e :: rest =>
    match entryStep body off canR st e with
    | .error er => .error er
    | .ok (b, o, c, s) => runEntries b o c s rest

/-- First top-level class declaration with the given name (the
`bestDeclarations` lexical-proximity filter is the identity for top-level
calls and classes, so this is `declarations.nodes()[0]`). -/
def findClass? : List Stmt → String → Option (Nat × ClassDecl)
  | [], _ => none
  | .classStmt c :: rest, n =>
    if c.name = some n then some (0, c)
    else match findClass? rest n with
      | none => none
      | some (i, c') => some (i + 1, c')
  | _ :: rest, n =>
    match findClass? rest n with
    | none => none
    | some (i, c') => some (i + 1, c')

/-- Process one `decorate(...)` call (the body of the forEach at
undecorate.ts lines 110-206).  Returns the class update to apply (if the
structural checks passed), whether the call statement is to be pruned, and the
state (`changed` is set unconditionally once the entries were iterated). -/
def processCall (stmts : List Stmt) (args : List Expr) (callLoc : Option Loc) (st : TSt) :
    Except Unit (Option (Nat × ClassDecl) × Bool × TSt) :=
  match args with
  | [a0, a1] =>
    match a0 with
    | .ident tname tl =>
      match a1 with
      | .objectExpr entries _ =>
        match findClass? stmts tname with
        | none =>
          match warnT msgNoClass tl st with
          | .error er => .error er
          | .ok st => .ok (none, false, st)
        | some (j, cl) =>
          match runEntries cl.body 0 true st entries with
          | .error er => .error er
          | .ok (b', _, canR, st') =>
            .ok (some (j, { cl with body := b' }), canR, { st' with changed := true })
      | _ =>
        match warnT msgSecondArg (exprLoc a1) st with
        | .error er => .error er
        | .ok st => .ok (none, false, st)
    | _ =>
      match warnT msgFirstArg (exprLoc a0) st with
      | .error er => .error er
      | .ok st => .ok (none, false, st)
  | _ =>
    match warnT msgTwoArgs callLoc st with
    | .error er => .error er
    | .ok st => .ok (none, false, st)

/-- Walk the statements looking for top-level `decorate(...)` call statements
(undecorate.ts lines 103-109 plus the prune at 202-204).  `fuel` is a
structural-recursion bound; `fuel = stmts.length + 1` always suffices because
every step either advances the cursor or removes the current statement. -/
def decorateLoop (fuel : Nat) (stmts : List Stmt) (i : Nat) (st : TSt) :
    Except Unit (List Stmt × TSt) :=
  match fuel with
  | 0 => .ok (stmts, st)
  | fuel + 1 =>
    if i < stmts.length then
      match stmts[i]? with
      | some (.exprStmt (.callExpr (.ident "decorate" _) args cl) _) =>
        (match processCall stmts args cl st with
         | .error er => .error er
         | .ok (upd, remove, st') =>
           let stmts' := match upd with
             | none => stmts
             | some (j, c') => stmts.set j (.classStmt c')
           if remove then decorateLoop fuel (stmts'.eraseIdx i) i st'
           else decorateLoop fuel stmts' (i + 1) st')
      | _ => decorateLoop fuel stmts (i + 1) st
    else
      .ok (stmts, st)

/-! ## Import patching (undecorate.ts lines 232-249) -/

/-- Append `initializeObservables` to the first mobx import, if any. -/
def patchInit : List Stmt → Option (List Stmt)
  | [] => none
  | .impStmt "mobx" specs :: rest =>
    some (.impStmt "mobx" (specs ++ [.named "initializeObservables"]) :: rest)
  | s :: rest =>
    match patchInit rest with
    | none => none
    | some rest' => some (s :: rest')

/-! ## The transform (undecorate.ts lines 61-255) -/

/-- The whole per-file transform (source function name `tranform`).  Result
`none` is the "unchanged" sentinel (the transform returned `undefined`);
`some stmts` stands for `source.toSource()` of the mutated tree.  The
diagnostics list is everything written to the console. -/
def tranform (f : List Stmt) (ignoreImps : Bool) :
    Except Unit (Option (List Stmt) × List String) :=
  let scope0 := if ignoreImps then validDecorators else []
  let uses0 := ignoreImps
  let scanned := scanImps f scope0 uses0
  let stmts1 := scanned.1
  let scope := scanned.2.1
  let usesDecorate := scanned.2.2
  let st0 : TSt := { diags := [], changed := false }
  let afterDec : Except Unit (List Stmt × TSt) :=
    if usesDecorate then decorateLoop (stmts1.length + 1) stmts1 0 st0
    else .ok (stmts1, st0)
  match afterDec with
  | .error er => .error er
  | .ok (stmts2, st1) =>
    match classLoop scope stmts2 st1.diags st1.changed false with
    | .error er => .error er
    | .ok (stmts3, diags2, changed2, needsInit) =>
      let patched : List Stmt × List String :=
        if needsInit then
          match patchInit stmts3 with
          | none => (stmts3, diags2 ++ [msgNoMobxImp])
          | some s' => (s', diags2)
        else (stmts3, diags2)
      if scope.isEmpty ∧ ¬usesDecorate then .ok (none, patched.2)
      else if changed2 then .ok (some patched.1, patched.2)
      else .ok (none, patched.2)

/-! ## Concrete inputs used by the individual theorems -/

/-- A stand-in parsed source location. -/
def l0 : Option Loc := some { line := 1, col := 0 }

/-- An undecorated instance field with identifier key. -/
def plainField (name : String) (v : Option Expr) : Member :=
  { kind := .field, key := .ident name l0, value := v, params := 0, body := []
    isGenerator := false, isAsync := false, decorators := [], isStatic := false
    comments := 0, retType := 0, loc := l0 }

/-- The initial per-class rewrite state. -/
def emptyH : HSt :=
  { diags := [], changed := false, needsCtor := false, removeIdxs := [], after := [] }

/-! ## C1 — the run does *not* always complete

Input (as source text):

```
// import { decorate, observable } from "mobx"
class Box { x = 1 }
decorate(Box, { x: action })
```
(the first line is the uncommented mobx import)

`decorate` is imported, the structural checks pass, member `x` exists, so the
entry value `action` is attached as `x`'s decorator via `j.decorator(...)` —
a node with `loc = null`.  `handleProperty` then finds the identifier `action`
outside the import scope (only `observable` was imported) and calls
`warn(..., decorator)`, which dereferences `decorator.loc!.start` and throws a
`TypeError`.  The run does not complete. -/

def exC1 : List Stmt :=
  [ .impStmt "mobx" [.named "decorate", .named "observable"]
  , .classStmt { name := some "Box", hasSuper := false
               , body := [plainField "x" (some (.litExpr 1 l0))], loc := l0 }
  , .exprStmt (.callExpr (.ident "decorate" l0)
      [ .ident "Box" l0
      , .objectExpr [.prop (some "x") l0 false false false (.ident "action" l0) l0] l0 ] l0) l0 ]

/-- C1: the claim says the transform never throws, even when a diagnostic is
emitted about a synthesized, location-free node.  On `exC1` the transform
reaches exactly that situation — `warn` on the location-free decorator built
for the legacy-call entry — and throws instead of completing. -/
theorem c1_transform_throws_on_synthesized_decorator :
    tranform exC1 false = .error () := by
  rfl

/-! ## C3 — no relevant import: sentinel yes, but not silently and not immediately -/

/-- Replace a member's decorator list. -/
def withDecs (m : Member) (ds : List Decorator) : Member :=
  { m with decorators := ds }

/-- A file whose `mobx` imports name neither a supported decorator nor
`decorate` (in particular, a file without any `mobx` import). -/
def specIrrelevant : ImpSpec → Bool
  | .named n => !(validDecorators.contains n) && !(n == "decorate")
  | .otherSpec => true

def noMobxRelevantImps (stmts : List Stmt) : Bool :=
  stmts.all (fun s =>
    match s with
    | .impStmt "mobx" specs => specs.all specIrrelevant
    | _ => true)

theorem foldl_collectSpec_irrelevant (specs : List ImpSpec)
    (h : specs.all specIrrelevant = true) (sc : List String) :
    specs.foldl collectSpec sc = sc := by
  induction specs generalizing sc with
  | nil => rfl
  | cons sp rest ih =>
    simp only [List.all_cons, Bool.and_eq_true] at h
    obtain ⟨h1, h2⟩ := h
    cases sp with
    | named n =>
      simp only [specIrrelevant, Bool.and_eq_true, Bool.not_eq_true'] at h1
      simp only [List.foldl_cons, collectSpec, h1.1, Bool.false_eq_true, if_false]
      exact ih h2 sc
    | otherSpec => simpa [collectSpec] using ih h2 sc

theorem contains_decorate_false (specs : List ImpSpec)
    (h : specs.all specIrrelevant = true) :
    specs.contains (ImpSpec.named "decorate") = false := by
  induction specs with
  | nil => rfl
  | cons sp rest ih =>
    simp only [List.all_cons, Bool.and_eq_true] at h
    obtain ⟨h1, h2⟩ := h
    simp only [List.contains_cons, Bool.or_eq_false_iff]
    refine ⟨?_, ih h2⟩
    cases sp with
    | named n =>
      simp only [specIrrelevant, Bool.and_eq_true, Bool.not_eq_true'] at h1
      simp only [beq_eq_false_iff_ne, ne_eq, ImpSpec.named.injEq]
      intro hn
      rw [hn] at h1
      simpa using h1.2
    | otherSpec => rfl

theorem lastDecorateIdx_none (specs : List ImpSpec)
    (h : specs.all specIrrelevant = true) :
    lastDecorateIdx specs = none := by
  induction specs with
  | nil => rfl
  | cons sp rest ih =>
    simp only [List.all_cons, Bool.and_eq_true] at h
    obtain ⟨h1, h2⟩ := h
    simp only [lastDecorateIdx, ih h2]
    cases sp with
    | named n =>
      simp only [specIrrelevant, Bool.and_eq_true, Bool.not_eq_true'] at h1
      have : ¬(ImpSpec.named n = ImpSpec.named "decorate") := by
        simp only [ImpSpec.named.injEq]
        intro hn
        rw [hn] at h1
        simpa using h1.2
      simp [this]
    | otherSpec => simp

theorem scanOne_irrelevant (specs : List ImpSpec) (h : specs.all specIrrelevant = true)
    (sc : List String) (us : Bool) : scanOne sc us specs = (sc, us, specs) := by
  unfold scanOne
  rw [foldl_collectSpec_irrelevant specs h, contains_decorate_false specs h,
    lastDecorateIdx_none specs h]
  simp

theorem scanImps_irrelevant (stmts : List Stmt) (h : noMobxRelevantImps stmts = true)
    (sc : List String) (us : Bool) : scanImps stmts sc us = (stmts, sc, us) := by
  induction stmts generalizing sc us with
  | nil => rfl
  | cons s rest ih =>
    simp only [noMobxRelevantImps, List.all_cons, Bool.and_eq_true] at h
    obtain ⟨h1, h2⟩ := h
    have ih' := ih (by simpa [noMobxRelevantImps] using h2)
    cases s with
    | impStmt src specs =>
      by_cases hsrc : src = "mobx"
      · subst hsrc
        simp only at h1
        simp [scanImps, scanOne_irrelevant specs h1, ih']
      · simp [scanImps, hsrc, ih']
    | classStmt c => simp [scanImps, ih']
    | exprStmt e l => simp [scanImps, ih']
    | otherStmt l => simp [scanImps, ih']

/-- A file with no imports at all but a class member carrying a non-mobx
decorator `@foo`:

```
class C { @foo x = 1 }
```
-/
def exC3 : List Stmt :=
  [ .classStmt { name := some "C", hasSuper := false
               , body := [withDecs (plainField "x" (some (.litExpr 1 l0)))
                            [{ expr := .ident "foo" l0, loc := l0 }]]
               , loc := l0 } ]

/-- C3 counterexample: the claim says such a file produces no diagnostics.
On `exC3` — no supported import, no `decorate`, no `ignoreImports` — the
pipeline still runs the member scan, emits the "non-mobx decorator"
diagnostic, and only then returns the unchanged sentinel. -/
theorem c3_cex_diagnostic_emitted :
    tranform exC3 false = .ok (none, [msgNonMobx]) ∧ ([msgNonMobx] : List String) ≠ [] :=
  ⟨by rfl, by simp⟩

/-- C3 (amended): with no supported annotation imported from mobx, no
`decorate` import and `ignoreImports` unset, whenever the transform completes
it returns the unchanged sentinel — but only after the member scan has run
(which may emit diagnostics and mutate the discarded tree), not immediately. -/
theorem c3_unchanged_sentinel (f : List Stmt) (out : Option (List Stmt) × List String)
    (h : noMobxRelevantImps f = true) (hok : tranform f false = .ok out) :
    out.1 = none := by
  have hscan := scanImps_irrelevant f h [] false
  simp only [tranform, Bool.false_eq_true, if_false, hscan] at hok
  cases hcl : classLoop [] f [] false false with
  | error er => rw [hcl] at hok; simp at hok
  | ok r =>
    obtain ⟨stmts3, diags2, changed2, needsInit⟩ := r
    rw [hcl] at hok
    simp only [List.isEmpty_nil, Bool.false_eq_true, not_false_iff, and_self, if_true] at hok
    cases hok
    rfl

/-- Witness for C3: the hypotheses are satisfiable — `exC3` itself has no
relevant mobx import and the transform completes on it. -/
theorem c3_unchanged_sentinel_witness :
    ((none : Option (List Stmt)), [msgNonMobx]).1 = (none : Option (List Stmt)) :=
  c3_unchanged_sentinel exC3 (none, [msgNonMobx]) (by rfl) (by rfl)

/-! ## C5 — the out-of-scope check fires only for bare identifier decorators -/

/-- `@foo.bar x = 1` with all three supported names in scope (`foo` is not). -/
def exC5m : Member :=
  withDecs (plainField "x" (some (.litExpr 1 l0)))
    [{ expr := .memberAcc (.ident "foo" l0) (.ident "bar" l0) false l0, loc := l0 }]

/-- C5 counterexample: the claim says a member-expression decorator with an
out-of-scope base gets a diagnostic and keeps its decorator list.  On
`@foo.bar x = 1` the rewriter emits no diagnostic (the resulting state is
exactly the input state) and strips the decorator list. -/
theorem c5_cex_member_decorator_stripped_silently :
    hp validDecorators (some "C") [exC5m] exC5m emptyH =
      .ok (withDecs exC5m [], false, emptyH) ∧
    (withDecs exC5m []).decorators ≠ exC5m.decorators :=
  ⟨by rfl, by simp [withDecs, exC5m]⟩

/-- C5 (amended): the scope check at undecorate.ts line 278 applies only to
bare identifier decorators — those are warned about and left fully untouched;
a member-expression (`A.B`) or single-argument call decorator whose base is
not one of the three supported names is stripped from the member without any
diagnostic and without any other rewrite. -/
theorem c5_scope_check_only_for_identifiers :
    (∀ (scope : List String) (cname : Option String) (body : List Member) (m : Member)
       (ps : HSt) (n : String) (el : Option Loc) (dl : Loc),
      m.decorators = [{ expr := Expr.ident n el, loc := some dl }] →
      scope.contains n = false →
      hp scope cname body m ps =
        .ok (m, false, { ps with diags := ps.diags ++ [msgNonMobx] })) ∧
    (∀ (scope : List String) (cname : Option String) (body : List Member) (m : Member)
       (ps : HSt) (b s : String) (lb ls lm dl : Option Loc) (cb : Bool),
      m.decorators = [{ expr := Expr.memberAcc (.ident b lb) (.ident s ls) cb lm, loc := dl }] →
      m.isStatic = false → b ≠ "action" → b ≠ "observable" → b ≠ "computed" →
      hp scope cname body m ps = .ok (withDecs m [], false, ps)) ∧
    (∀ (scope : List String) (cname : Option String) (body : List Member) (m : Member)
       (ps : HSt) (b : String) (lb lc dl : Option Loc) (a : Expr),
      m.decorators = [{ expr := Expr.callExpr (.ident b lb) [a] lc, loc := dl }] →
      m.isStatic = false → b ≠ "action" → b ≠ "observable" → b ≠ "computed" →
      hp scope cname body m ps = .ok (withDecs m [], false, ps)) := by
  refine ⟨?_, ?_, ?_⟩
  · intro scope cname body m ps n el dl hdec hsc
    obtain ⟨mk, mkey, mv, mp, mb, mg, ma, mdecs, mst, mc, mr, ml⟩ := m
    have hn : n ∉ scope := by simpa using hsc
    simp only at hdec
    subst hdec
    simp [hp, hpDispatch, identOutOfScope, warnH, hsc, hn]
  · intro scope cname body m ps b s lb ls lm dl cb hdec hst hb1 hb2 hb3
    obtain ⟨mk, mkey, mv, mp, mb, mg, ma, mdecs, mst, mc, mr, ml⟩ := m
    simp only at hdec hst
    subst hdec hst
    simp [hp, hpDispatch, identOutOfScope, parseProperty, parsePropertyStep, parseArgGuard, withDecs, hb1, hb2, hb3]
  · intro scope cname body m ps b lb lc dl a hdec hst hb1 hb2 hb3
    obtain ⟨mk, mkey, mv, mp, mb, mg, ma, mdecs, mst, mc, mr, ml⟩ := m
    simp only at hdec hst
    subst hdec hst
    simp [hp, hpDispatch, identOutOfScope, parseProperty, parsePropertyStep, parseArgGuard, withDecs, hb1, hb2, hb3]

/-- Concrete members for the C5 witness. -/
def exC5w1 : Member := withDecs (plainField "a" none) [{ expr := .ident "zap" l0, loc := l0 }]
def exC5w2 : Member :=
  withDecs (plainField "a" none)
    [{ expr := .memberAcc (.ident "zap" l0) (.ident "deep" l0) false l0, loc := l0 }]
def exC5w3 : Member :=
  withDecs (plainField "a" none)
    [{ expr := .callExpr (.ident "zap" l0) [.litExpr 3 l0] l0, loc := l0 }]

/-- Witness for C5: all three parts apply at concrete members. -/
theorem c5_scope_check_only_for_identifiers_witness :
    hp [] none [] exC5w1 emptyH =
      .ok (exC5w1, false, { emptyH with diags := emptyH.diags ++ [msgNonMobx] }) ∧
    hp [] none [] exC5w2 emptyH = .ok (withDecs exC5w2 [], false, emptyH) ∧
    hp [] none [] exC5w3 emptyH = .ok (withDecs exC5w3 [], false, emptyH) :=
  ⟨c5_scope_check_only_for_identifiers.1 [] none [] exC5w1 emptyH "zap" l0 ⟨1, 0⟩ rfl rfl,
   c5_scope_check_only_for_identifiers.2.1 [] none [] exC5w2 emptyH "zap" "deep" l0 l0 l0 l0
     false rfl rfl (by decide) (by decide) (by decide),
   c5_scope_check_only_for_identifiers.2.2 [] none [] exC5w3 emptyH "zap" l0 l0 l0
     (.litExpr 3 l0) rfl rfl (by decide) (by decide) (by decide)⟩

/-! ## C6 — anonymous class, plain action method: warns, but strips and marks changed -/

/-- A plain `@action m() { }` method member. -/
def exC6m : Member :=
  { kind := .method, key := .ident "m" l0, value := none, params := 0, body := [.plainStmt 7]
    isGenerator := false, isAsync := false
    decorators := [{ expr := .ident "action" l0, loc := l0 }]
    isStatic := false, comments := 0, retType := 0, loc := l0 }

/-- C6 counterexample: for a plain action method of an anonymous class the
claim says the decorator remains and the file is not marked changed.  The
rewriter does warn and inserts nothing, but it has already cleared the
decorator list and set `changed` (undecorate.ts line 293 runs before the
anonymous-class check). -/
theorem c6_cex_anonymous_class_strips_and_marks_changed :
    hp ["action"] none [exC6m] exC6m emptyH =
      .ok (withDecs exC6m [], false,
           { emptyH with changed := true, diags := [msgAnon] }) ∧
    (withDecs exC6m []).decorators ≠ exC6m.decorators :=
  ⟨by rfl, by simp [withDecs, exC6m]⟩

/-- C6 (amended): for every plain (non-bound) action method of an anonymous
class the rewriter emits the diagnostic and inserts no prototype-assignment
statement, but the member's decorator list is cleared and the file is marked
changed. -/
theorem c6_anonymous_action_method (scope : List String) (body : List Member)
    (m : Member) (ps : HSt) (la dl : Option Loc) (ml : Loc)
    (hkind : m.kind = MKind.method)
    (hdec : m.decorators = [{ expr := Expr.ident "action" la, loc := dl }])
    (hst : m.isStatic = false) (hloc : m.loc = some ml)
    (hsc : scope.contains "action" = true) :
    hp scope none body m ps =
      .ok (withDecs m [], false,
           { ps with changed := true, diags := ps.diags ++ [msgAnon] }) := by
  have hn : "action" ∈ scope := by simpa using hsc
  obtain ⟨mk, mkey, mv, mp, mb, mg, ma, mdecs, mst, mc, mr, ml'⟩ := m
  simp only at hkind hdec hst hloc
  subst hkind hdec hst hloc
  simp [hp, hpDispatch, identOutOfScope, parseProperty, parsePropertyStep, parseArgGuard, genProto, warnH, withDecs, hsc, hn, isClassMethod]

/-- Witness for C6: the amended statement applies to the concrete member. -/
theorem c6_anonymous_action_method_witness :
    hp ["action"] none [] exC6m emptyH =
      .ok (withDecs exC6m [], false,
           { emptyH with changed := true, diags := emptyH.diags ++ [msgAnon] }) :=
  c6_anonymous_action_method ["action"] [] exC6m emptyH l0 l0 ⟨1, 0⟩ rfl rfl rfl rfl rfl

/-! ## C4 — the "unknown case" diagnostic exists only in the action branch -/

/-- `@observable m() { }` — an observable annotation on a method. -/
def exC4m : Member :=
  { kind := .method, key := .ident "m" l0, value := none, params := 0, body := [.plainStmt 7]
    isGenerator := false, isAsync := false
    decorators := [{ expr := .ident "observable" l0, loc := l0 }]
    isStatic := false, comments := 0, retType := 0, loc := l0 }

/-- C4 counterexample: the claim says an observable annotation on a method is
an unknown-case: diagnostic plus member untouched.  Instead the observable
branch runs without any kind check: no diagnostic at all, the member's
decorator is stripped, a `.value` is assigned, `changed` and
`needsConstructor` are set. -/
theorem c4_cex_observable_method_rewritten_without_diagnostic :
    hp ["observable"] (some "C") [exC4m] exC4m emptyH =
      .ok ({ exC4m with decorators := []
                        value := some (.callExpr (.ident "observable" none) [] none) },
           false, { emptyH with changed := true, needsCtor := true }) ∧
    ({ emptyH with changed := true, needsCtor := true }).diags = [] ∧
    [msgUnknownAction] ≠ ([] : List String) :=
  ⟨by rfl, rfl, by simp⟩

/-- C4 (amended): the unknown-case fall-through exists only in the action
branch.  (a) An action annotation on a getter does emit the unknown-case
diagnostic — but the decorator list has already been cleared and the file is
marked changed.  (b) An observable annotation on a method is rewritten (value
wrapped, `needsConstructor` set) with no diagnostic.  (c) A computed
annotation on a plain field (without sibling setter) is likewise rewritten
into a `computed(...)` field with no diagnostic. -/
theorem c4_unknown_case_only_for_action :
    (∀ (scope : List String) (cname : Option String) (body : List Member) (m : Member)
       (ps : HSt) (la dl : Option Loc) (ml : Loc),
      m.kind = MKind.getter →
      m.decorators = [{ expr := Expr.ident "action" la, loc := dl }] →
      m.isStatic = false → m.loc = some ml → scope.contains "action" = true →
      hp scope cname body m ps =
        .ok (withDecs m [], false,
             { ps with changed := true, diags := ps.diags ++ [msgUnknownAction] })) ∧
    (∀ (scope : List String) (cname : Option String) (body : List Member) (m : Member)
       (ps : HSt) (la dl : Option Loc),
      m.kind = MKind.method →
      m.decorators = [{ expr := Expr.ident "observable" la, loc := dl }] →
      m.isStatic = false → scope.contains "observable" = true →
      hp scope cname body m ps =
        .ok ({ m with decorators := []
                      value := some (fnCall "observable" "" [m.value]) },
             false, { ps with changed := true, needsCtor := true })) ∧
    (∀ (scope : List String) (cname : Option String) (body : List Member) (m : Member)
       (ps : HSt) (la dl : Option Loc),
      m.kind = MKind.field →
      m.decorators = [{ expr := Expr.ident "computed" la, loc := dl }] →
      m.isStatic = false → scope.contains "computed" = true →
      setterLookup body m = none →
      hp scope cname body m ps =
        .ok (mkFieldFrom m.key (fnCall "computed" "" [m.value, none, none]) m.comments,
             true, { ps with changed := true, needsCtor := true })) := by
  refine ⟨?_, ?_, ?_⟩
  · intro scope cname body m ps la dl ml hkind hdec hst hloc hsc
    obtain ⟨mk, mkey, mv, mp, mb, mg, ma, mdecs, mst, mc, mr, ml'⟩ := m
    have hn : "action" ∈ scope := by simpa using hsc
    simp only at hkind hdec hst hloc
    subst hkind hdec hst hloc
    simp [hp, hpDispatch, identOutOfScope, parseProperty, parsePropertyStep, parseArgGuard, warnH, withDecs, hsc, hn, isClassMethod]
  · intro scope cname body m ps la dl hkind hdec hst hsc
    obtain ⟨mk, mkey, mv, mp, mb, mg, ma, mdecs, mst, mc, mr, ml'⟩ := m
    have hn : "observable" ∈ scope := by simpa using hsc
    simp only at hkind hdec hst
    subst hkind hdec hst
    simp [hp, hpDispatch, identOutOfScope, parseProperty, parsePropertyStep, parseArgGuard, hsc, hn, isClassMethod]
  · intro scope cname body m ps la dl hkind hdec hst hsc hset
    obtain ⟨mk, mkey, mv, mp, mb, mg, ma, mdecs, mst, mc, mr, ml'⟩ := m
    have hn : "computed" ∈ scope := by simpa using hsc
    simp only at hkind hdec hst
    subst hkind hdec hst
    simp [hp, hpDispatch, identOutOfScope, parseProperty, parsePropertyStep, parseArgGuard, hsc, hn, hset, isClassMethod, toArrowFn]

/-- `@computed c0 = 1` — a computed annotation on a plain field. -/
def exC4w3 : Member :=
  withDecs (plainField "c0" (some (.litExpr 1 l0)))
    [{ expr := .ident "computed" l0, loc := l0 }]

/-! ## C2 — a decorate call is removed iff every entry converted

Spec-side predicates (from the spec's words, to compare with the
implementation): an entry "converts successfully" when it is a plain
identifier-keyed property, its value is not an array expression, and it either
names an existing member or is synthesizable (absent with an
`observable`-shaped value).  `allOk` folds this over the entries against the
evolving class body. -/

/-- Spec-side: does this entry convert successfully against this body. -/
def entryOk (body : List Member) : Entry → Bool
  | .spread _ => false
  | .prop kname _ isM isS isC v _ =>
    !(isM || isS || isC || kname.isNone) && !(isArrayE v) &&
      ((memberIdx body (kname.getD "")).isSome || obsShaped v)

/-- Spec-side: body and insertion offset after one successful entry. -/
def entryNext (body : List Member) (off : Nat) : Entry → List Member × Nat
  | .spread _ => (body, off)
  | .prop kname kloc _ _ _ v _ =>
    let name := kname.getD ""
    match memberIdx body name with
    | some i => (setDec body i v, off)
    | none =>
      if obsShaped v then (insertAtPos body off (mkSynthField name kloc v), off + 1)
      else (body, off)

/-- Spec-side: every entry converts successfully, against the evolving body. -/
def allOk (body : List Member) (off : Nat) : List Entry → Bool
  | [] => true
  | e :: rest =>
    entryOk body e &&
      (let bn := entryNext body off e
       allOk bn.1 bn.2 rest)

/-- Entry whose value is an array expression (composed decorators). -/
def isArrayValued : Entry → Bool
  | .prop _ _ _ _ _ v _ => isArrayE v
  | .spread _ => false

theorem entryStep_char (body : List Member) (off : Nat) (canR : Bool) (st : TSt)
    (e : Entry) (b1 : List Member) (o1 : Nat) (c1 : Bool) (st1 : TSt)
    (h : entryStep body off canR st e = .ok (b1, o1, c1, st1)) :
    c1 = (canR && entryOk body e) ∧
    b1 = (if entryOk body e then (entryNext body off e).1 else body) ∧
    o1 = (if entryOk body e then (entryNext body off e).2 else off) := by
  cases e with
  | spread l =>
    cases l with
    | none => simp [entryStep, warnT] at h
    | some ll =>
      simp only [entryStep, warnT, Except.ok.injEq, Prod.mk.injEq] at h
      obtain ⟨h1, h2, h3, h4⟩ := h
      simp [entryOk, ← h1, ← h2, ← h3]
  | prop kname kloc isM isS isC v l =>
    by_cases hflag : (isM || isS || isC || kname.isNone) = true
    · simp only [entryStep, hflag, if_true] at h
      cases l with
      | none => simp [warnT] at h
      | some ll =>
        simp only [warnT, Except.ok.injEq, Prod.mk.injEq] at h
        obtain ⟨h1, h2, h3, h4⟩ := h
        simp [entryOk, hflag, ← h1, ← h2, ← h3]
    · rw [Bool.not_eq_true] at hflag
      by_cases harr : isArrayE v = true
      · simp only [entryStep, hflag, Bool.false_eq_true, if_false, harr, if_true] at h
        cases hel : exprLoc v with
        | none => rw [hel] at h; simp [warnT] at h
        | some ll =>
          rw [hel] at h
          simp only [warnT, Except.ok.injEq, Prod.mk.injEq] at h
          obtain ⟨h1, h2, h3, h4⟩ := h
          simp [entryOk, hflag, harr, ← h1, ← h2, ← h3]
      · rw [Bool.not_eq_true] at harr
        simp only [entryStep, hflag, Bool.false_eq_true, if_false, harr] at h
        cases hmi : memberIdx body (kname.getD "") with
        | some i =>
          rw [hmi] at h
          simp only [Except.ok.injEq, Prod.mk.injEq] at h
          obtain ⟨h1, h2, h3, h4⟩ := h
          simp [entryOk, entryNext, hflag, harr, hmi, ← h1, ← h2, ← h3]
        | none =>
          rw [hmi] at h
          by_cases hobs : obsShaped v = true
          · simp only [hobs, if_true, Except.ok.injEq, Prod.mk.injEq] at h
            obtain ⟨h1, h2, h3, h4⟩ := h
            simp [entryOk, entryNext, hflag, harr, hmi, hobs, ← h1, ← h2, ← h3]
          · rw [Bool.not_eq_true] at hobs
            simp only [hobs, Bool.false_eq_true, if_false] at h
            cases l with
            | none => simp [warnT] at h
            | some ll =>
              simp only [warnT, Except.ok.injEq, Prod.mk.injEq] at h
              obtain ⟨h1, h2, h3, h4⟩ := h
              simp [entryOk, entryNext, hflag, harr, hmi, hobs, ← h1, ← h2, ← h3]

theorem runEntries_canRemove (entries : List Entry) :
    ∀ (body : List Member) (off : Nat) (canR : Bool) (st : TSt)
      (b : List Member) (o : Nat) (c : Bool) (st' : TSt),
      runEntries body off canR st entries = .ok (b, o, c, st') →
      c = (canR && allOk body off entries) := by
  induction entries with
  | nil =>
    intro body off canR st b o c st' h
    simp only [runEntries, Except.ok.injEq, Prod.mk.injEq] at h
    obtain ⟨h1, h2, h3, h4⟩ := h
    simp [allOk, ← h3]
  | cons e rest ih =>
    intro body off canR st b o c st' h
    simp only [runEntries] at h
    cases hes : entryStep body off canR st e with
    | error er => rw [hes] at h; simp at h
    | ok r =>
      obtain ⟨b1, o1, c1, st1⟩ := r
      rw [hes] at h
      have hch := entryStep_char body off canR st e b1 o1 c1 st1 hes
      obtain ⟨hc1, hb1, ho1⟩ := hch
      have hrec := ih b1 o1 c1 st1 b o c st' h
      by_cases hok : entryOk body e = true
      · rw [hok] at hc1 hb1 ho1
        simp only [if_true, Bool.and_true] at hc1 hb1 ho1
        subst hc1 hb1 ho1
        simp [allOk, hok, hrec]
      · rw [Bool.not_eq_true] at hok
        rw [hok] at hc1 hb1 ho1
        simp only [Bool.false_eq_true, if_false, Bool.and_false] at hc1 hb1 ho1
        subst hc1 hb1 ho1
        simp [allOk, hok, hrec]

theorem allOk_false_of_array (entries : List Entry) :
    ∀ (e : Entry) (body : List Member) (off : Nat),
      e ∈ entries → isArrayValued e = true → allOk body off entries = false := by
  induction entries with
  | nil => intro e body off he; cases he
  | cons e0 rest ih =>
    intro e body off he harr
    rcases List.mem_cons.mp he with he0 | hrest
    · subst he0
      cases e with
      | spread l => simp [isArrayValued] at harr
      | prop kname kloc isM isS isC v l =>
        simp only [isArrayValued] at harr
        simp [allOk, entryOk, harr]
    · simp [allOk, ih e _ _ hrest harr]

/-- C2: (1) for a decorate call that passes the structural checks, the remove
flag returned (call statement pruned) is exactly the spec-side "every entry
converted successfully" predicate over the resolved class body; (2) an
array-valued entry appends exactly one diagnostic, leaves the body untouched
and forces the flag to false; (3) any array-valued entry makes "every entry
converted" false, so the call expression stays in place. -/
theorem c2_removed_iff_all_entries_convert :
    (∀ (stmts : List Stmt) (tname : String) (entries : List Entry)
       (tl ol cloc : Option Loc) (st : TSt) (j : Nat) (cl : ClassDecl)
       (r : Option (Nat × ClassDecl) × Bool × TSt),
      findClass? stmts tname = some (j, cl) →
      processCall stmts [.ident tname tl, .objectExpr entries ol] cloc st = .ok r →
      r.2.1 = allOk cl.body 0 entries) ∧
    (∀ (body : List Member) (off : Nat) (canR : Bool) (st : TSt) (name : String)
       (kloc l : Option Loc) (lv : Loc),
      entryStep body off canR st
          (.prop (some name) kloc false false false (.arrayExpr (some lv)) l) =
        .ok (body, off, false, { st with diags := st.diags ++ [msgComposed] })) ∧
    (∀ (entries : List Entry) (e : Entry) (body : List Member) (off : Nat),
      e ∈ entries → isArrayValued e = true → allOk body off entries = false) := by
  refine ⟨?_, ?_, allOk_false_of_array⟩
  · intro stmts tname entries tl ol cloc st j cl r hfc hok
    simp only [processCall, hfc] at hok
    cases hre : runEntries cl.body 0 true st entries with
    | error er => rw [hre] at hok; simp at hok
    | ok r2 =>
      obtain ⟨b', o', canR, st2⟩ := r2
      rw [hre] at hok
      simp only [Except.ok.injEq] at hok
      have := runEntries_canRemove entries cl.body 0 true st b' o' canR st2 hre
      rw [← hok]
      simpa using this
  · intro body off canR st name kloc l lv
    simp [entryStep, warnT, isArrayE, exprLoc]

/-- Concrete class for the C2 witness. -/
def exC2cl : ClassDecl :=
  { name := some "C", hasSuper := false, body := [plainField "x" none], loc := l0 }

/-- Witness for C2: all three parts apply at concrete inputs: an empty entry
list (remove flag true), a concrete array-valued entry, and a one-element
entry list containing it. -/
theorem c2_removed_iff_all_entries_convert_witness :
    ((some (0, exC2cl), true, ({ diags := [], changed := true } : TSt)) :
        Option (Nat × ClassDecl) × Bool × TSt).2.1 = allOk exC2cl.body 0 [] ∧
    entryStep [] 0 true { diags := [], changed := false }
        (.prop (some "y") l0 false false false (.arrayExpr l0) l0) =
      .ok ([], 0, false,
           { diags := ([] : List String) ++ [msgComposed], changed := false }) ∧
    allOk [] 0 [.prop (some "y") l0 false false false (.arrayExpr l0) l0] = false :=
  ⟨c2_removed_iff_all_entries_convert.1 [.classStmt exC2cl] "C" [] l0 l0 l0
     { diags := [], changed := false } 0 exC2cl
     (some (0, exC2cl), true, { diags := [], changed := true }) rfl rfl,
   c2_removed_iff_all_entries_convert.2.1 [] 0 true { diags := [], changed := false }
     "y" l0 l0 ⟨1, 0⟩,
   c2_removed_iff_all_entries_convert.2.2
     [.prop (some "y") l0 false false false (.arrayExpr l0) l0]
     (.prop (some "y") l0 false false false (.arrayExpr l0) l0) [] 0
     (List.mem_singleton.mpr rfl) rfl⟩

/-! ## Identity lemmas: undecorated members and failing entries change nothing -/

/-- `handleProperty` on a member without decorators returns it unchanged. -/
theorem hp_undecorated (scope : List String) (cname : Option String)
    (origBody : List Member) (m : Member) (ps : HSt) (h : m.decorators = []) :
    hp scope cname origBody m ps = .ok (m, false, ps) := by
  obtain ⟨mk, mkey, mv, mp, mb, mg, ma, mdecs, mst, mc, mr, ml⟩ := m
  simp only at h
  subst h
  rfl

/-- The member map is the identity (with `isNew = false` everywhere) on a body
whose members carry no decorators. -/
theorem hpMapIdx_undecorated (ms : List Member) :
    ∀ (scope : List String) (cname : Option String) (origBody : List Member) (ps : HSt),
      ms.all (fun m => m.decorators.isEmpty) = true →
      hpMapIdx scope cname origBody ms ps = .ok (ms.map (fun m => (m, false)), ps) := by
  induction ms with
  | nil => intro scope cname origBody ps h; rfl
  | cons m rest ih =>
    intro scope cname origBody ps h
    simp only [List.all_cons, Bool.and_eq_true] at h
    obtain ⟨h1, h2⟩ := h
    have hd : m.decorators = [] := by simpa [List.isEmpty_iff] using h1
    by_cases hk : (isClassProperty m || isClassMethod m) = true
    · simp only [hpMapIdx, hk, if_true, hp_undecorated scope cname origBody m ps hd,
        ih scope cname origBody ps h2, List.map_cons]
    · simp only [hpMapIdx, hk, Bool.false_eq_true, if_false,
        ih scope cname origBody ps h2, List.map_cons]

theorem removeFilterAux_nil_rem (l : List (Member × Bool)) (i : Nat) :
    removeFilterAux [] l i = l.map (fun p => p.1) := by
  induction l generalizing i with
  | nil => rfl
  | cons x rest ih =>
    obtain ⟨m, b⟩ := x
    simp [removeFilterAux, ih]

/-- With nothing recorded for removal, the removal filter keeps everything. -/
theorem removeFilter_map_false (ms : List Member) :
    removeFilter (ms.map (fun m => (m, false))) [] = ms := by
  unfold removeFilter
  rw [removeFilterAux_nil_rem]
  simp [List.map_map, Function.comp_def]

/-- A class whose members carry no decorators is left untouched. -/
theorem handleClass_undecorated (scope : List String) (c : ClassDecl)
    (diags : List String) (changed : Bool)
    (h : c.body.all (fun m => m.decorators.isEmpty) = true) :
    handleClass scope c diags changed = .ok (c, [], false, diags, changed) := by
  have hm := hpMapIdx_undecorated c.body scope c.name c.body
    { diags := diags, changed := changed, needsCtor := false, removeIdxs := [], after := [] } h
  unfold handleClass
  simp only [hm, removeFilter_map_false]
  rfl

/-- Statement-level: every class in the statement has only undecorated members. -/
def stmtUndecorated : Stmt → Bool
  | .classStmt c => c.body.all (fun m => m.decorators.isEmpty)
  | _ => true

/-- The class pass is the identity on a file whose classes are undecorated. -/
theorem classLoop_undecorated (stmts : List Stmt) :
    ∀ (scope : List String) (diags : List String) (changed ni : Bool),
      stmts.all stmtUndecorated = true →
      classLoop scope stmts diags changed ni = .ok (stmts, diags, changed, ni) := by
  induction stmts with
  | nil => intro scope diags changed ni h; rfl
  | cons s rest ih =>
    intro scope diags changed ni h
    simp only [List.all_cons, Bool.and_eq_true] at h
    obtain ⟨h1, h2⟩ := h
    cases s with
    | classStmt c =>
      simp only [stmtUndecorated] at h1
      simp only [classLoop, handleClass_undecorated scope c diags changed h1,
        Bool.or_false, ih scope diags changed ni h2, List.nil_append]
    | impStmt src specs => simp only [classLoop, ih scope diags changed ni h2]
    | exprStmt e l => simp only [classLoop, ih scope diags changed ni h2]
    | otherStmt l => simp only [classLoop, ih scope diags changed ni h2]

/-- Both warn locations an entry may need. -/
def entryLocsOk : Entry → Bool
  | .spread l => l.isSome
  | .prop _ _ _ _ _ v l => l.isSome && (exprLoc v).isSome

/-- A failing entry leaves body and offset unchanged, forces the remove flag
to false and appends exactly one diagnostic. -/
theorem entryStep_fail (body : List Member) (off : Nat) (canR : Bool) (st : TSt)
    (e : Entry) (hf : entryOk body e = false) (hl : entryLocsOk e = true) :
    ∃ d, entryStep body off canR st e =
      .ok (body, off, false, { st with diags := st.diags ++ [d] }) := by
  cases e with
  | spread l =>
    simp only [entryLocsOk, Option.isSome_iff_exists] at hl
    obtain ⟨ll, hll⟩ := hl
    subst hll
    exact ⟨msgPlainProp, rfl⟩
  | prop kname kloc isM isS isC v l =>
    simp only [entryLocsOk, Bool.and_eq_true, Option.isSome_iff_exists] at hl
    obtain ⟨⟨ll, hll⟩, ⟨vl, hvl⟩⟩ := hl
    subst hll
    by_cases hflag : (isM || isS || isC || kname.isNone) = true
    · refine ⟨msgPlainProp, ?_⟩
      simp [entryStep, hflag, warnT]
    · rw [Bool.not_eq_true] at hflag
      by_cases harr : isArrayE v = true
      · refine ⟨msgComposed, ?_⟩
        simp [entryStep, hflag, harr, hvl, warnT]
      · rw [Bool.not_eq_true] at harr
        cases hmi : memberIdx body (kname.getD "") with
        | some i => exact absurd hf (by simp [entryOk, hflag, harr, hmi])
        | none =>
          by_cases hobs : obsShaped v = true
          · exact absurd hf (by simp [entryOk, hflag, harr, hmi, hobs])
          · rw [Bool.not_eq_true] at hobs
            refine ⟨msgMissing, ?_⟩
            simp [entryStep, hflag, harr, hmi, hobs, warnT]

/-- `allOk` is false as soon as the first entry fails. -/
theorem allOk_false_of_head_fail (body : List Member) (off : Nat) (e : Entry)
    (rest : List Entry) (hf : entryOk body e = false) :
    allOk body off (e :: rest) = false := by
  simp [allOk, hf]

/-- Running the entries when every one of them fails (against the unchanged
body): the body and offset are preserved and the flag is `canR && allOk`. -/
theorem runEntries_allFail (entries : List Entry) :
    ∀ (body : List Member) (off : Nat) (canR : Bool) (st : TSt),
      entries.all (fun e => !(entryOk body e)) = true →
      entries.all entryLocsOk = true →
      ∃ st', runEntries body off canR st entries =
        .ok (body, off, canR && allOk body off entries, st') := by
  induction entries with
  | nil =>
    intro body off canR st hfail hlocs
    exact ⟨st, by simp [runEntries, allOk]⟩
  | cons e rest ih =>
    intro body off canR st hfail hlocs
    simp only [List.all_cons, Bool.and_eq_true] at hfail hlocs
    obtain ⟨hf1, hf2⟩ := hfail
    obtain ⟨hl1, hl2⟩ := hlocs
    rw [Bool.not_eq_true'] at hf1
    obtain ⟨d, hstep⟩ := entryStep_fail body off canR st e hf1 hl1
    obtain ⟨st', hrest⟩ := ih body off false { st with diags := st.diags ++ [d] }
      (by simpa using hf2) hl2
    refine ⟨st', ?_⟩
    simp only [runEntries, hstep, hrest, allOk_false_of_head_fail body off e rest hf1,
      Bool.and_false]
    simp

/-! ## C10 — a structurally valid decorate call sets `changed` even with zero
converting entries -/

/-- C10: for a file `import { decorate } from "mobx"; class …; decorate(C,
{...})` whose call passes the structural checks but none of whose (at least
one) entries converts, the transform still reports a changed file whose only
difference from the input is the removed `decorate` import specifier: the
call statement stays, the class is untouched. -/
theorem c10_zero_converting_entries_still_changed (cl : ClassDecl) (cname : String)
    (entries : List Entry) (tl ol dl cc sl : Option Loc)
    (hname : cl.name = some cname)
    (hcl : cl.body.all (fun m => m.decorators.isEmpty) = true)
    (hne : entries ≠ [])
    (hfail : entries.all (fun e => !(entryOk cl.body e)) = true)
    (hlocs : entries.all entryLocsOk = true) :
    ∃ ds, tranform
        [ .impStmt "mobx" [.named "decorate"]
        , .classStmt cl
        , .exprStmt (.callExpr (.ident "decorate" dl)
            [.ident cname tl, .objectExpr entries ol] cc) sl ] false
      = .ok (some
        [ .impStmt "mobx" []
        , .classStmt cl
        , .exprStmt (.callExpr (.ident "decorate" dl)
            [.ident cname tl, .objectExpr entries ol] cc) sl ], ds) := by
  obtain ⟨st', hre⟩ :=
    runEntries_allFail entries cl.body 0 true { diags := [], changed := false } hfail hlocs
  have hallOk : allOk cl.body 0 entries = false := by
    cases entries with
    | nil => exact absurd rfl hne
    | cons e rest =>
      simp only [List.all_cons, Bool.and_eq_true] at hfail
      refine allOk_false_of_head_fail cl.body 0 e rest ?_
      have := hfail.1
      rwa [Bool.not_eq_true'] at this
  rw [hallOk, Bool.and_false] at hre
  refine ⟨st'.diags, ?_⟩
  have heta : ({ cl with body := cl.body } : ClassDecl) = cl := rfl
  have hfc : findClass?
      [ Stmt.impStmt "mobx" []
      , Stmt.classStmt cl
      , Stmt.exprStmt (.callExpr (.ident "decorate" dl)
          [.ident cname tl, .objectExpr entries ol] cc) sl ] cname = some (1, cl) := by
    simp [findClass?, hname]
  have hpc : processCall
      [ Stmt.impStmt "mobx" []
      , Stmt.classStmt cl
      , Stmt.exprStmt (.callExpr (.ident "decorate" dl)
          [.ident cname tl, .objectExpr entries ol] cc) sl ]
      [.ident cname tl, .objectExpr entries ol] cc { diags := [], changed := false } =
      .ok (some (1, cl), false, { st' with changed := true }) := by
    simp only [processCall, hfc, hre, heta]
  have hdl : decorateLoop
      (([ Stmt.impStmt "mobx" []
        , Stmt.classStmt cl
        , Stmt.exprStmt (.callExpr (.ident "decorate" dl)
            [.ident cname tl, .objectExpr entries ol] cc) sl ] : List Stmt).length + 1)
      [ Stmt.impStmt "mobx" []
      , Stmt.classStmt cl
      , Stmt.exprStmt (.callExpr (.ident "decorate" dl)
          [.ident cname tl, .objectExpr entries ol] cc) sl ] 0 { diags := [], changed := false } =
      .ok ([ Stmt.impStmt "mobx" []
           , Stmt.classStmt cl
           , Stmt.exprStmt (.callExpr (.ident "decorate" dl)
               [.ident cname tl, .objectExpr entries ol] cc) sl ],
           { st' with changed := true }) := by
    show (match processCall
        [ Stmt.impStmt "mobx" []
        , Stmt.classStmt cl
        , Stmt.exprStmt (.callExpr (.ident "decorate" dl)
            [.ident cname tl, .objectExpr entries ol] cc) sl ]
        [.ident cname tl, .objectExpr entries ol] cc { diags := [], changed := false } with
      | .error er => (Except.error er : Except Unit (List Stmt × TSt))
      | .ok (upd, remove, st2) =>
        let stmts' : List Stmt := match upd with
          | none =>
            [ Stmt.impStmt "mobx" []
            , Stmt.classStmt cl
            , Stmt.exprStmt (.callExpr (.ident "decorate" dl)
                [.ident cname tl, .objectExpr entries ol] cc) sl ]
          | some (j, c') =>
            ([ Stmt.impStmt "mobx" []
             , Stmt.classStmt cl
             , Stmt.exprStmt (.callExpr (.ident "decorate" dl)
                 [.ident cname tl, .objectExpr entries ol] cc) sl ] : List Stmt).set j
              (.classStmt c')
        if remove then decorateLoop 1 (stmts'.eraseIdx 2) 2 st2
        else decorateLoop 1 stmts' 3 st2) =
      .ok ([ Stmt.impStmt "mobx" []
           , Stmt.classStmt cl
           , Stmt.exprStmt (.callExpr (.ident "decorate" dl)
               [.ident cname tl, .objectExpr entries ol] cc) sl ],
           { st' with changed := true })
    rw [hpc]
    rfl
  have hclp := classLoop_undecorated
      [ Stmt.impStmt "mobx" []
      , Stmt.classStmt cl
      , Stmt.exprStmt (.callExpr (.ident "decorate" dl)
          [.ident cname tl, .objectExpr entries ol] cc) sl ] [] st'.diags true false
      (by simp [stmtUndecorated, hcl])
  have hscan : scanImps
      [ Stmt.impStmt "mobx" [.named "decorate"]
      , Stmt.classStmt cl
      , Stmt.exprStmt (.callExpr (.ident "decorate" dl)
          [.ident cname tl, .objectExpr entries ol] cc) sl ] [] false =
      ([ Stmt.impStmt "mobx" []
       , Stmt.classStmt cl
       , Stmt.exprStmt (.callExpr (.ident "decorate" dl)
           [.ident cname tl, .objectExpr entries ol] cc) sl ], [], true) := rfl
  simp only [tranform, Bool.false_eq_true, if_false, eq_self_iff_true, if_true, hscan,
    hdl, hclp]
  simp

/-- Concrete data for the C10 witness: `decorate(C, { y: [a] })` against
`class C { x }` — the lone entry is array-valued, so nothing converts. -/
def exC10cl : ClassDecl :=
  { name := some "C", hasSuper := false, body := [plainField "x" none], loc := l0 }

def exC10entry : Entry := .prop (some "y") l0 false false false (.arrayExpr l0) l0

/-- Witness for C10: the hypotheses are satisfiable at the concrete input. -/
theorem c10_zero_converting_entries_still_changed_witness :
    ∃ ds, tranform
        [ .impStmt "mobx" [.named "decorate"]
        , .classStmt exC10cl
        , .exprStmt (.callExpr (.ident "decorate" l0)
            [.ident "C" l0, .objectExpr [exC10entry] l0] l0) l0 ] false
      = .ok (some
        [ .impStmt "mobx" []
        , .classStmt exC10cl
        , .exprStmt (.callExpr (.ident "decorate" l0)
            [.ident "C" l0, .objectExpr [exC10entry] l0] l0) l0 ], ds) :=
  c10_zero_converting_entries_still_changed exC10cl "C" [exC10entry] l0 l0 l0 l0 l0
    rfl rfl (by simp) (by rfl) (by rfl)

/-! ## C7 — synthesized observable fields

Entries considered: plain identifier-keyed properties whose value denotes
`observable` as a bare identifier or `observable.sub` with identifier
sub-decorator (the shape the later classifier also understands). -/

/-- Value shape `observable` or `observable.x` (identifiers throughout). -/
def obsIdentShaped : Expr → Bool
  | .ident n _ => n == "observable"
  | .memberAcc (.ident n _) (.ident _ _) _ _ => n == "observable"
  | _ => false

/-- A fully convertible, member-synthesizing entry. -/
def goodEntry : Entry → Bool
  | .prop (some _) _ false false false v _ => obsIdentShaped v
  | _ => false

/-- The name a (plain) entry registers. -/
def entryName : Entry → String
  | .prop kname _ _ _ _ _ _ => kname.getD ""
  | .spread _ => ""

/-- The key location of a (plain) entry. -/
def entryKeyLoc : Entry → Option Loc
  | .prop _ kloc _ _ _ _ _ => kloc
  | .spread _ => none

/-- The value of a (plain) entry. -/
def entryValue : Entry → Expr
  | .prop _ _ _ _ _ v _ => v
  | .spread _ => .nullExpr

/-- The synthesized decorated member for an absent observable entry. -/
def mkSynthOf (e : Entry) : Member :=
  mkSynthField (entryName e) (entryKeyLoc e) (entryValue e)

/-- Callee of the rewritten `observable`/`observable.sub` call (built by
`fnCall`, hence location-free; an empty sub name is falsy and dropped). -/
def obsCalleeOf : Expr → Expr
  | .memberAcc (.ident _ _) (.ident s _) _ _ =>
    if s ≠ "" then .memberAcc (.ident "observable" none) (.ident s none) false none
    else .ident "observable" none
  | _ => .ident "observable" none

/-- The synthesized member after the member rewriter ran over it:
`name = observable()` (resp. `observable.sub()`), no decorators. -/
def procField (e : Entry) : Member :=
  { kind := .field, key := .ident (entryName e) (entryKeyLoc e)
    value := some (.callExpr (obsCalleeOf (entryValue e)) [] none)
    params := 0, body := [], isGenerator := false, isAsync := false, decorators := []
    isStatic := false, comments := 0, retType := 0, loc := none }

/-- The member-lookup predicate used by `memberIdx`. -/
def memberNamed (name : String) (mm : Member) : Bool :=
  (isClassProperty mm || isClassMethod mm) &&
    (match mm.key with | .ident a _ => a == name | _ => false)

theorem findIdxP_none_of_all_false {α : Type} (p : α → Bool) (l : List α)
    (h : ∀ x ∈ l, p x = false) : l.findIdx? p = none := by
  induction l with
  | nil => rfl
  | cons x xs ih =>
    rw [List.findIdx?_cons]
    rw [h x (List.mem_cons_self x xs)]
    simpa using ih (fun y hy => h y (List.mem_cons_of_mem x hy))

theorem memberIdx_eq_findIdx (body : List Member) (name : String) :
    memberIdx body name = body.findIdx? (memberNamed name) := rfl

theorem memberIdx_none_of_all (body : List Member) (name : String)
    (h : ∀ m ∈ body, memberNamed name m = false) : memberIdx body name = none :=
  findIdxP_none_of_all_false _ body h

/-- `insertAtPos` at the length of the left part inserts between the parts. -/
theorem insertAtPos_append {α : Type} (l1 : List α) (l2 : List α) (a : α) :
    insertAtPos (l1 ++ l2) l1.length a = l1 ++ a :: l2 := by
  induction l1 with
  | nil => cases l2 <;> rfl
  | cons x xs ih => simpa [insertAtPos] using ih

/-- No `set` accessor in an all-fields body. -/
theorem setterLookup_none_of_fields (body : List Member) (p : Member)
    (h : ∀ m ∈ body, m.kind = MKind.field) : setterLookup body p = none := by
  apply findIdxP_none_of_all_false
  intro m hm
  simp [isClassMethod, h m hm]

theorem obsIdent_props (v : Expr) (h : obsIdentShaped v = true) :
    obsShaped v = true ∧ isArrayE v = false := by
  unfold obsIdentShaped at h
  split at h
  · next n l => exact ⟨by simpa [obsShaped] using h, rfl⟩
  · next n lo s lp c lm => exact ⟨by simpa [obsShaped] using h, rfl⟩
  · exact absurd h (by simp)

/-- Processing a run of synthesizable observable entries against a body that
contains none of their (pairwise distinct) names: each entry inserts its
synthesized member at the running offset, keeping entry order, and the remove
flag stays true with no diagnostics. -/
theorem runEntries_good (entries : List Entry) :
    ∀ (pre post : List Member) (st : TSt),
      entries.all goodEntry = true →
      entries.Pairwise (fun a b => entryName a ≠ entryName b) →
      (∀ e ∈ entries, ∀ m ∈ pre ++ post, memberNamed (entryName e) m = false) →
      runEntries (pre ++ post) pre.length true st entries =
        .ok (pre ++ (entries.map mkSynthOf ++ post), pre.length + entries.length, true, st) := by
  induction entries with
  | nil => intro pre post st _ _ _; simp [runEntries]
  | cons e rest ih =>
    intro pre post st hall hpw habs
    simp only [List.all_cons, Bool.and_eq_true] at hall
    obtain ⟨hg, hall'⟩ := hall
    obtain ⟨hpw1, hpw'⟩ := List.pairwise_cons.mp hpw
    cases e with
    | spread l => simp [goodEntry] at hg
    | prop kname kloc isM isS isC v l =>
      cases kname with
      | none => simp [goodEntry] at hg
      | some name =>
        cases isM with
        | true => simp [goodEntry] at hg
        | false =>
        cases isS with
        | true => simp [goodEntry] at hg
        | false =>
        cases isC with
        | true => simp [goodEntry] at hg
        | false =>
        have hobs : obsIdentShaped v = true := by simpa [goodEntry] using hg
        obtain ⟨hobs', harr⟩ := obsIdent_props v hobs
        have hmi : memberIdx (pre ++ post) name = none := by
          apply memberIdx_none_of_all
          intro m hm
          have := habs _ (List.mem_cons_self _ _) m hm
          simpa [entryName] using this
        have hstep : entryStep (pre ++ post) pre.length true st
            (.prop (some name) kloc false false false v l) =
            .ok (pre ++ mkSynthField name kloc v :: post, pre.length + 1, true, st) := by
          simp [entryStep, harr, hmi, hobs', insertAtPos_append]
        have habs' : ∀ e' ∈ rest, ∀ m ∈ (pre ++ [mkSynthField name kloc v]) ++ post,
            memberNamed (entryName e') m = false := by
          intro e' he' m hm
          rcases List.mem_append.mp hm with hm1 | hm2
          · rcases List.mem_append.mp hm1 with hm3 | hm4
            · exact habs e' (List.mem_cons_of_mem _ he') m
                (List.mem_append.mpr (Or.inl hm3))
            · have hm5 : m = mkSynthField name kloc v := by simpa using hm4
              subst hm5
              have hne : name ≠ entryName e' := by
                have := hpw1 e' he'
                simpa [entryName] using this
              simp [memberNamed, mkSynthField, isClassProperty, isClassMethod, hne]
          · exact habs e' (List.mem_cons_of_mem _ he') m (List.mem_append.mpr (Or.inr hm2))
        have hrec := ih (pre ++ [mkSynthField name kloc v]) post st hall'
          (by exact hpw') habs'
        simp only [List.append_assoc, List.singleton_append, List.length_append,
          List.length_singleton] at hrec
        simp only [runEntries, hstep]
        rw [hrec, show pre.length + 1 + rest.length = pre.length + (rest.length + 1) from by
          omega]
        simp [mkSynthOf, entryName, entryKeyLoc, entryValue]

/-- The member rewriter on a synthesized observable member: the sole
decorator is classified as `observable`/`observable.sub`, the null value is
wrapped into a zero-argument `observable()` call (the null initializer is
filtered out by `fnCall`'s `filter(Boolean)`), `changed` and
`needsConstructor` are set. -/
theorem hp_synth_obs (scope : List String) (cname : Option String)
    (origBody : List Member) (ps : HSt) (name : String) (kloc : Option Loc) (v : Expr)
    (hobs : obsIdentShaped v = true) (hsc : "observable" ∈ scope)
    (hfields : ∀ m ∈ origBody, m.kind = MKind.field) :
    hp scope cname origBody (mkSynthField name kloc v) ps =
      .ok ({ kind := .field, key := .ident name kloc
             value := some (.callExpr (obsCalleeOf v) [] none)
             params := 0, body := [], isGenerator := false, isAsync := false
             decorators := [], isStatic := false, comments := 0, retType := 0, loc := none },
           false, { ps with changed := true, needsCtor := true }) := by
  have hset := setterLookup_none_of_fields origBody (mkSynthField name kloc v) hfields
  have hsc' : scope.contains "observable" = true := by simpa using hsc
  unfold obsIdentShaped at hobs
  split at hobs
  · next n lv =>
    have hn : n = "observable" := by simpa using hobs
    subst hn
    simp [hp, hpDispatch, identOutOfScope, mkSynthField, parseProperty, parsePropertyStep, parseArgGuard, hsc, hsc', hset, obsCalleeOf, fnCall]
  · next n lo s lp cb lm =>
    have hn : n = "observable" := by simpa using hobs
    subst hn
    simp [hp, hpDispatch, identOutOfScope, mkSynthField, parseProperty, parsePropertyStep, parseArgGuard, hsc, hsc', hset, obsCalleeOf, fnCall]
  · exact absurd hobs (by simp)

/-- The member map distributes over appended bodies. -/
theorem hpMapIdx_append (l1 : List Member) :
    ∀ (l2 : List Member) (scope : List String) (cname : Option String)
      (origBody : List Member) (ps : HSt) (r1 : List (Member × Bool)) (ps1 : HSt),
      hpMapIdx scope cname origBody l1 ps = .ok (r1, ps1) →
      hpMapIdx scope cname origBody (l1 ++ l2) ps =
        (match hpMapIdx scope cname origBody l2 ps1 with
         | .error e => .error e
         | .ok (r2, ps2) => .ok (r1 ++ r2, ps2)) := by
  induction l1 with
  | nil =>
    intro l2 scope cname origBody ps r1 ps1 h1
    simp only [hpMapIdx, Except.ok.injEq, Prod.mk.injEq] at h1
    obtain ⟨h1a, h1b⟩ := h1
    subst h1a h1b
    simp only [List.nil_append]
    cases hpMapIdx scope cname origBody l2 ps with
    | error e => rfl
    | ok r => obtain ⟨r2, ps2⟩ := r; rfl
  | cons m rest ih =>
    intro l2 scope cname origBody ps r1 ps1 h1
    simp only [hpMapIdx, List.cons_append] at h1 ⊢
    by_cases hk : (isClassProperty m || isClassMethod m) = true
    · simp only [hk, if_true] at h1 ⊢
      cases hhp : hp scope cname origBody m ps with
      | error e => simp [hhp] at h1
      | ok r =>
        obtain ⟨m', isNew, ps'⟩ := r
        simp only [hhp] at h1 ⊢
        cases hrest : hpMapIdx scope cname origBody rest ps' with
        | error e => simp [hrest] at h1
        | ok rr =>
          obtain ⟨l, psf⟩ := rr
          simp only [hrest, Except.ok.injEq, Prod.mk.injEq] at h1
          obtain ⟨h1a, h1b⟩ := h1
          subst h1a h1b
          rw [List.append_eq, ih l2 scope cname origBody ps' l psf hrest]
          cases hpMapIdx scope cname origBody l2 psf with
          | error e => rfl
          | ok r2 => obtain ⟨r2', ps2⟩ := r2; simp
    · rw [Bool.not_eq_true] at hk
      simp only [hk, Bool.false_eq_true, if_false] at h1 ⊢
      cases hrest : hpMapIdx scope cname origBody rest ps with
      | error e => simp [hrest] at h1
      | ok rr =>
        obtain ⟨l, psf⟩ := rr
        simp only [hrest, Except.ok.injEq, Prod.mk.injEq] at h1
        obtain ⟨h1a, h1b⟩ := h1
        subst h1a h1b
        rw [List.append_eq, ih l2 scope cname origBody ps l psf hrest]
        cases hpMapIdx scope cname origBody l2 psf with
        | error e => rfl
        | ok r2 => obtain ⟨r2', ps2⟩ := r2; simp

/-- The member map over the synthesized members: every one becomes its
`observable()` field, and (for a nonempty run) the state gains `changed` and
`needsConstructor`. -/
theorem hpMapIdx_synths (entries : List Entry) :
    ∀ (scope : List String) (cname : Option String) (origBody : List Member) (ps : HSt),
      entries.all goodEntry = true → "observable" ∈ scope →
      (∀ m ∈ origBody, m.kind = MKind.field) →
      hpMapIdx scope cname origBody (entries.map mkSynthOf) ps =
        .ok (entries.map (fun e => (procField e, false)),
             if entries.isEmpty then ps
             else { ps with changed := true, needsCtor := true }) := by
  induction entries with
  | nil => intro scope cname origBody ps _ _ _; rfl
  | cons e rest ih =>
    intro scope cname origBody ps hall hsc hfields
    simp only [List.all_cons, Bool.and_eq_true] at hall
    obtain ⟨hg, hall'⟩ := hall
    cases e with
    | spread l => simp [goodEntry] at hg
    | prop kname kloc isM isS isC v l =>
      cases kname with
      | none => simp [goodEntry] at hg
      | some name =>
        cases isM with
        | true => simp [goodEntry] at hg
        | false =>
        cases isS with
        | true => simp [goodEntry] at hg
        | false =>
        cases isC with
        | true => simp [goodEntry] at hg
        | false =>
        have hobs : obsIdentShaped v = true := by simpa [goodEntry] using hg
        have hhp := hp_synth_obs scope cname origBody ps name kloc v hobs hsc hfields
        have hrec := ih scope cname origBody { ps with changed := true, needsCtor := true }
          hall' hsc hfields
        simp only [List.map_cons, hpMapIdx, mkSynthOf, entryName, entryKeyLoc, entryValue,
          Option.getD_some] at hhp hrec ⊢
        rw [show (isClassProperty (mkSynthField name kloc v) ||
            isClassMethod (mkSynthField name kloc v)) = true from rfl]
        simp only [if_true, hhp, hrec]
        cases rest with
        | nil => simp [procField, entryName, entryKeyLoc, entryValue]
        | cons e2 r2 => simp [procField, entryName, entryKeyLoc, entryValue]

/-- With nothing recorded for removal, the filter keeps every mapped member. -/
theorem removeFilter_nil (l : List (Member × Bool)) :
    removeFilter l [] = l.map (fun p => p.1) :=
  removeFilterAux_nil_rem l 0

/-- Constructor synthesis for a superclass-free class of fields only: the new
constructor (body = the lone init call) is appended at the end. -/
theorem createConstructor_fields (c : ClassDecl) (diags : List String)
    (hsuper : c.hasSuper = false) (hfields : ∀ m ∈ c.body, m.kind = MKind.field) :
    createConstructor c diags =
      .ok ({ c with body := c.body ++ [mkCtor [.initObs]] }, diags) := by
  have hnoctor : c.body.findIdx? (fun mm => isClassMethod mm && mm.kind == MKind.ctor) =
      none := by
    apply findIdxP_none_of_all_false
    intro m hm
    simp [isClassMethod, hfields m hm]
  have hnometh : c.body.findIdx? (fun mm => isClassMethod mm) = none := by
    apply findIdxP_none_of_all_false
    intro m hm
    simp [isClassMethod, hfields m hm]
  simp [createConstructor, hnoctor, hnometh, hsuper]

/-- The class pass over the decorate-rewritten class: synthesized members
become `observable()` fields (in order, before the original members), the
original undecorated members stay, and the init-call constructor is
appended. -/
theorem handleClass_c7 (scope : List String) (cl : ClassDecl) (entries : List Entry)
    (diags : List String)
    (hsc : "observable" ∈ scope)
    (hgood : entries.all goodEntry = true)
    (hne : entries ≠ [])
    (hfields : ∀ m ∈ cl.body, m.kind = MKind.field)
    (hund : cl.body.all (fun m => m.decorators.isEmpty) = true)
    (hsuper : cl.hasSuper = false) :
    handleClass scope { cl with body := entries.map mkSynthOf ++ cl.body } diags true =
      .ok ({ cl with body := (entries.map procField ++ cl.body) ++ [mkCtor [.initObs]] },
           [], true, diags, true) := by
  have hfields' : ∀ m ∈ entries.map mkSynthOf ++ cl.body, m.kind = MKind.field := by
    intro m hm
    rcases List.mem_append.mp hm with h | h
    · obtain ⟨e, he, rfl⟩ := List.mem_map.mp h
      rfl
    · exact hfields m h
  have hne' : entries.isEmpty = false := by
    cases entries with
    | nil => exact absurd rfl hne
    | cons a b => rfl
  have h1 := hpMapIdx_synths entries scope cl.name (entries.map mkSynthOf ++ cl.body)
      { diags := diags, changed := true, needsCtor := false, removeIdxs := [], after := [] }
      hgood hsc hfields'
  rw [hne'] at h1
  simp only [Bool.false_eq_true, if_false] at h1
  have h2 := hpMapIdx_undecorated cl.body scope cl.name (entries.map mkSynthOf ++ cl.body)
      { diags := diags, changed := true, needsCtor := true, removeIdxs := [], after := [] }
      hund
  have happ := hpMapIdx_append (entries.map mkSynthOf) cl.body scope cl.name
      (entries.map mkSynthOf ++ cl.body)
      { diags := diags, changed := true, needsCtor := false, removeIdxs := [], after := [] }
      (entries.map (fun e => (procField e, false)))
      { diags := diags, changed := true, needsCtor := true, removeIdxs := [], after := [] }
      h1
  rw [h2] at happ
  have hbody1 : removeFilter
      (entries.map (fun e => (procField e, false)) ++ cl.body.map (fun m => (m, false)))
      [] = entries.map procField ++ cl.body := by
    rw [removeFilter_nil]
    simp [List.map_map, Function.comp_def]
  have hcc := createConstructor_fields
      { cl with body := entries.map procField ++ cl.body } diags
      (by simpa using hsuper)
      (by intro m hm
          rcases List.mem_append.mp hm with h | h
          · obtain ⟨e, he, rfl⟩ := List.mem_map.mp h
            rfl
          · exact hfields m h)
  unfold handleClass
  simp only [happ, hbody1, hcc]
  rfl

/-- C7: a legacy decorate call whose (pairwise distinct, at least one) entries
all name absent members with observable-denoting values: the output class
gains one `name = observable()` (or `observable.sub()`) field per entry, in
entry order, before the original members; the init-call constructor is
appended; the decorate call statement is removed; the decorate specifier is
replaced by the init-hook import; no diagnostics are emitted. -/
theorem c7_synthesized_observable_fields (cl : ClassDecl) (cname : String)
    (entries : List Entry) (tl ol dl cc sl : Option Loc)
    (hname : cl.name = some cname)
    (hsuper : cl.hasSuper = false)
    (hfields : ∀ m ∈ cl.body, m.kind = MKind.field)
    (hund : cl.body.all (fun m => m.decorators.isEmpty) = true)
    (hgood : entries.all goodEntry = true)
    (hne : entries ≠ [])
    (hpw : entries.Pairwise (fun a b => entryName a ≠ entryName b))
    (habs : ∀ e ∈ entries, ∀ m ∈ cl.body, memberNamed (entryName e) m = false) :
    tranform
      [ .impStmt "mobx" [.named "observable", .named "decorate"]
      , .classStmt cl
      , .exprStmt (.callExpr (.ident "decorate" dl)
          [.ident cname tl, .objectExpr entries ol] cc) sl ] false
    = .ok (some
      [ .impStmt "mobx" [.named "observable", .named "initializeObservables"]
      , .classStmt { cl with
          body := (entries.map procField ++ cl.body) ++ [mkCtor [.initObs]] } ],
      []) := by
  have hre := runEntries_good entries [] cl.body { diags := [], changed := false }
    hgood hpw (by intro e he m hm; exact habs e he m (by simpa using hm))
  simp only [List.nil_append, List.length_nil, Nat.zero_add] at hre
  have hfc : findClass?
      [ Stmt.impStmt "mobx" [.named "observable"]
      , Stmt.classStmt cl
      , Stmt.exprStmt (.callExpr (.ident "decorate" dl)
          [.ident cname tl, .objectExpr entries ol] cc) sl ] cname = some (1, cl) := by
    simp [findClass?, hname]
  have hpc : processCall
      [ Stmt.impStmt "mobx" [.named "observable"]
      , Stmt.classStmt cl
      , Stmt.exprStmt (.callExpr (.ident "decorate" dl)
          [.ident cname tl, .objectExpr entries ol] cc) sl ]
      [.ident cname tl, .objectExpr entries ol] cc { diags := [], changed := false } =
      .ok (some (1, { cl with body := entries.map mkSynthOf ++ cl.body }), true,
           { diags := [], changed := true }) := by
    simp only [processCall, hfc, hre]
  have hdl : decorateLoop
      (([ Stmt.impStmt "mobx" [.named "observable"]
        , Stmt.classStmt cl
        , Stmt.exprStmt (.callExpr (.ident "decorate" dl)
            [.ident cname tl, .objectExpr entries ol] cc) sl ] : List Stmt).length + 1)
      [ Stmt.impStmt "mobx" [.named "observable"]
      , Stmt.classStmt cl
      , Stmt.exprStmt (.callExpr (.ident "decorate" dl)
          [.ident cname tl, .objectExpr entries ol] cc) sl ] 0 { diags := [], changed := false } =
      .ok ([ Stmt.impStmt "mobx" [.named "observable"]
           , Stmt.classStmt { cl with body := entries.map mkSynthOf ++ cl.body } ],
           { diags := [], changed := true }) := by
    show (match processCall
        [ Stmt.impStmt "mobx" [.named "observable"]
        , Stmt.classStmt cl
        , Stmt.exprStmt (.callExpr (.ident "decorate" dl)
            [.ident cname tl, .objectExpr entries ol] cc) sl ]
        [.ident cname tl, .objectExpr entries ol] cc { diags := [], changed := false } with
      | .error er => (Except.error er : Except Unit (List Stmt × TSt))
      | .ok (upd, remove, st2) =>
        let stmts' : List Stmt := match upd with
          | none =>
            [ Stmt.impStmt "mobx" [.named "observable"]
            , Stmt.classStmt cl
            , Stmt.exprStmt (.callExpr (.ident "decorate" dl)
                [.ident cname tl, .objectExpr entries ol] cc) sl ]
          | some (j, c') =>
            ([ Stmt.impStmt "mobx" [.named "observable"]
             , Stmt.classStmt cl
             , Stmt.exprStmt (.callExpr (.ident "decorate" dl)
                 [.ident cname tl, .objectExpr entries ol] cc) sl ] : List Stmt).set j
              (.classStmt c')
        if remove then decorateLoop 1 (stmts'.eraseIdx 2) 2 st2
        else decorateLoop 1 stmts' 3 st2) =
      .ok ([ Stmt.impStmt "mobx" [.named "observable"]
           , Stmt.classStmt { cl with body := entries.map mkSynthOf ++ cl.body } ],
           { diags := [], changed := true })
    rw [hpc]
    rfl
  have hhc := handleClass_c7 ["observable"] cl entries [] (by simp) hgood hne hfields hund
    hsuper
  have hclp : classLoop ["observable"]
      [ Stmt.impStmt "mobx" [.named "observable"]
      , Stmt.classStmt { cl with body := entries.map mkSynthOf ++ cl.body } ]
      [] true false =
      .ok ([ Stmt.impStmt "mobx" [.named "observable"]
           , Stmt.classStmt { cl with
               body := (entries.map procField ++ cl.body) ++ [mkCtor [.initObs]] } ],
           [], true, true) := by
    simp only [classLoop, hhc]
    rfl
  have hscan : scanImps
      [ Stmt.impStmt "mobx" [.named "observable", .named "decorate"]
      , Stmt.classStmt cl
      , Stmt.exprStmt (.callExpr (.ident "decorate" dl)
          [.ident cname tl, .objectExpr entries ol] cc) sl ] [] false =
      ([ Stmt.impStmt "mobx" [.named "observable"]
       , Stmt.classStmt cl
       , Stmt.exprStmt (.callExpr (.ident "decorate" dl)
           [.ident cname tl, .objectExpr entries ol] cc) sl ], ["observable"], true) := rfl
  simp only [tranform, Bool.false_eq_true, if_false, eq_self_iff_true, if_true, hscan,
    hdl, hclp]
  simp [patchInit]

/-- Concrete data for the C7 witness: `decorate(S, { a: observable,
b: observable.ref })` against `class S { x = 1 }`. -/
def exC7cl : ClassDecl :=
  { name := some "S", hasSuper := false
    body := [plainField "x" (some (.litExpr 1 l0))], loc := l0 }

def exC7e1 : Entry := .prop (some "a") l0 false false false (.ident "observable" l0) l0

def exC7e2 : Entry :=
  .prop (some "b") l0 false false false
    (.memberAcc (.ident "observable" l0) (.ident "ref" l0) false l0) l0

/-- Witness for C7: the hypotheses are satisfiable at the concrete input. -/
theorem c7_synthesized_observable_fields_witness :
    tranform
      [ .impStmt "mobx" [.named "observable", .named "decorate"]
      , .classStmt exC7cl
      , .exprStmt (.callExpr (.ident "decorate" l0)
          [.ident "S" l0, .objectExpr [exC7e1, exC7e2] l0] l0) l0 ] false
    = .ok (some
      [ .impStmt "mobx" [.named "observable", .named "initializeObservables"]
      , .classStmt { exC7cl with
          body := ([exC7e1, exC7e2].map procField ++ exC7cl.body) ++ [mkCtor [.initObs]] } ],
      []) :=
  c7_synthesized_observable_fields exC7cl "S" [exC7e1, exC7e2] l0 l0 l0 l0 l0
    rfl rfl
    (by intro m hm
        simp only [exC7cl] at hm
        rw [List.mem_singleton] at hm
        subst hm
        rfl)
    rfl rfl (by simp)
    (by refine List.Pairwise.cons ?_ (List.Pairwise.cons ?_ List.Pairwise.nil)
        · intro b hb
          rw [List.mem_singleton] at hb
          subst hb
          decide
        · intro b hb
          cases hb)
    (by intro e he m hm
        simp only [exC7cl] at hm
        rw [List.mem_singleton] at hm
        subst hm
        rcases List.mem_cons.mp he with h | h
        · subst h; rfl
        · rw [List.mem_singleton] at h; subst h; rfl)

/-! ## C8 — computed getter/setter pairs -/

theorem findIdxP_append {α : Type} (p : α → Bool) (l1 : List α) :
    ∀ (l2 : List α), (∀ x ∈ l1, p x = false) →
      (l1 ++ l2).findIdx? p =
        (match l2.findIdx? p with
         | none => none
         | some i => some (l1.length + i)) := by
  induction l1 with
  | nil =>
    intro l2 _
    simp only [List.nil_append, List.length_nil]
    cases hfi : l2.findIdx? p with
    | none => simp
    | some i => simp
  | cons x xs ih =>
    intro l2 h
    rw [List.cons_append, List.findIdx?_cons, h x (List.mem_cons_self x xs)]
    simp only [Bool.false_eq_true, if_false, List.findIdx?_succ]
    rw [ih l2 (fun y hy => h y (List.mem_cons_of_mem x hy))]
    cases hfi : l2.findIdx? p with
    | none => simp
    | some i =>
      simp only [Option.map_some', List.length_cons, Option.some.injEq]
      omega

theorem getElem?_append_add {α : Type} (l1 : List α) :
    ∀ (l2 : List α) (n : Nat), (l1 ++ l2)[l1.length + n]? = l2[n]? := by
  induction l1 with
  | nil => intro l2 n; simp
  | cons x xs ih =>
    intro l2 n
    rw [List.cons_append]
    simp only [List.length_cons]
    rw [show xs.length + 1 + n = (xs.length + n) + 1 from by omega]
    rw [List.getElem?_cons_succ]
    exact ih l2 n

/-- `handleProperty` on a computed getter whose sibling setter lookup hits
index `sIdx`: the getter is replaced by a brand-new field folding the wrapped
getter and setter bodies into a `computed(...)` call; the setter index is
recorded for removal; `changed` and `needsConstructor` are set. -/
theorem hp_computed_getter (scope : List String) (cname : Option String)
    (origBody : List Member) (g : Member) (ps : HSt) (gname : String)
    (kl la dl : Option Loc) (sIdx : Nat) (s : Member)
    (hkind : g.kind = MKind.getter)
    (hkey : g.key = .ident gname kl)
    (hdec : g.decorators = [{ expr := .ident "computed" la, loc := dl }])
    (hst : g.isStatic = false)
    (hsc : "computed" ∈ scope)
    (hsl : setterLookup origBody g = some sIdx)
    (hsm : origBody[sIdx]? = some s) :
    hp scope cname origBody g ps =
      .ok (mkFieldFrom g.key
             (fnCall "computed" ""
               [toArrowFn (.ofMethod g), toArrowFn (.ofMethod s), none])
             g.comments,
           true,
           { ps with changed := true, needsCtor := true
                     removeIdxs := ps.removeIdxs ++ [sIdx] }) := by
  have hsc' : scope.contains "computed" = true := by simpa using hsc
  obtain ⟨mk, mkey, mv, mp, mb, mg, ma, mdecs, mst, mc, mr, ml⟩ := g
  simp only at hkind hkey hdec hst hsl hsm ⊢
  subst hkind hkey hdec hst
  simp [hp, hpDispatch, identOutOfScope, parseProperty, parsePropertyStep, parseArgGuard, hsc, hsc', hsl, hsm, isClassMethod]

/-- One-step unfolding of the member map. -/
theorem hpMapIdx_cons (scope : List String) (cname : Option String)
    (origBody : List Member) (m : Member) (rest : List Member) (ps : HSt)
    (m' : Member) (isNew : Bool) (ps' : HSt)
    (hk : (isClassProperty m || isClassMethod m) = true)
    (hhp : hp scope cname origBody m ps = .ok (m', isNew, ps')) :
    hpMapIdx scope cname origBody (m :: rest) ps =
      (match hpMapIdx scope cname origBody rest ps' with
       | .error e => .error e
       | .ok (l, psf) => .ok ((m', isNew) :: l, psf)) := by
  simp [hpMapIdx, hk, hhp]

theorem removeFilterAux_false_seg (j : Nat) (A : List Member) :
    ∀ (rest : List (Member × Bool)) (i : Nat),
      (∀ k, i ≤ k → k < i + A.length → k ≠ j) →
      removeFilterAux [j] (A.map (fun m => (m, false)) ++ rest) i =
        A ++ removeFilterAux [j] rest (i + A.length) := by
  induction A with
  | nil => intro rest i _; simp
  | cons m A' ih =>
    intro rest i h
    have hne : i ≠ j := h i le_rfl (by simp only [List.length_cons]; omega)
    have hc : ([j].contains i) = false := by
      simp only [List.contains_cons, List.contains_nil, Bool.or_false, beq_eq_false_iff_ne,
        ne_eq]
      omega
    simp only [List.map_cons, List.cons_append, removeFilterAux, hc, Bool.not_false,
      Bool.and_true, Bool.false_eq_true, if_false, List.append_eq]
    rw [ih rest (i + 1) (by
      intro k h1 h2
      refine h k (by omega) ?_
      simp only [List.length_cons]
      omega)]
    simp only [List.length_cons]
    rw [show i + 1 + A'.length = i + (A'.length + 1) from by omega]

theorem removeFilterAux_keep_new (j : Nat) (x : Member)
    (rest : List (Member × Bool)) (i : Nat) :
    removeFilterAux [j] ((x, true) :: rest) i = x :: removeFilterAux [j] rest (i + 1) := by
  simp [removeFilterAux]

theorem removeFilterAux_drop_old (j : Nat) (s : Member) (rest : List (Member × Bool)) :
    removeFilterAux [j] ((s, false) :: rest) j = removeFilterAux [j] rest (j + 1) := by
  simp [removeFilterAux]

/-- The removal filter for the computed getter/setter case: everything kept
in order, except the (old-node) setter at its recorded position. -/
theorem removeFilter_c8 (pre mid post : List Member) (x s : Member) :
    removeFilter
      (pre.map (fun m => (m, false)) ++ (x, true) ::
        (mid.map (fun m => (m, false)) ++ (s, false) :: post.map (fun m => (m, false))))
      [pre.length + (mid.length + 1)] =
      pre ++ x :: (mid ++ post) := by
  unfold removeFilter
  rw [removeFilterAux_false_seg _ pre _ 0 (by
    intro k h1 h2
    omega)]
  simp only [Nat.zero_add]
  rw [removeFilterAux_keep_new]
  rw [removeFilterAux_false_seg _ mid _ (pre.length + 1) (by
    intro k h1 h2
    omega)]
  rw [show pre.length + 1 + mid.length = pre.length + (mid.length + 1) from by omega]
  rw [removeFilterAux_drop_old]
  rw [show (post.map (fun m => (m, false))) = (post.map (fun m => (m, false))) ++ [] from by
    simp]
  rw [removeFilterAux_false_seg _ post _ (pre.length + (mid.length + 1) + 1) (by
    intro k h1 h2
    omega)]
  simp [removeFilterAux]

/-- The field replacing a computed getter with a paired setter. -/
def c8NewField (g s : Member) : Member :=
  mkFieldFrom g.key
    (fnCall "computed" "" [toArrowFn (.ofMethod g), toArrowFn (.ofMethod s), none])
    g.comments

/-- C8: for a class body `pre ++ getter :: (mid ++ setter :: post)` where the
getter is `@computed get name()`, the setter is the (only) `set name` sibling,
and all other members are undecorated non-setters: the getter is replaced by
a field folding the wrapped getter and setter into `computed(...)`, the setter
member is removed, every other sibling keeps its position, and constructor
synthesis then runs on exactly that body. -/
theorem c8_computed_getter_setter_pair (scope : List String) (cl : ClassDecl)
    (pre mid post : List Member) (g s : Member) (gname : String)
    (kl kl2 la dl : Option Loc) (diags : List String) (changed : Bool)
    (hbody : cl.body = pre ++ g :: (mid ++ s :: post))
    (hgkind : g.kind = MKind.getter)
    (hgkey : g.key = .ident gname kl)
    (hgdec : g.decorators = [{ expr := .ident "computed" la, loc := dl }])
    (hgst : g.isStatic = false)
    (hskind : s.kind = MKind.setter)
    (hskey : s.key = .ident gname kl2)
    (hsdec : s.decorators = [])
    (hsc : "computed" ∈ scope)
    (hpre : pre.all (fun m => m.decorators.isEmpty) = true)
    (hmid : mid.all (fun m => m.decorators.isEmpty) = true)
    (hpost : post.all (fun m => m.decorators.isEmpty) = true)
    (hnosetPre : ∀ m ∈ pre, (m.kind == MKind.setter) = false)
    (hnosetMid : ∀ m ∈ mid, (m.kind == MKind.setter) = false) :
    handleClass scope cl diags changed =
      (match createConstructor
          { cl with body := pre ++ c8NewField g s :: (mid ++ post) } diags with
       | .error e => (Except.error e :
           Except Unit (ClassDecl × List Stmt × Bool × List String × Bool))
       | .ok (c', diags') => .ok (c', [], true, diags', true)) := by
  have hB : cl.body = pre ++ g :: (mid ++ s :: post) := hbody
  have hsIdx : setterLookup cl.body g = some (pre.length + (mid.length + 1)) := by
    unfold setterLookup
    rw [hB]
    rw [show pre ++ g :: (mid ++ s :: post) = (pre ++ [g]) ++ (mid ++ s :: post) from by
      simp]
    rw [findIdxP_append _ (pre ++ [g]) (mid ++ s :: post) (by
      intro x hx
      rcases List.mem_append.mp hx with hx1 | hx2
      · simp [hnosetPre x hx1]
      · rw [List.mem_singleton] at hx2
        subst hx2
        simp [hgkind, isClassMethod])]
    rw [findIdxP_append _ mid (s :: post) (by
      intro x hx
      simp [hnosetMid x hx])]
    rw [List.findIdx?_cons]
    rw [show (isClassMethod s && s.kind == MKind.setter &&
        match s.key, g.key with
        | .ident a _, .ident b _ => a == b
        | _, _ => false) = true from by
      simp [isClassMethod, hskind, hskey, hgkey]]
    simp only [if_true, List.length_append, List.length_singleton]
    congr 1
    omega
  have hsm : cl.body[pre.length + (mid.length + 1)]? = some s := by
    rw [hB]
    rw [getElem?_append_add pre (g :: (mid ++ s :: post)) (mid.length + 1)]
    rw [List.getElem?_cons_succ]
    rw [show (mid.length : Nat) = mid.length + 0 from by omega]
    rw [getElem?_append_add mid (s :: post) 0]
    simp
  have hpg := hp_computed_getter scope cl.name cl.body g
    { diags := diags, changed := changed, needsCtor := false, removeIdxs := [], after := [] }
    gname kl la dl (pre.length + (mid.length + 1)) s hgkind hgkey hgdec hgst hsc hsIdx hsm
  have hgCM : (isClassProperty g || isClassMethod g) = true := by
    simp [isClassMethod, hgkind]
  have hsCM : (isClassProperty s || isClassMethod s) = true := by
    simp [isClassMethod, hskind]
  -- the member map over the whole body
  have hpost' := hpMapIdx_undecorated post scope cl.name cl.body
    { diags := diags, changed := true, needsCtor := true
      removeIdxs := [] ++ [pre.length + (mid.length + 1)], after := [] } hpost
  have hscons : hpMapIdx scope cl.name cl.body (s :: post)
      { diags := diags, changed := true, needsCtor := true
        removeIdxs := [] ++ [pre.length + (mid.length + 1)], after := [] } =
      .ok ((s, false) :: post.map (fun m => (m, false)),
        { diags := diags, changed := true, needsCtor := true
          removeIdxs := [] ++ [pre.length + (mid.length + 1)], after := [] }) := by
    rw [hpMapIdx_cons scope cl.name cl.body s post _ s false _ hsCM
      (hp_undecorated scope cl.name cl.body s _ hsdec), hpost']
  have hmid' := hpMapIdx_undecorated mid scope cl.name cl.body
    { diags := diags, changed := true, needsCtor := true
      removeIdxs := [] ++ [pre.length + (mid.length + 1)], after := [] } hmid
  have hmidcons := hpMapIdx_append mid (s :: post) scope cl.name cl.body
    { diags := diags, changed := true, needsCtor := true
      removeIdxs := [] ++ [pre.length + (mid.length + 1)], after := [] }
    (mid.map (fun m => (m, false))) _ hmid'
  rw [hscons] at hmidcons
  have hgcons : hpMapIdx scope cl.name cl.body (g :: (mid ++ s :: post))
      { diags := diags, changed := changed, needsCtor := false, removeIdxs := [], after := [] } =
      .ok ((mkFieldFrom g.key
              (fnCall "computed" ""
                [toArrowFn (.ofMethod g), toArrowFn (.ofMethod s), none]) g.comments,
            true) ::
            (mid.map (fun m => (m, false)) ++ (s, false) :: post.map (fun m => (m, false))),
        { diags := diags, changed := true, needsCtor := true
          removeIdxs := [] ++ [pre.length + (mid.length + 1)], after := [] }) := by
    rw [hpMapIdx_cons scope cl.name cl.body g (mid ++ s :: post) _ _ true _ hgCM hpg,
      hmidcons]
  have hpre' := hpMapIdx_undecorated pre scope cl.name cl.body
    { diags := diags, changed := changed, needsCtor := false, removeIdxs := [], after := [] }
    hpre
  have hall := hpMapIdx_append pre (g :: (mid ++ s :: post)) scope cl.name cl.body
    { diags := diags, changed := changed, needsCtor := false, removeIdxs := [], after := [] }
    (pre.map (fun m => (m, false))) _ hpre'
  rw [hgcons] at hall
  rw [← hB] at hall
  simp only [handleClass, hall]
  simp only [c8NewField, List.nil_append, removeFilter_c8, if_true]

/-- Concrete data for the C8 witness: `class K { a; @computed get x() …;
m() …; set x(v) …; c }`. -/
def exC8g : Member :=
  { kind := .getter, key := .ident "x" l0, value := none, params := 0, body := [.plainStmt 1]
    isGenerator := false, isAsync := false
    decorators := [{ expr := .ident "computed" l0, loc := l0 }]
    isStatic := false, comments := 0, retType := 0, loc := l0 }

def exC8s : Member :=
  { kind := .setter, key := .ident "x" l0, value := none, params := 1, body := [.plainStmt 2]
    isGenerator := false, isAsync := false, decorators := []
    isStatic := false, comments := 0, retType := 0, loc := l0 }

def exC8m : Member :=
  { kind := .method, key := .ident "m" l0, value := none, params := 0, body := [.plainStmt 3]
    isGenerator := false, isAsync := false, decorators := []
    isStatic := false, comments := 0, retType := 0, loc := l0 }

def exC8cl : ClassDecl :=
  { name := some "K", hasSuper := false
    body := [plainField "a" none, exC8g, exC8m, exC8s, plainField "c" none], loc := l0 }

/-- Witness for C8: the pair rewrite applies at the concrete class. -/
theorem c8_computed_getter_setter_pair_witness :
    handleClass ["computed"] exC8cl [] false =
      (match createConstructor
          { exC8cl with body := [plainField "a" none] ++ c8NewField exC8g exC8s ::
              ([exC8m] ++ [plainField "c" none]) } [] with
       | .error e => (Except.error e :
           Except Unit (ClassDecl × List Stmt × Bool × List String × Bool))
       | .ok (c', diags') => .ok (c', [], true, diags', true)) :=
  c8_computed_getter_setter_pair ["computed"] exC8cl [plainField "a" none] [exC8m]
    [plainField "c" none] exC8g exC8s "x" l0 l0 l0 l0 [] false rfl rfl rfl rfl rfl rfl rfl
    rfl (by simp) rfl rfl rfl (by decide) (by decide)

/-- Witness for C4: all three parts apply at concrete members. -/
theorem c4_unknown_case_only_for_action_witness :
    hp ["action"] none [] { exC4m with kind := MKind.getter
                                       decorators := [{ expr := .ident "action" l0, loc := l0 }] }
      emptyH =
      .ok (withDecs { exC4m with kind := MKind.getter
                                 decorators := [{ expr := .ident "action" l0, loc := l0 }] } [],
           false, { emptyH with changed := true, diags := emptyH.diags ++ [msgUnknownAction] }) ∧
    hp ["observable"] none [] exC4m emptyH =
      .ok ({ exC4m with decorators := []
                        value := some (fnCall "observable" "" [exC4m.value]) },
           false, { emptyH with changed := true, needsCtor := true }) ∧
    hp ["computed"] none [] exC4w3 emptyH =
      .ok (mkFieldFrom exC4w3.key (fnCall "computed" "" [exC4w3.value, none, none]) exC4w3.comments,
           true, { emptyH with changed := true, needsCtor := true }) :=
  ⟨c4_unknown_case_only_for_action.1 ["action"] none []
     { exC4m with kind := MKind.getter
                  decorators := [{ expr := .ident "action" l0, loc := l0 }] }
     emptyH l0 l0 ⟨1, 0⟩ rfl rfl rfl rfl rfl,
   c4_unknown_case_only_for_action.2.1 ["observable"] none [] exC4m emptyH l0 l0
     rfl rfl rfl rfl,
   c4_unknown_case_only_for_action.2.2 ["computed"] none [] exC4w3 emptyH l0 l0
     rfl rfl rfl rfl rfl⟩

/-! ## C9 — idempotence machinery

The second run of the transform is analysed through two invariants of the
first run's output: the import declarations carry no `decorate` specifier any
more (so `usesDecorate` is false and the scan is the identity), and every
class member that `handleProperty` will be called on is *inert* — running
`handleProperty` on it again returns it unchanged, at most emitting
diagnostics. -/

/-- Is a statement an import declaration? -/
def isImp (s : Stmt) : Bool :=
  match s with
  | .impStmt _ _ => true
  | _ => false

/-- Is a statement an expression statement? -/
def isExprS (s : Stmt) : Bool :=
  match s with
  | .exprStmt _ _ => true
  | _ => false

/-- The guard under which `handleProperty` is invoked on a class member
(undecorate.ts lines 218-223). -/
def memberGuard (m : Member) : Bool :=
  isClassProperty m || isClassMethod m

/-- No mobx import declaration still carries a `decorate` specifier. -/
def importsClean : List Stmt → Bool
  | [] => true
  | .impStmt src specs :: rest =>
    (if src = "mobx" then !(specs.contains (ImpSpec.named "decorate")) else true)
      && importsClean rest
  | _ :: rest => importsClean rest

/-- The `decoratorsUsed` scope determined by the import declarations alone
(what `scanImps` collects). -/
def collectStmts : List Stmt → List String → List String
  | [], sc => sc
  | .impStmt src specs :: rest, sc =>
    collectStmts rest (if src = "mobx" then specs.foldl collectSpec sc else sc)
  | _ :: rest, sc => collectStmts rest sc

/-- Number of `decorate` specifiers in an import clause. -/
def decCount (specs : List ImpSpec) : Nat :=
  (specs.filter (fun sp => sp = ImpSpec.named "decorate")).length

/-- Every mobx import clause names `decorate` at most once (importing the same
name twice from one clause is not legal JavaScript, so this covers every
well-formed input). -/
def noDupDecorate : List Stmt → Bool
  | [] => true
  | .impStmt src specs :: rest =>
    (if src = "mobx" then decide (decCount specs ≤ 1) else true) && noDupDecorate rest
  | _ :: rest => noDupDecorate rest

/-- A member on which a further `handleProperty` run is a no-op (apart from
diagnostics): either its decorator list is empty, or it is left on one of the
three warn-and-skip paths, whose `warn` location is known to be present. -/
def inertMember (scope : List String) (mm : Member) : Prop :=
  mm.decorators = [] ∨
  (∃ d0 d1 rest, mm.decorators = d0 :: d1 :: rest ∧ (d0.loc).isSome = true) ∨
  (∃ d, mm.decorators = [d] ∧ identOutOfScope scope d.expr = true ∧
    (d.loc).isSome = true) ∨
  (∃ d, mm.decorators = [d] ∧ identOutOfScope scope d.expr = false ∧
    mm.isStatic = true ∧ (mm.loc).isSome = true)

/-- Every class member (of every top-level class) that the member rewriter
would process is inert. -/
def stmtsInertP (scope : List String) (stmts : List Stmt) : Prop :=
  ∀ c, Stmt.classStmt c ∈ stmts → ∀ m ∈ c.body, memberGuard m = true → inertMember scope m

/-- Did a transform run report the unchanged sentinel? -/
def isSentinel : Except Unit (Option (List Stmt) × List String) → Bool
  | .ok (none, _) => true
  | _ => false

/-- The statements of a successful changed run (used to name concrete
outputs of the transform). -/
def okStmts (r : Except Unit (Option (List Stmt) × List String)) : List Stmt :=
  match r with
  | .ok (some s, _) => s
  | _ => []

/-- Number of `initializeObservables(this)` statements in a body. -/
def countInitB : List BodyStmt → Nat
  | [] => 0
  | .initObs :: r => countInitB r + 1
  | _ :: r => countInitB r

/-- Number of `initializeObservables(this)` statements in a class body. -/
def countInitM : List Member → Nat
  | [] => 0
  | m :: r => countInitB m.body + countInitM r

/-- Number of `initializeObservables(this)` statements in a file. -/
def countInit : List Stmt → Nat
  | [] => 0
  | .classStmt c :: r => countInitM c.body + countInit r
  | _ :: r => countInit r

/-! ### Import-scan lemmas for C9 -/

/-- Statements other than import declarations do not affect `importsClean`. -/
theorem importsClean_cons_nonimp (s : Stmt) (rest : List Stmt) (h : isImp s = false) :
    importsClean (s :: rest) = importsClean rest := by
  cases s <;> first | rfl | simp [isImp] at h

/-- Statements other than import declarations do not affect `collectStmts`. -/
theorem collectStmts_cons_nonimp (s : Stmt) (rest : List Stmt) (sc : List String)
    (h : isImp s = false) :
    collectStmts (s :: rest) sc = collectStmts rest sc := by
  cases s <;> first | rfl | simp [isImp] at h

/-- Appending-only-expression statements preserves `importsClean`. -/
theorem importsClean_append_nonimp (a : List Stmt) (r : List Stmt)
    (h : ∀ s ∈ a, isImp s = false) :
    importsClean (a ++ r) = importsClean r := by
  induction a with
  | nil => rfl
  | cons s rest ih =>
    rw [List.cons_append, importsClean_cons_nonimp s _ (h s (by simp))]
    exact ih (fun t ht => h t (by simp [ht]))

/-- Appending-only-expression statements preserves `collectStmts`. -/
theorem collectStmts_append_nonimp (a : List Stmt) (r : List Stmt) (sc : List String)
    (h : ∀ s ∈ a, isImp s = false) :
    collectStmts (a ++ r) sc = collectStmts r sc := by
  induction a with
  | nil => rfl
  | cons s rest ih =>
    rw [List.cons_append, collectStmts_cons_nonimp s _ sc (h s (by simp))]
    exact ih (fun t ht => h t (by simp [ht]))

/-- The recorded `decorateIndex` points at a `decorate` specifier. -/
theorem lastDecorateIdx_getElem (specs : List ImpSpec) :
    ∀ i, lastDecorateIdx specs = some i → specs[i]? = some (ImpSpec.named "decorate") := by
  induction specs with
  | nil => intro i h; simp [lastDecorateIdx] at h
  | cons sp rest ih =>
    intro i h
    unfold lastDecorateIdx at h
    cases hr : lastDecorateIdx rest with
    | some j =>
      rw [hr] at h
      obtain rfl : j + 1 = i := by simpa using h
      simpa using ih j hr
    | none =>
      rw [hr] at h
      by_cases hsp : sp = ImpSpec.named "decorate"
      · rw [if_pos hsp] at h
        obtain rfl : (0 : Nat) = i := by simpa using h
        simp [hsp]
      · rw [if_neg hsp] at h
        exact absurd h (by simp)

/-- Without a `decorate` specifier no `decorateIndex` is recorded. -/
theorem lastDecorateIdx_eq_none (specs : List ImpSpec)
    (h : specs.contains (ImpSpec.named "decorate") = false) :
    lastDecorateIdx specs = none := by
  induction specs with
  | nil => rfl
  | cons sp rest ih =>
    simp only [List.contains_cons, Bool.or_eq_false_iff] at h
    unfold lastDecorateIdx
    rw [ih h.2]
    have : ¬ sp = ImpSpec.named "decorate" := by
      intro he; subst he; simp at h
    rw [if_neg this]

/-- A `decorate` element makes `decCount` positive. -/
theorem decCount_pos_of_getElem (specs : List ImpSpec) :
    ∀ (i : Nat), specs[i]? = some (ImpSpec.named "decorate") → 0 < decCount specs := by
  induction specs with
  | nil => intro i h; simp at h
  | cons sp rest ih =>
    intro i h
    cases i with
    | zero =>
      obtain rfl : sp = ImpSpec.named "decorate" := by simpa using h
      simp [decCount]
    | succ j =>
      have := ih j (by simpa using h)
      unfold decCount at this ⊢
      by_cases hsp : sp = ImpSpec.named "decorate" <;> simp [hsp] <;> omega

/-- Erasing one `decorate` element drops `decCount` by one. -/
theorem decCount_eraseIdx (specs : List ImpSpec) :
    ∀ (i : Nat), specs[i]? = some (ImpSpec.named "decorate") →
      decCount (specs.eraseIdx i) = decCount specs - 1 := by
  induction specs with
  | nil => intro i h; simp at h
  | cons sp rest ih =>
    intro i h
    cases i with
    | zero =>
      obtain rfl : sp = ImpSpec.named "decorate" := by simpa using h
      simp [decCount]
    | succ j =>
      have hj : rest[j]? = some (ImpSpec.named "decorate") := by simpa using h
      have hpos := decCount_pos_of_getElem rest j hj
      have := ih j hj
      unfold decCount at this hpos ⊢
      by_cases hsp : sp = ImpSpec.named "decorate" <;> simp [hsp, List.eraseIdx_cons_succ] <;>
        omega

/-- Zero `decCount` means no `decorate` specifier. -/
theorem contains_of_decCount (specs : List ImpSpec) (h : decCount specs = 0) :
    specs.contains (ImpSpec.named "decorate") = false := by
  simp only [decCount, List.length_eq_zero, List.filter_eq_nil_iff, decide_eq_true_eq] at h
  by_contra hc
  rw [Bool.not_eq_false] at hc
  have hm : ImpSpec.named "decorate" ∈ specs := by
    simpa [List.contains] using hc
  exact h _ hm rfl

/-- Folding `collectSpec` ignores a `decorate` element, so erasing it is
invisible to the collected scope. -/
theorem foldl_collectSpec_eraseIdx (specs : List ImpSpec) :
    ∀ (i : Nat) (sc : List String), specs[i]? = some (ImpSpec.named "decorate") →
      (specs.eraseIdx i).foldl collectSpec sc = specs.foldl collectSpec sc := by
  induction specs with
  | nil => intro i sc h; simp at h
  | cons sp rest ih =>
    intro i sc h
    cases i with
    | zero =>
      obtain rfl : sp = ImpSpec.named "decorate" := by simpa using h
      simp [List.foldl_cons, collectSpec, validDecorators]
    | succ j =>
      have hj : rest[j]? = some (ImpSpec.named "decorate") := by simpa using h
      simp [List.eraseIdx_cons_succ, List.foldl_cons, ih j _ hj]

/-- The scope returned by the import scan is `collectStmts`. -/
theorem scanImps_scope : ∀ (stmts : List Stmt) (sc : List String) (us : Bool),
    (scanImps stmts sc us).2.1 = collectStmts stmts sc := by
  intro stmts
  induction stmts with
  | nil => intro sc us; rfl
  | cons s rest ih =>
    intro sc us
    cases s with
    | impStmt src specs =>
      by_cases hsrc : src = "mobx"
      · subst hsrc
        simp [scanImps, scanOne, collectStmts, ih]
      · simp [scanImps, hsrc, collectStmts, ih]
    | classStmt c => simpa [scanImps, collectStmts] using ih sc us
    | exprStmt e l => simpa [scanImps, collectStmts] using ih sc us
    | otherStmt l => simpa [scanImps, collectStmts] using ih sc us

/-- Splicing the `decorate` specifiers out does not change what the imports
would collect: `collectStmts` of the scan output equals that of the input. -/
theorem scanImps_collect : ∀ (stmts : List Stmt) (sc : List String) (us : Bool)
    (sc2 : List String),
    collectStmts (scanImps stmts sc us).1 sc2 = collectStmts stmts sc2 := by
  intro stmts
  induction stmts with
  | nil => intro sc us sc2; rfl
  | cons s rest ih =>
    intro sc us sc2
    cases s with
    | impStmt src specs =>
      by_cases hsrc : src = "mobx"
      · subst hsrc
        simp only [scanImps, if_pos rfl, scanOne, collectStmts]
        rw [ih]
        cases hl : lastDecorateIdx specs with
        | none => rfl
        | some i =>
          rw [foldl_collectSpec_eraseIdx specs i sc2 (lastDecorateIdx_getElem specs i hl)]
      · simp [scanImps, hsrc, collectStmts, ih]
    | classStmt c => simpa [scanImps, collectStmts] using ih sc us sc2
    | exprStmt e l => simpa [scanImps, collectStmts] using ih sc us sc2
    | otherStmt l => simpa [scanImps, collectStmts] using ih sc us sc2

/-- Conversely, absence of a recorded `decorateIndex` means no `decorate`
specifier is present. -/
theorem contains_of_lastDecorateIdx_none (specs : List ImpSpec)
    (h : lastDecorateIdx specs = none) :
    specs.contains (ImpSpec.named "decorate") = false := by
  induction specs with
  | nil => rfl
  | cons sp rest ih =>
    unfold lastDecorateIdx at h
    cases hr : lastDecorateIdx rest with
    | some j => rw [hr] at h; simp at h
    | none =>
      rw [hr] at h
      by_cases hsp : sp = ImpSpec.named "decorate"
      · rw [if_pos hsp] at h; simp at h
      · simp only [List.contains_cons, ih hr, Bool.or_false, beq_eq_false_iff_ne, ne_eq]
        exact fun he => hsp he.symm

/-- With at most one `decorate` specifier per mobx import, the scan output's
imports are clean. -/
theorem scanImps_clean_out : ∀ (stmts : List Stmt) (sc : List String) (us : Bool),
    noDupDecorate stmts = true → importsClean (scanImps stmts sc us).1 = true := by
  intro stmts
  induction stmts with
  | nil => intro sc us _; rfl
  | cons s rest ih =>
    intro sc us hdup
    cases s with
    | impStmt src specs =>
      by_cases hsrc : src = "mobx"
      · subst hsrc
        simp only [noDupDecorate, if_pos rfl, ite_true, eq_self_iff_true,
          Bool.and_eq_true, decide_eq_true_eq] at hdup
        simp only [scanImps, if_pos rfl, scanOne, importsClean, Bool.and_eq_true]
        refine ⟨?_, ih _ _ hdup.2⟩
        cases hl : lastDecorateIdx specs with
        | none =>
          have hc := contains_of_lastDecorateIdx_none specs hl
          simpa using hc
        | some i =>
          have hg := lastDecorateIdx_getElem specs i hl
          have he := decCount_eraseIdx specs i hg
          have hpos := decCount_pos_of_getElem specs i hg
          have hd1 := hdup.1
          have hz : decCount (specs.eraseIdx i) = 0 := by omega
          simpa using contains_of_decCount _ hz
      · simp only [noDupDecorate, if_neg hsrc, Bool.true_and] at hdup
        simp [scanImps, hsrc, importsClean, ih _ _ hdup]
    | classStmt c =>
      simp only [noDupDecorate] at hdup
      simpa [scanImps, importsClean] using ih sc us hdup
    | exprStmt e l =>
      simp only [noDupDecorate] at hdup
      simpa [scanImps, importsClean] using ih sc us hdup
    | otherStmt l =>
      simp only [noDupDecorate] at hdup
      simpa [scanImps, importsClean] using ih sc us hdup

/-- On clean imports the scan is the identity: no specifier is spliced,
`usesDecorate` keeps its input value, and the scope is `collectStmts`. -/
theorem scanImps_clean : ∀ (stmts : List Stmt) (sc : List String) (us : Bool),
    importsClean stmts = true →
    scanImps stmts sc us = (stmts, collectStmts stmts sc, us) := by
  intro stmts
  induction stmts with
  | nil => intro sc us _; rfl
  | cons s rest ih =>
    intro sc us hcl
    cases s with
    | impStmt src specs =>
      by_cases hsrc : src = "mobx"
      · subst hsrc
        simp only [importsClean, if_pos rfl, ite_true, eq_self_iff_true,
          Bool.and_eq_true, Bool.not_eq_true'] at hcl
        simp [scanImps, scanOne, hcl.1, lastDecorateIdx_eq_none specs hcl.1,
          ih _ _ hcl.2, collectStmts]
        exact fun hm => absurd hm (by simpa using hcl.1)
      · simp only [importsClean, if_neg hsrc, Bool.true_and] at hcl
        simp [scanImps, hsrc, collectStmts, ih _ _ hcl]
    | classStmt c =>
      simp only [importsClean] at hcl
      simp [scanImps, collectStmts, ih _ _ hcl]
    | exprStmt e l =>
      simp only [importsClean] at hcl
      simp [scanImps, collectStmts, ih _ _ hcl]
    | otherStmt l =>
      simp only [importsClean] at hcl
      simp [scanImps, collectStmts, ih _ _ hcl]

/-! ### What a successful `warn` does to the state -/

/-- A successful `warn` had a location and only appended the message. -/
theorem warnH_out (msg : String) (loc : Option Loc) (ps ps2 : HSt)
    (h : warnH msg loc ps = .ok ps2) :
    loc.isSome = true ∧ ps2 = { ps with diags := ps.diags ++ [msg] } := by
  cases loc with
  | none => exact absurd h (by simp [warnH])
  | some lw =>
    refine ⟨rfl, ?_⟩
    simp only [warnH, Except.ok.injEq] at h
    exact h.symm

/-- The warn-and-default wrapper inside `parsePropertyStep` preserves the
insert-after list. -/
theorem warnH_wrap_after (msg : String) (loc : Option Loc) (ps : HSt)
    (base sub : String) (ps1 : HSt)
    (h : (match warnH msg loc ps with
          | .error e => (Except.error e : Except Unit (String × String × HSt))
          | .ok ps => .ok ("", "", ps)) =
        .ok (base, sub, ps1)) : ps1.after = ps.after := by
  cases hw : warnH msg loc ps with
  | error e => rw [hw] at h; simp at h
  | ok psW =>
    rw [hw] at h
    simp only [Except.ok.injEq, Prod.mk.injEq] at h
    obtain ⟨h1, h2, rfl⟩ := h
    obtain ⟨hl, hps⟩ := warnH_out _ _ _ _ hw
    rw [hps]

/-- The classification step preserves the insert-after list. -/
theorem parsePropertyStep_after (e : Expr) (ps : HSt) (base sub : String) (ps1 : HSt)
    (h : parsePropertyStep e ps = .ok (base, sub, ps1)) : ps1.after = ps.after := by
  unfold parsePropertyStep at h
  split at h
  all_goals try (exact warnH_wrap_after _ _ _ _ _ _ h)
  all_goals try (split at h)
  all_goals first
    | (simp only [Except.ok.injEq, Prod.mk.injEq] at h
       obtain ⟨h1, h2, rfl⟩ := h
       rfl)
    | (exact warnH_wrap_after _ _ _ _ _ _ h)

/-- The argument-count guard preserves the insert-after list. -/
theorem parseArgGuard_after (e : Expr) (ps ps2 : HSt)
    (h : parseArgGuard e ps = .ok ps2) : ps2.after = ps.after := by
  unfold parseArgGuard at h
  split at h
  · rename_i callee args lc
    by_cases hb : args.length = 1
    · simp [hb] at h
      first
        | exact congrArg HSt.after h.symm
        | exact congrArg HSt.after h
    · simp [hb] at h
      obtain ⟨hl, hps⟩ := warnH_out _ _ _ _ h
      rw [hps]
  · simp at h
    first
      | exact congrArg HSt.after h.symm
      | exact congrArg HSt.after h

/-- Unfolding of `parseProperty` once the first decorator is known. -/
theorem parseProperty_eq (ob : List Member) (p : Member) (ps : HSt) (d : Decorator)
    (dtail : List Decorator) (hdec : p.decorators = d :: dtail) :
    parseProperty ob p ps =
      match parsePropertyStep d.expr ps with
      | .error e => .error e
      | .ok (base, sub, ps1) =>
        match parseArgGuard d.expr ps1 with
        | .error e => .error e
        | .ok ps2 =>
          .ok ({ isCallExpression := match d.expr with | .callExpr .. => true | _ => false
                 baseDecorator := base
                 subDecorator := sub
                 ptype := if isClassMethod p then
                     (if p.kind = MKind.getter then PType.getterT else PType.methodT)
                   else PType.fieldT
                 pexpr := if isClassMethod p then PropExpr.ofMethod p
                   else PropExpr.ofValue p.value
                 callArg := match d.expr with | .callExpr _ args _ => args.head? | _ => none
                 setterIdx := setterLookup ob p }, ps2) := by
  obtain ⟨mk, mkey, mv, mp2, mb, mg, ma, mdecs, mst, mc, mr, ml⟩ := p
  simp only at hdec
  subst hdec
  rfl

/-- `parseProperty` preserves the insert-after list. -/
theorem parseProperty_after (ob : List Member) (p : Member) (ps : HSt)
    (pii : PropInfo) (psA : HSt) (h : parseProperty ob p ps = .ok (pii, psA)) :
    psA.after = ps.after := by
  cases hdec : p.decorators with
  | nil =>
    rw [show parseProperty ob p ps = .error () from ?_] at h
    · simp at h
    · obtain ⟨mk, mkey, mv, mp2, mb, mg, ma, mdecs, mst, mc, mr, ml⟩ := p
      simp only at hdec
      subst hdec
      rfl
  | cons d dtail =>
    rw [parseProperty_eq ob p ps d dtail hdec] at h
    cases hstep : parsePropertyStep d.expr ps with
    | error e => rw [hstep] at h; simp at h
    | ok t =>
      obtain ⟨base, sub, ps1⟩ := t
      rw [hstep] at h
      simp only [] at h
      have h1 : ps1.after = ps.after := parsePropertyStep_after _ _ _ _ _ hstep
      cases hag : parseArgGuard d.expr ps1 with
      | error e => rw [hag] at h; simp at h
      | ok ps2 =>
        rw [hag] at h
        simp only [Except.ok.injEq, Prod.mk.injEq] at h
        obtain ⟨hpi, rfl⟩ := h
        rw [parseArgGuard_after _ _ _ hag]
        exact h1

/-- `generateActionInitializationOnPrototype` returns the member unchanged and
only ever schedules expression statements for insertion. -/
theorem genProto_out (cname : Option String) (m : Member) (pii : PropInfo) (ps : HSt)
    (m2 : Member) (b2 : Bool) (ps2 : HSt) (h : genProto cname m pii ps = .ok (m2, b2, ps2)) :
    m2 = m ∧ ∀ s ∈ ps2.after, s ∈ ps.after ∨ isExprS s = true := by
  cases cname with
  | none =>
    unfold genProto at h
    cases hl : m.loc with
    | none => rw [hl] at h; simp [warnH] at h
    | some lw =>
      rw [hl] at h
      simp only [warnH, Except.ok.injEq, Prod.mk.injEq] at h
      obtain ⟨h1, h2, h3⟩ := h
      refine ⟨h1.symm, ?_⟩
      rw [← h3]
      exact fun s hs => Or.inl hs
  | some cid =>
    simp only [genProto, Except.ok.injEq, Prod.mk.injEq] at h
    obtain ⟨h1, h2, h3⟩ := h
    refine ⟨h1.symm, ?_⟩
    rw [← h3]
    intro s hs
    simp only [List.mem_cons] at hs
    rcases hs with rfl | hs
    · exact Or.inr rfl
    · exact Or.inl hs

/-- Running `handleProperty` on an inert member returns it unchanged, with
`isNew = false`, at most appending diagnostics. -/
theorem inert_run (scope : List String) (mm : Member) (h : inertMember scope mm)
    (cname : Option String) (origBody : List Member) (ps : HSt) :
    ∃ ds, hp scope cname origBody mm ps =
      .ok (mm, false, { ps with diags := ps.diags ++ ds }) := by
  rcases h with h0 | ⟨d0, d1, rest, hd, hl⟩ | ⟨d, hd, ho, hl⟩ | ⟨d, hd, ho, hst, hl⟩
  · refine ⟨[], ?_⟩
    rw [hp_undecorated scope cname origBody mm ps h0]
    simp
  · obtain ⟨lw, hlw⟩ := Option.isSome_iff_exists.mp hl
    refine ⟨[msgMultiple], ?_⟩
    simp [hp, hd, warnH, hlw]
  · obtain ⟨lw, hlw⟩ := Option.isSome_iff_exists.mp hl
    refine ⟨[msgNonMobx], ?_⟩
    simp [hp, hd, ho, warnH, hlw]
  · obtain ⟨lw, hlw⟩ := Option.isSome_iff_exists.mp hl
    obtain ⟨lm, hlm⟩ := Option.isSome_iff_exists.mp hl
    refine ⟨[msgStatic], ?_⟩
    simp [hp, hd, ho, hst, warnH, hlm]

/-- Unfolding of `handleProperty` on a member with several decorators. -/
theorem hp_multi_eq (scope : List String) (cname : Option String)
    (origBody : List Member) (m : Member) (ps : HSt) (d0 d1 : Decorator)
    (drest : List Decorator) (hdec : m.decorators = d0 :: d1 :: drest) :
    hp scope cname origBody m ps =
      match warnH msgMultiple d0.loc ps with
      | .error e => .error e
      | .ok ps => .ok (m, false, ps) := by
  obtain ⟨mk, mkey, mv, mp2, mb, mg, ma, mdecs, mst, mc, mr, ml⟩ := m
  simp only at hdec
  subst hdec
  rfl

/-- Unfolding of `handleProperty` on a member with exactly one decorator. -/
theorem hp_single_eq (scope : List String) (cname : Option String)
    (origBody : List Member) (m : Member) (ps : HSt) (dec : Decorator)
    (hdec : m.decorators = [dec]) :
    hp scope cname origBody m ps =
      if identOutOfScope scope dec.expr then
        match warnH msgNonMobx dec.loc ps with
        | .error e => .error e
        | .ok ps => .ok (m, false, ps)
      else if m.isStatic then
        match warnH msgStatic m.loc ps with
        | .error e => .error e
        | .ok ps => .ok (m, false, ps)
      else
        match parseProperty origBody m ps with
        | .error e => .error e
        | .ok (pi2, ps2) => hpDispatch cname origBody m pi2 ps2 := by
  obtain ⟨mk, mkey, mv, mp2, mb, mg, ma, mdecs, mst, mc, mr, ml⟩ := m
  simp only at hdec
  subst hdec
  rfl

/-- Every member returned by the dispatch table has an empty decorator list,
and only expression statements are scheduled for insertion. -/
theorem hpDispatch_out (cname : Option String) (origBody : List Member)
    (m : Member) (pii : PropInfo) (ps : HSt) (m' : Member) (isNew : Bool) (ps' : HSt)
    (h : hpDispatch cname origBody m pii ps = .ok (m', isNew, ps')) :
    m'.decorators = [] ∧ ∀ s ∈ ps'.after, s ∈ ps.after ∨ isExprS s = true := by
  unfold hpDispatch at h
  by_cases hb1 : pii.baseDecorator = "action"
  · rw [if_pos hb1] at h
    by_cases hc1 : pii.ptype = PType.fieldT ∧ pii.subDecorator = "bound"
    · rw [if_pos hc1] at h
      simp only [Except.ok.injEq, Prod.mk.injEq] at h
      obtain ⟨rfl, rfl, rfl⟩ := h
      exact ⟨rfl, fun s hs => Or.inl hs⟩
    · rw [if_neg hc1] at h
      by_cases hc2 : pii.ptype = PType.methodT ∧ pii.subDecorator = "bound"
      · rw [if_pos hc2] at h
        simp only [Except.ok.injEq, Prod.mk.injEq] at h
        obtain ⟨rfl, rfl, rfl⟩ := h
        exact ⟨rfl, fun s hs => Or.inl hs⟩
      · rw [if_neg hc2] at h
        by_cases hc3 : pii.ptype = PType.fieldT ∧ pii.subDecorator = ""
        · rw [if_pos hc3] at h
          simp only [Except.ok.injEq, Prod.mk.injEq] at h
          obtain ⟨rfl, rfl, rfl⟩ := h
          exact ⟨rfl, fun s hs => Or.inl hs⟩
        · rw [if_neg hc3] at h
          by_cases hc4 : pii.ptype = PType.methodT
          · rw [if_pos hc4] at h
            obtain ⟨hm2, hafter⟩ := genProto_out _ _ _ _ _ _ _ h
            refine ⟨by rw [hm2], fun s hs => hafter s hs⟩
          · rw [if_neg hc4] at h
            cases hw : warnH msgUnknownAction ({ m with decorators := ([] : List Decorator) }).loc
                { ps with changed := true } with
            | error e => rw [hw] at h; simp at h
            | ok psW =>
              rw [hw] at h
              simp only [Except.ok.injEq, Prod.mk.injEq] at h
              obtain ⟨rfl, rfl, rfl⟩ := h
              obtain ⟨hl, rfl⟩ := warnH_out _ _ _ _ hw
              exact ⟨rfl, fun s hs => Or.inl hs⟩
  · rw [if_neg hb1] at h
    by_cases hb2 : pii.baseDecorator = "observable"
    · rw [if_pos hb2] at h
      simp only [Except.ok.injEq, Prod.mk.injEq] at h
      obtain ⟨rfl, rfl, rfl⟩ := h
      exact ⟨rfl, fun s hs => Or.inl hs⟩
    · rw [if_neg hb2] at h
      by_cases hb3 : pii.baseDecorator = "computed"
      · rw [if_pos hb3] at h
        cases hsi : pii.setterIdx with
        | some i =>
          rw [hsi] at h
          simp only [Except.ok.injEq, Prod.mk.injEq] at h
          obtain ⟨rfl, rfl, rfl⟩ := h
          exact ⟨rfl, fun s hs => Or.inl hs⟩
        | none =>
          rw [hsi] at h
          simp only [Except.ok.injEq, Prod.mk.injEq] at h
          obtain ⟨rfl, rfl, rfl⟩ := h
          exact ⟨rfl, fun s hs => Or.inl hs⟩
      · rw [if_neg hb3] at h
        simp only [Except.ok.injEq, Prod.mk.injEq] at h
        obtain ⟨rfl, rfl, rfl⟩ := h
        exact ⟨rfl, fun s hs => Or.inl hs⟩

/-- Every member returned by a successful `handleProperty` call is inert, and
every statement it schedules for insertion after the class is an expression
statement. -/
theorem hp_inert_out (scope : List String) (cname : Option String)
    (origBody : List Member) (m : Member) (ps : HSt) (m' : Member) (isNew : Bool)
    (ps' : HSt) (h : hp scope cname origBody m ps = .ok (m', isNew, ps')) :
    inertMember scope m' ∧ ∀ s ∈ ps'.after, s ∈ ps.after ∨ isExprS s = true := by
  cases hdec : m.decorators with
  | nil =>
    rw [hp_undecorated scope cname origBody m ps hdec] at h
    simp only [Except.ok.injEq, Prod.mk.injEq] at h
    obtain ⟨rfl, rfl, rfl⟩ := h
    exact ⟨Or.inl hdec, fun s hs => Or.inl hs⟩
  | cons d0 dtail =>
    cases dtail with
    | cons d1 drest =>
      rw [hp_multi_eq scope cname origBody m ps d0 d1 drest hdec] at h
      cases hw : warnH msgMultiple d0.loc ps with
      | error e => rw [hw] at h; simp at h
      | ok psW =>
        rw [hw] at h
        simp only [Except.ok.injEq, Prod.mk.injEq] at h
        obtain ⟨rfl, rfl, rfl⟩ := h
        obtain ⟨hl, rfl⟩ := warnH_out _ _ _ _ hw
        exact ⟨Or.inr (Or.inl ⟨d0, d1, drest, hdec, hl⟩), fun s hs => Or.inl hs⟩
    | nil =>
      rw [hp_single_eq scope cname origBody m ps d0 hdec] at h
      by_cases hio : identOutOfScope scope d0.expr = true
      · rw [if_pos hio] at h
        cases hw : warnH msgNonMobx d0.loc ps with
        | error e => rw [hw] at h; simp at h
        | ok psW =>
          rw [hw] at h
          simp only [Except.ok.injEq, Prod.mk.injEq] at h
          obtain ⟨rfl, rfl, rfl⟩ := h
          obtain ⟨hl, rfl⟩ := warnH_out _ _ _ _ hw
          exact ⟨Or.inr (Or.inr (Or.inl ⟨d0, hdec, hio, hl⟩)), fun s hs => Or.inl hs⟩
      · rw [if_neg hio] at h
        by_cases hst : m.isStatic = true
        · rw [if_pos hst] at h
          cases hw : warnH msgStatic m.loc ps with
          | error e => rw [hw] at h; simp at h
          | ok psW =>
            rw [hw] at h
            simp only [Except.ok.injEq, Prod.mk.injEq] at h
            obtain ⟨rfl, rfl, rfl⟩ := h
            obtain ⟨hl, rfl⟩ := warnH_out _ _ _ _ hw
            exact ⟨Or.inr (Or.inr (Or.inr ⟨d0, hdec, by simpa using hio, hst, hl⟩)),
              fun s hs => Or.inl hs⟩
        · rw [if_neg hst] at h
          cases hparse : parseProperty origBody m ps with
          | error e => rw [hparse] at h; simp at h
          | ok t =>
            obtain ⟨pii, psA⟩ := t
            rw [hparse] at h
            simp only [] at h
            have hpa : psA.after = ps.after := parseProperty_after _ _ _ _ _ hparse
            obtain ⟨hdecs, hafter⟩ := hpDispatch_out _ _ _ _ _ _ _ _ h
            refine ⟨Or.inl hdecs, fun s hs => ?_⟩
            rcases hafter s hs with hs2 | hs2
            · exact Or.inl (hpa ▸ hs2)
            · exact Or.inr hs2

/-! ### Class-level inertness -/

/-- A successful `findIdx?` points at an element satisfying the predicate. -/
theorem findIdxP_some {α : Type} (p : α → Bool) :
    ∀ (l : List α) (i : Nat), l.findIdx? p = some i →
      ∃ x, l[i]? = some x ∧ p x = true := by
  intro l
  induction l with
  | nil => intro i h; simp [List.findIdx?] at h
  | cons a as ih =>
    intro i h
    rw [List.findIdx?_cons] at h
    by_cases hp2 : p a = true
    · rw [if_pos hp2] at h
      obtain rfl : (0 : Nat) = i := by simpa using h
      exact ⟨a, by simp, hp2⟩
    · rw [if_neg hp2, List.findIdx?_succ] at h
      cases hr : as.findIdx? p with
      | none => rw [hr] at h; simp at h
      | some j =>
        rw [hr] at h
        obtain rfl : j + 1 = i := by simpa using h
        obtain ⟨x, hx, hpx⟩ := ih j hr
        exact ⟨x, by simpa using hx, hpx⟩

/-- Elements surviving the removal filter come from the mapped list. -/
theorem removeFilterAux_mem (rem : List Nat) :
    ∀ (l : List (Member × Bool)) (i : Nat) (x : Member),
      x ∈ removeFilterAux rem l i → ∃ b, (x, b) ∈ l := by
  intro l
  induction l with
  | nil => intro i x h; simp [removeFilterAux] at h
  | cons q rest ih =>
    intro i x h
    obtain ⟨m, bb⟩ := q
    unfold removeFilterAux at h
    split at h
    · obtain ⟨b2, hb2⟩ := ih (i + 1) x h
      exact ⟨b2, by simp [hb2]⟩
    · rcases List.mem_cons.mp h with rfl | h2
      · exact ⟨bb, by simp⟩
      · obtain ⟨b2, hb2⟩ := ih (i + 1) x h2
        exact ⟨b2, by simp [hb2]⟩

/-- Membership after a positional insert. -/
theorem insertAtPos_mem {α : Type} :
    ∀ (l : List α) (n : Nat) (a x : α), x ∈ insertAtPos l n a → x = a ∨ x ∈ l := by
  intro l
  induction l with
  | nil =>
    intro n a x h
    cases n <;> simp [insertAtPos] at h <;> exact Or.inl h
  | cons y ys ih =>
    intro n a x h
    cases n with
    | zero =>
      rcases List.mem_cons.mp h with rfl | h2
      · exact Or.inl rfl
      · exact Or.inr h2
    | succ n2 =>
      simp only [insertAtPos, List.mem_cons] at h
      rcases h with rfl | h2
      · exact Or.inr (by simp)
      · rcases ih n2 a x h2 with h3 | h3
        · exact Or.inl h3
        · exact Or.inr (by simp [h3])

/-- Inertness only looks at the decorator list, staticness and location, so
it survives a body replacement. -/
theorem inertMember_body_update (scope : List String) (mm : Member)
    (b : List BodyStmt) (h : inertMember scope mm) :
    inertMember scope { mm with body := b } := h

/-- All members produced by the member map are inert (where the rewriter was
invoked at all), and all scheduled insertions are expression statements. -/
theorem hpMapIdx_out (scope : List String) (cname : Option String) (ob : List Member) :
    ∀ (ms : List Member) (ps : HSt) (l : List (Member × Bool)) (psf : HSt),
      hpMapIdx scope cname ob ms ps = .ok (l, psf) →
      (∀ p ∈ l, memberGuard p.1 = true → inertMember scope p.1) ∧
        (∀ s ∈ psf.after, s ∈ ps.after ∨ isExprS s = true) := by
  intro ms
  induction ms with
  | nil =>
    intro ps l psf h
    simp only [hpMapIdx, Except.ok.injEq, Prod.mk.injEq] at h
    obtain ⟨rfl, rfl⟩ := h
    exact ⟨by simp, fun s hs => Or.inl hs⟩
  | cons m rest ih =>
    intro ps l psf h
    unfold hpMapIdx at h
    split at h
    · cases hhp : hp scope cname ob m ps with
      | error e => rw [hhp] at h; simp at h
      | ok t =>
        obtain ⟨m2, isNew2, ps2⟩ := t
        rw [hhp] at h
        simp only [] at h
        cases hrest : hpMapIdx scope cname ob rest ps2 with
        | error e => rw [hrest] at h; simp at h
        | ok t2 =>
          obtain ⟨l2, psf2⟩ := t2
          rw [hrest] at h
          simp only [Except.ok.injEq, Prod.mk.injEq] at h
          obtain ⟨rfl, rfl⟩ := h
          obtain ⟨hin, haf⟩ := hp_inert_out _ _ _ _ _ _ _ _ hhp
          obtain ⟨hin2, haf2⟩ := ih ps2 l2 psf2 hrest
          refine ⟨?_, ?_⟩
          · intro q hq hg
            rcases List.mem_cons.mp hq with rfl | h2
            · exact hin
            · exact hin2 q h2 hg
          · intro s hs
            rcases haf2 s hs with hs2 | hs2
            · exact haf s hs2
            · exact Or.inr hs2
    · rename_i hguard
      cases hrest : hpMapIdx scope cname ob rest ps with
      | error e => rw [hrest] at h; simp at h
      | ok t2 =>
        obtain ⟨l2, psf2⟩ := t2
        rw [hrest] at h
        simp only [Except.ok.injEq, Prod.mk.injEq] at h
        obtain ⟨rfl, rfl⟩ := h
        obtain ⟨hin2, haf2⟩ := ih ps l2 psf2 hrest
        refine ⟨?_, haf2⟩
        intro q hq hg
        rcases List.mem_cons.mp hq with rfl | h2
        · exact absurd hg (by simpa [memberGuard] using hguard)
        · exact hin2 q h2 hg

/-- Members of the constructor-synthesis output: either a freshly built
(undecorated) node, an original member, or an original member with a patched
body. -/
theorem createConstructor_body_mem (c : ClassDecl) (diags : List String)
    (c' : ClassDecl) (d' : List String) (h : createConstructor c diags = .ok (c', d')) :
    ∀ m ∈ c'.body, m.decorators = [] ∨ m ∈ c.body ∨
      ∃ cm bs, cm ∈ c.body ∧ m = { cm with body := bs } := by
  unfold createConstructor at h
  cases hfi : c.body.findIdx? (fun mm => isClassMethod mm && mm.kind == MKind.ctor) with
  | none =>
    rw [hfi] at h
    simp only [] at h
    cases hw : (if c.hasSuper = true then
        (match c.loc with
         | none => (Except.error () : Except Unit (List String))
         | some _ => .ok (diags ++ [msgNewCtor]))
      else .ok diags) with
    | error e => rw [hw] at h; simp at h
    | ok diags2 =>
      rw [hw] at h
      simp only [] at h
      cases hfi2 : c.body.findIdx? (fun mm => isClassMethod mm) with
      | none =>
        rw [hfi2] at h
        simp only [Except.ok.injEq] at h
        obtain ⟨rfl, rfl⟩ := h
        intro m hm
        simp only [List.mem_append, List.mem_singleton] at hm
        rcases hm with hm | rfl
        · exact Or.inr (Or.inl hm)
        · exact Or.inl rfl
      | some i2 =>
        rw [hfi2] at h
        simp only [Except.ok.injEq] at h
        obtain ⟨rfl, rfl⟩ := h
        intro m hm
        rcases insertAtPos_mem _ _ _ _ hm with rfl | hm2
        · exact Or.inl rfl
        · exact Or.inr (Or.inl hm2)
  | some i =>
    rw [hfi] at h
    simp only [] at h
    cases hgi : c.body[i]? with
    | none => rw [hgi] at h; simp at h
    | some cm =>
      rw [hgi] at h
      simp only [Except.ok.injEq] at h
      obtain ⟨rfl, rfl⟩ := h
      intro m hm
      rcases List.mem_or_eq_of_mem_set hm with hm2 | rfl
      · exact Or.inr (Or.inl hm2)
      · exact Or.inr (Or.inr ⟨cm, _, List.getElem?_mem hgi, rfl⟩)

/-- Constructor synthesis preserves class-body inertness. -/
theorem createConstructor_out (scope : List String) (c : ClassDecl)
    (diags : List String) (c' : ClassDecl) (d' : List String)
    (hb : ∀ m ∈ c.body, memberGuard m = true → inertMember scope m)
    (h : createConstructor c diags = .ok (c', d')) :
    ∀ m ∈ c'.body, memberGuard m = true → inertMember scope m := by
  intro m hm hg
  rcases createConstructor_body_mem c diags c' d' h m hm with hd | hm2 | ⟨cm, bs, hcm, rfl⟩
  · exact Or.inl hd
  · exact hb m hm2 hg
  · exact inertMember_body_update scope cm bs (hb cm hcm hg)

/-- The class rewriter's output class is inert-membered and its insertions are
expression statements. -/
theorem handleClass_out (scope : List String) (c : ClassDecl) (diags : List String)
    (changed : Bool) (c' : ClassDecl) (after : List Stmt) (nc : Bool)
    (d' : List String) (ch' : Bool)
    (h : handleClass scope c diags changed = .ok (c', after, nc, d', ch')) :
    (∀ m ∈ c'.body, memberGuard m = true → inertMember scope m) ∧
      (∀ s ∈ after, isExprS s = true) := by
  unfold handleClass at h
  simp only [] at h
  cases hmap : hpMapIdx scope c.name c.body c.body
      { diags := diags, changed := changed, needsCtor := false
        removeIdxs := [], after := [] } with
  | error e => rw [hmap] at h; simp at h
  | ok t =>
    obtain ⟨mapped, psF⟩ := t
    rw [hmap] at h
    simp only [] at h
    obtain ⟨hin, haf⟩ := hpMapIdx_out scope c.name c.body c.body _ mapped psF hmap
    have hbody1 : ∀ m ∈ removeFilter mapped psF.removeIdxs,
        memberGuard m = true → inertMember scope m := by
      intro m hm hg
      obtain ⟨b2, hb2⟩ := removeFilterAux_mem psF.removeIdxs mapped 0 m hm
      exact hin (m, b2) hb2 hg
    have hafter : ∀ s ∈ psF.after, isExprS s = true := by
      intro s hs
      rcases haf s hs with hs2 | hs2
      · simp at hs2
      · exact hs2
    split at h
    · cases hcc : createConstructor { c with body := removeFilter mapped psF.removeIdxs }
          psF.diags with
      | error e => rw [hcc] at h; simp at h
      | ok t2 =>
        obtain ⟨c2, d2⟩ := t2
        rw [hcc] at h
        simp only [Except.ok.injEq, Prod.mk.injEq] at h
        obtain ⟨rfl, rfl, rfl, rfl, rfl⟩ := h
        exact ⟨createConstructor_out scope _ _ _ _ hbody1 hcc, hafter⟩
    · simp only [Except.ok.injEq, Prod.mk.injEq] at h
      obtain ⟨rfl, rfl, rfl, rfl, rfl⟩ := h
      exact ⟨hbody1, hafter⟩

/-- The class pass preserves the import signature and leaves every class
inert-membered. -/
theorem classLoop_out (scope : List String) :
    ∀ (stmts : List Stmt) (diags : List String) (ch ni : Bool) (out : List Stmt)
      (d : List String) (cc nn : Bool),
      classLoop scope stmts diags ch ni = .ok (out, d, cc, nn) →
      importsClean out = importsClean stmts ∧
        (∀ sc, collectStmts out sc = collectStmts stmts sc) ∧
        stmtsInertP scope out := by
  intro stmts
  induction stmts with
  | nil =>
    intro diags ch ni out d cc nn h
    simp only [classLoop, Except.ok.injEq, Prod.mk.injEq] at h
    obtain ⟨rfl, rfl, rfl, rfl⟩ := h
    exact ⟨rfl, fun sc => rfl, fun c hc => by simp at hc⟩
  | cons s rest ih =>
    intro diags ch ni out d cc nn h
    cases s with
    | classStmt c =>
      unfold classLoop at h
      cases hhc : handleClass scope c diags ch with
      | error e => rw [hhc] at h; simp at h
      | ok t =>
        obtain ⟨c2, after2, nc2, d2, ch2⟩ := t
        rw [hhc] at h
        simp only [] at h
        cases hrest : classLoop scope rest d2 ch2 (ni || nc2) with
        | error e => rw [hrest] at h; simp at h
        | ok t2 =>
          obtain ⟨rest2, d3, ch3, ni3⟩ := t2
          rw [hrest] at h
          simp only [Except.ok.injEq, Prod.mk.injEq] at h
          obtain ⟨rfl, rfl, rfl, rfl⟩ := h
          obtain ⟨hinert, hexpr⟩ := handleClass_out _ _ _ _ _ _ _ _ _ hhc
          obtain ⟨hic, hcs, hsi⟩ := ih d2 ch2 (ni || nc2) rest2 d3 ch3 ni3 hrest
          have hexprImp : ∀ s2 ∈ after2, isImp s2 = false := by
            intro s2 hs2
            have h3 := hexpr s2 hs2
            cases s2 <;> first | rfl | simp [isExprS] at h3
          refine ⟨?_, ?_, ?_⟩
          · rw [importsClean_cons_nonimp (Stmt.classStmt c2) _ rfl,
              importsClean_append_nonimp after2 rest2 hexprImp, hic,
              importsClean_cons_nonimp (Stmt.classStmt c) _ rfl]
          · intro sc
            rw [collectStmts_cons_nonimp (Stmt.classStmt c2) _ _ rfl,
              collectStmts_append_nonimp after2 rest2 sc hexprImp, hcs sc,
              collectStmts_cons_nonimp (Stmt.classStmt c) _ _ rfl]
          · intro cc2 hcc2 mm hmm hg
            rcases List.mem_cons.mp hcc2 with heq | hcc3
            · obtain rfl : cc2 = c2 := by
                injection heq
              exact hinert mm hmm hg
            · rcases List.mem_append.mp hcc3 with hcc4 | hcc4
              · have h4 := hexpr _ hcc4
                simp [isExprS] at h4
              · exact hsi cc2 hcc4 mm hmm hg
    | impStmt src specs =>
      unfold classLoop at h
      cases hrest : classLoop scope rest diags ch ni with
      | error e => rw [hrest] at h; simp at h
      | ok t2 =>
        obtain ⟨rest2, d3, ch3, ni3⟩ := t2
        rw [hrest] at h
        simp only [Except.ok.injEq, Prod.mk.injEq] at h
        obtain ⟨rfl, rfl, rfl, rfl⟩ := h
        obtain ⟨hic, hcs, hsi⟩ := ih diags ch ni rest2 d3 ch3 ni3 hrest
        refine ⟨by simp [importsClean, hic], fun sc => by simp [collectStmts, hcs], ?_⟩
        intro cc2 hcc2 mm hmm hg
        rcases List.mem_cons.mp hcc2 with heq | hcc3
        · exact absurd heq (by simp)
        · exact hsi cc2 hcc3 mm hmm hg
    | exprStmt e l =>
      unfold classLoop at h
      cases hrest : classLoop scope rest diags ch ni with
      | error er => rw [hrest] at h; simp at h
      | ok t2 =>
        obtain ⟨rest2, d3, ch3, ni3⟩ := t2
        rw [hrest] at h
        simp only [Except.ok.injEq, Prod.mk.injEq] at h
        obtain ⟨rfl, rfl, rfl, rfl⟩ := h
        obtain ⟨hic, hcs, hsi⟩ := ih diags ch ni rest2 d3 ch3 ni3 hrest
        refine ⟨by simpa [importsClean_cons_nonimp (Stmt.exprStmt e l) _ rfl] using hic,
          fun sc => by
            simpa [collectStmts_cons_nonimp (Stmt.exprStmt e l) _ _ rfl] using hcs sc, ?_⟩
        intro cc2 hcc2 mm hmm hg
        rcases List.mem_cons.mp hcc2 with heq | hcc3
        · exact absurd heq (by simp)
        · exact hsi cc2 hcc3 mm hmm hg
    | otherStmt l =>
      unfold classLoop at h
      cases hrest : classLoop scope rest diags ch ni with
      | error er => rw [hrest] at h; simp at h
      | ok t2 =>
        obtain ⟨rest2, d3, ch3, ni3⟩ := t2
        rw [hrest] at h
        simp only [Except.ok.injEq, Prod.mk.injEq] at h
        obtain ⟨rfl, rfl, rfl, rfl⟩ := h
        obtain ⟨hic, hcs, hsi⟩ := ih diags ch ni rest2 d3 ch3 ni3 hrest
        refine ⟨by simpa [importsClean_cons_nonimp (Stmt.otherStmt l) _ rfl] using hic,
          fun sc => by
            simpa [collectStmts_cons_nonimp (Stmt.otherStmt l) _ _ rfl] using hcs sc, ?_⟩
        intro cc2 hcc2 mm hmm hg
        rcases List.mem_cons.mp hcc2 with heq | hcc3
        · exact absurd heq (by simp)
        · exact hsi cc2 hcc3 mm hmm hg

/-- Replacing a non-import statement by a non-import statement preserves
`importsClean`. -/
theorem importsClean_set_nonimp : ∀ (stmts : List Stmt) (j : Nat) (s t : Stmt),
    stmts[j]? = some t → isImp t = false → isImp s = false →
    importsClean (stmts.set j s) = importsClean stmts := by
  intro stmts
  induction stmts with
  | nil => intro j s t ht h1 h2; simp at ht
  | cons a as ih =>
    intro j s t ht h1 h2
    cases j with
    | zero =>
      obtain rfl : a = t := by simpa using ht
      rw [List.set_cons_zero, importsClean_cons_nonimp s as h2,
        importsClean_cons_nonimp a as h1]
    | succ j2 =>
      have ht2 : as[j2]? = some t := by simpa using ht
      rw [List.set_cons_succ]
      have hrec := ih j2 s t ht2 h1 h2
      cases a with
      | impStmt src specs => simp only [importsClean, hrec]
      | classStmt c => simpa [importsClean_cons_nonimp (Stmt.classStmt c) _ rfl] using hrec
      | exprStmt e l => simpa [importsClean_cons_nonimp (Stmt.exprStmt e l) _ rfl] using hrec
      | otherStmt l => simpa [importsClean_cons_nonimp (Stmt.otherStmt l) _ rfl] using hrec

/-- Replacing a non-import statement by a non-import statement preserves
`collectStmts`. -/
theorem collectStmts_set_nonimp : ∀ (stmts : List Stmt) (j : Nat) (s t : Stmt)
    (sc : List String),
    stmts[j]? = some t → isImp t = false → isImp s = false →
    collectStmts (stmts.set j s) sc = collectStmts stmts sc := by
  intro stmts
  induction stmts with
  | nil => intro j s t sc ht h1 h2; simp at ht
  | cons a as ih =>
    intro j s t sc ht h1 h2
    cases j with
    | zero =>
      obtain rfl : a = t := by simpa using ht
      rw [List.set_cons_zero, collectStmts_cons_nonimp s as sc h2,
        collectStmts_cons_nonimp a as sc h1]
    | succ j2 =>
      have ht2 : as[j2]? = some t := by simpa using ht
      rw [List.set_cons_succ]
      cases a with
      | impStmt src specs => simp only [collectStmts, ih j2 s t _ ht2 h1 h2]
      | classStmt c =>
        simpa [collectStmts_cons_nonimp (Stmt.classStmt c) _ _ rfl] using ih j2 s t sc ht2 h1 h2
      | exprStmt e l =>
        simpa [collectStmts_cons_nonimp (Stmt.exprStmt e l) _ _ rfl] using ih j2 s t sc ht2 h1 h2
      | otherStmt l =>
        simpa [collectStmts_cons_nonimp (Stmt.otherStmt l) _ _ rfl] using ih j2 s t sc ht2 h1 h2

/-- Erasing a non-import statement preserves `importsClean`. -/
theorem importsClean_erase_nonimp : ∀ (stmts : List Stmt) (i : Nat) (t : Stmt),
    stmts[i]? = some t → isImp t = false →
    importsClean (stmts.eraseIdx i) = importsClean stmts := by
  intro stmts
  induction stmts with
  | nil => intro i t ht h1; simp at ht
  | cons a as ih =>
    intro i t ht h1
    cases i with
    | zero =>
      obtain rfl : a = t := by simpa using ht
      rw [List.eraseIdx_cons_zero, importsClean_cons_nonimp a as h1]
    | succ i2 =>
      have ht2 : as[i2]? = some t := by simpa using ht
      rw [List.eraseIdx_cons_succ]
      have hrec := ih i2 t ht2 h1
      cases a with
      | impStmt src specs => simp only [importsClean, hrec]
      | classStmt c => simpa [importsClean_cons_nonimp (Stmt.classStmt c) _ rfl] using hrec
      | exprStmt e l => simpa [importsClean_cons_nonimp (Stmt.exprStmt e l) _ rfl] using hrec
      | otherStmt l => simpa [importsClean_cons_nonimp (Stmt.otherStmt l) _ rfl] using hrec

/-- Erasing a non-import statement preserves `collectStmts`. -/
theorem collectStmts_erase_nonimp : ∀ (stmts : List Stmt) (i : Nat) (t : Stmt)
    (sc : List String),
    stmts[i]? = some t → isImp t = false →
    collectStmts (stmts.eraseIdx i) sc = collectStmts stmts sc := by
  intro stmts
  induction stmts with
  | nil => intro i t sc ht h1; simp at ht
  | cons a as ih =>
    intro i t sc ht h1
    cases i with
    | zero =>
      obtain rfl : a = t := by simpa using ht
      rw [List.eraseIdx_cons_zero, collectStmts_cons_nonimp a as sc h1]
    | succ i2 =>
      have ht2 : as[i2]? = some t := by simpa using ht
      rw [List.eraseIdx_cons_succ]
      cases a with
      | impStmt src specs => simp only [collectStmts, ih i2 t _ ht2 h1]
      | classStmt c =>
        simpa [collectStmts_cons_nonimp (Stmt.classStmt c) _ _ rfl] using ih i2 t sc ht2 h1
      | exprStmt e l =>
        simpa [collectStmts_cons_nonimp (Stmt.exprStmt e l) _ _ rfl] using ih i2 t sc ht2 h1
      | otherStmt l =>
        simpa [collectStmts_cons_nonimp (Stmt.otherStmt l) _ _ rfl] using ih i2 t sc ht2 h1

/-- The class found by `findClass?` sits at the returned index. -/
theorem findClass?_getElem : ∀ (stmts : List Stmt) (n : String) (j : Nat)
    (c : ClassDecl), findClass? stmts n = some (j, c) →
    stmts[j]? = some (Stmt.classStmt c) := by
  intro stmts
  induction stmts with
  | nil => intro n j c h; simp [findClass?] at h
  | cons s rest ih =>
    intro n j c h
    cases s with
    | classStmt c0 =>
      unfold findClass? at h
      by_cases hn : c0.name = some n
      · rw [if_pos hn] at h
        simp only [Option.some.injEq, Prod.mk.injEq] at h
        obtain ⟨rfl, rfl⟩ := h
        simp
      · rw [if_neg hn] at h
        cases hr : findClass? rest n with
        | none => rw [hr] at h; simp at h
        | some t =>
          obtain ⟨j2, c2⟩ := t
          rw [hr] at h
          simp only [Option.some.injEq, Prod.mk.injEq] at h
          obtain ⟨rfl, rfl⟩ := h
          simpa using ih n j2 c2 hr
    | impStmt src specs =>
      unfold findClass? at h
      cases hr : findClass? rest n with
      | none => rw [hr] at h; simp at h
      | some t =>
        obtain ⟨j2, c2⟩ := t
        rw [hr] at h
        simp only [Option.some.injEq, Prod.mk.injEq] at h
        obtain ⟨rfl, rfl⟩ := h
        simpa using ih n j2 c2 hr
    | exprStmt e l =>
      unfold findClass? at h
      cases hr : findClass? rest n with
      | none => rw [hr] at h; simp at h
      | some t =>
        obtain ⟨j2, c2⟩ := t
        rw [hr] at h
        simp only [Option.some.injEq, Prod.mk.injEq] at h
        obtain ⟨rfl, rfl⟩ := h
        simpa using ih n j2 c2 hr
    | otherStmt l =>
      unfold findClass? at h
      cases hr : findClass? rest n with
      | none => rw [hr] at h; simp at h
      | some t =>
        obtain ⟨j2, c2⟩ := t
        rw [hr] at h
        simp only [Option.some.injEq, Prod.mk.injEq] at h
        obtain ⟨rfl, rfl⟩ := h
        simpa using ih n j2 c2 hr

/-- A warn-and-return-nothing path of `processCall` never reports a class
update. -/
theorem warnT_none_ne (msg : String) (loc : Option Loc) (st : TSt) (j : Nat)
    (c' : ClassDecl) (rm : Bool) (st' : TSt) :
    (match warnT msg loc st with
     | .error er => (Except.error er : Except Unit (Option (Nat × ClassDecl) × Bool × TSt))
     | .ok st => .ok (none, false, st)) = .ok (some (j, c'), rm, st') → False := by
  intro h
  cases hw : warnT msg loc st with
  | error er => rw [hw] at h; simp at h
  | ok st2 => rw [hw] at h; simp at h

/-- When `processCall` reports a class update, the updated index held a class
statement. -/
theorem processCall_upd (stmts : List Stmt) (args : List Expr) (cl : Option Loc)
    (st : TSt) (j : Nat) (c' : ClassDecl) (rm : Bool) (st' : TSt)
    (h : processCall stmts args cl st = .ok (some (j, c'), rm, st')) :
    ∃ c0, stmts[j]? = some (Stmt.classStmt c0) := by
  unfold processCall at h
  split at h
  · rename_i a0 a1
    split at h
    · rename_i tname tl
      split at h
      · rename_i entries lo
        cases hfc : findClass? stmts tname with
        | none =>
          rw [hfc] at h
          exact absurd h (warnT_none_ne _ _ _ _ _ _ _)
        | some t =>
          obtain ⟨j2, cl2⟩ := t
          rw [hfc] at h
          simp only [] at h
          cases hre : runEntries cl2.body 0 true st entries with
          | error er => rw [hre] at h; simp at h
          | ok t2 =>
            obtain ⟨b2, o2, canR2, st2⟩ := t2
            rw [hre] at h
            simp only [Except.ok.injEq, Prod.mk.injEq, Option.some.injEq] at h
            obtain ⟨⟨rfl, rfl⟩, h2, h3⟩ := h
            exact ⟨cl2, findClass?_getElem stmts tname _ cl2 hfc⟩
      · exact absurd h (warnT_none_ne _ _ _ _ _ _ _)
    · exact absurd h (warnT_none_ne _ _ _ _ _ _ _)
  · exact absurd h (warnT_none_ne _ _ _ _ _ _ _)

/-- The legacy-call pass preserves the import signature. -/
theorem decorateLoop_imports : ∀ (fuel : Nat) (stmts : List Stmt) (i : Nat) (st : TSt)
    (out : List Stmt) (st' : TSt),
    decorateLoop fuel stmts i st = .ok (out, st') →
    importsClean out = importsClean stmts ∧
      ∀ sc, collectStmts out sc = collectStmts stmts sc := by
  intro fuel
  induction fuel with
  | zero =>
    intro stmts i st out st' h
    simp only [decorateLoop, Except.ok.injEq, Prod.mk.injEq] at h
    obtain ⟨rfl, rfl⟩ := h
    exact ⟨rfl, fun _ => rfl⟩
  | succ fuel ih =>
    intro stmts i st out st' h
    unfold decorateLoop at h
    split at h
    · rename_i hlt
      split at h
      · rename_i dl args cl sl hsi
        split at h
        · simp at h
        · rename_i upd remove st2 hpc
          cases upd with
          | none =>
            simp only [] at h
            cases remove with
            | true =>
              simp only [if_true] at h
              obtain ⟨ha, hb⟩ := ih _ _ _ _ _ h
              refine ⟨ha.trans (importsClean_erase_nonimp stmts i _ hsi rfl),
                fun sc => (hb sc).trans (collectStmts_erase_nonimp stmts i _ sc hsi rfl)⟩
            | false =>
              simp only [Bool.false_eq_true, if_false] at h
              exact ih _ _ _ _ _ h
          | some t =>
            obtain ⟨j, c2⟩ := t
            obtain ⟨c0, hj⟩ := processCall_upd _ _ _ _ _ _ _ _ hpc
            simp only [] at h
            have hset1 : importsClean (stmts.set j (.classStmt c2)) = importsClean stmts :=
              importsClean_set_nonimp stmts j _ _ hj rfl rfl
            have hset2 : ∀ sc, collectStmts (stmts.set j (.classStmt c2)) sc =
                collectStmts stmts sc :=
              fun sc => collectStmts_set_nonimp stmts j _ _ sc hj rfl rfl
            cases remove with
            | false =>
              simp only [Bool.false_eq_true, if_false] at h
              obtain ⟨ha, hb⟩ := ih _ _ _ _ _ h
              exact ⟨ha.trans hset1, fun sc => (hb sc).trans (hset2 sc)⟩
            | true =>
              simp only [if_true] at h
              have hne : i ≠ j := by
                intro he
                subst he
                rw [hsi] at hj
                simp at hj
              have hgi : (stmts.set j (.classStmt c2))[i]? =
                  some (Stmt.exprStmt (.callExpr (.ident "decorate" dl) args cl) sl) := by
                rw [List.getElem?_set_ne (by omega)]
                exact hsi
              obtain ⟨ha, hb⟩ := ih _ _ _ _ _ h
              refine ⟨(ha.trans (importsClean_erase_nonimp _ i _ hgi rfl)).trans hset1,
                fun sc => ((hb sc).trans
                  (collectStmts_erase_nonimp _ i _ sc hgi rfl)).trans (hset2 sc)⟩
      all_goals exact ih _ _ _ _ _ h
    · simp only [Except.ok.injEq, Prod.mk.injEq] at h
      obtain ⟨rfl, rfl⟩ := h
      exact ⟨rfl, fun _ => rfl⟩

/-- The import patch preserves cleanliness and the collected scope, and leaves
every class statement in place. -/
theorem patchInit_out : ∀ (stmts s' : List Stmt), patchInit stmts = some s' →
    importsClean s' = importsClean stmts ∧
      (∀ sc, collectStmts s' sc = collectStmts stmts sc) ∧
      (∀ c, Stmt.classStmt c ∈ s' → Stmt.classStmt c ∈ stmts) := by
  intro stmts
  induction stmts with
  | nil => intro s' h; simp [patchInit] at h
  | cons s rest ih =>
    intro s' h
    unfold patchInit at h
    split at h
    · rename_i heq
      simp at h
    · rename_i specs2 rest2 heq
      obtain ⟨rfl, rfl⟩ : s = Stmt.impStmt "mobx" specs2 ∧ rest = rest2 := by
        injection heq with ha hb
        exact ⟨ha, hb⟩
      simp only [Option.some.injEq] at h
      subst h
      refine ⟨?_, ?_, ?_⟩
      · simp only [importsClean]
        have hca : (specs2 ++ [ImpSpec.named "initializeObservables"]).contains
            (ImpSpec.named "decorate") = specs2.contains (ImpSpec.named "decorate") := by
          induction specs2 with
          | nil => simp [List.contains_cons]
          | cons sp sps ihs => simp [List.contains_cons, ihs]
        rw [hca]
      · intro sc
        simp only [collectStmts, if_pos rfl, List.foldl_append, List.foldl_cons,
          List.foldl_nil]
        have hcs : collectSpec (specs2.foldl collectSpec sc)
            (ImpSpec.named "initializeObservables") = specs2.foldl collectSpec sc := by
          simp [collectSpec, validDecorators]
        rw [hcs]
      · intro c hc
        rcases List.mem_cons.mp hc with heq | hc2
        · exact absurd heq (by simp)
        · exact List.mem_cons_of_mem _ hc2
    · rename_i s2 rest2 hguard heq
      obtain ⟨rfl, rfl⟩ : s = s2 ∧ rest = rest2 := by
        injection heq with ha hb
        exact ⟨ha, hb⟩
      cases hr : patchInit rest with
      | none => rw [hr] at h; simp at h
      | some rest' =>
        rw [hr] at h
        simp only [Option.some.injEq] at h
        subst h
        obtain ⟨h1, h2, h3⟩ := ih rest' hr
        refine ⟨?_, ?_, ?_⟩
        · cases s with
          | impStmt src specs => simp [importsClean, h1]
          | classStmt c0 =>
            simpa [importsClean_cons_nonimp (Stmt.classStmt c0) _ rfl] using h1
          | exprStmt e l =>
            simpa [importsClean_cons_nonimp (Stmt.exprStmt e l) _ rfl] using h1
          | otherStmt l =>
            simpa [importsClean_cons_nonimp (Stmt.otherStmt l) _ rfl] using h1
        · intro sc
          cases s with
          | impStmt src specs => simp [collectStmts, h2]
          | classStmt c0 =>
            simpa [collectStmts_cons_nonimp (Stmt.classStmt c0) _ _ rfl] using h2 sc
          | exprStmt e l =>
            simpa [collectStmts_cons_nonimp (Stmt.exprStmt e l) _ _ rfl] using h2 sc
          | otherStmt l =>
            simpa [collectStmts_cons_nonimp (Stmt.otherStmt l) _ _ rfl] using h2 sc
        · intro c hc
          rcases List.mem_cons.mp hc with heq | hc2
          · exact heq ▸ List.mem_cons_self _ _
          · exact List.mem_cons_of_mem _ (h3 c hc2)

/-! ### The second run on an inert file -/

/-- The member map over inert members is the identity (up to diagnostics). -/
theorem hpMapIdx_inert_run (scope : List String) (cname : Option String)
    (ob : List Member) :
    ∀ (ms : List Member) (ps : HSt),
      (∀ m ∈ ms, memberGuard m = true → inertMember scope m) →
      ∃ ds, hpMapIdx scope cname ob ms ps =
        .ok (ms.map (fun m => (m, false)), { ps with diags := ps.diags ++ ds }) := by
  intro ms
  induction ms with
  | nil =>
    intro ps hin
    refine ⟨[], ?_⟩
    simp [hpMapIdx]
  | cons m rest ih =>
    intro ps hin
    by_cases hg : (isClassProperty m || isClassMethod m) = true
    · obtain ⟨ds1, hds1⟩ := inert_run scope m (hin m (by simp) hg) cname ob ps
      obtain ⟨ds2, hds2⟩ := ih { ps with diags := ps.diags ++ ds1 }
        (fun m2 hm2 hg2 => hin m2 (by simp [hm2]) hg2)
      refine ⟨ds1 ++ ds2, ?_⟩
      unfold hpMapIdx
      rw [if_pos hg, hds1]
      simp only []
      rw [hds2]
      simp [List.append_assoc]
    · obtain ⟨ds2, hds2⟩ := ih ps (fun m2 hm2 hg2 => hin m2 (by simp [hm2]) hg2)
      refine ⟨ds2, ?_⟩
      unfold hpMapIdx
      rw [if_neg hg, hds2]
      simp

/-- The class rewriter is the identity on an inert class (up to diagnostics):
no insertion, no constructor synthesis, `changed` untouched. -/
theorem handleClass_inert_run (scope : List String) (c : ClassDecl)
    (diags : List String) (changed : Bool)
    (hin : ∀ m ∈ c.body, memberGuard m = true → inertMember scope m) :
    ∃ ds, handleClass scope c diags changed = .ok (c, [], false, diags ++ ds, changed) := by
  obtain ⟨ds, hds⟩ := hpMapIdx_inert_run scope c.name c.body c.body
    { diags := diags, changed := changed, needsCtor := false
      removeIdxs := [], after := [] } hin
  refine ⟨ds, ?_⟩
  unfold handleClass
  simp only []
  rw [hds]
  simp only [Bool.false_eq_true, if_false]
  rw [removeFilter_map_false]

/-- The class pass is the identity on an inert statement list (up to
diagnostics). -/
theorem classLoop_inert_run (scope : List String) :
    ∀ (stmts : List Stmt) (diags : List String) (ch ni : Bool),
      stmtsInertP scope stmts →
      ∃ ds, classLoop scope stmts diags ch ni = .ok (stmts, diags ++ ds, ch, ni) := by
  intro stmts
  induction stmts with
  | nil => intro diags ch ni hin; exact ⟨[], by simp [classLoop]⟩
  | cons s rest ih =>
    intro diags ch ni hin
    cases s with
    | classStmt c =>
      obtain ⟨ds1, hds1⟩ := handleClass_inert_run scope c diags ch (hin c (by simp))
      obtain ⟨ds2, hds2⟩ := ih (diags ++ ds1) ch ni
        (fun c2 hc2 => hin c2 (by simp [hc2]))
      refine ⟨ds1 ++ ds2, ?_⟩
      unfold classLoop
      rw [hds1]
      simp only [Bool.or_false]
      rw [hds2]
      simp [List.append_assoc]
    | impStmt src2 specs =>
      obtain ⟨ds2, hds2⟩ := ih diags ch ni (fun c2 hc2 => hin c2 (by simp [hc2]))
      refine ⟨ds2, ?_⟩
      unfold classLoop
      rw [hds2]
    | exprStmt e l =>
      obtain ⟨ds2, hds2⟩ := ih diags ch ni (fun c2 hc2 => hin c2 (by simp [hc2]))
      refine ⟨ds2, ?_⟩
      unfold classLoop
      rw [hds2]
    | otherStmt l =>
      obtain ⟨ds2, hds2⟩ := ih diags ch ni (fun c2 hc2 => hin c2 (by simp [hc2]))
      refine ⟨ds2, ?_⟩
      unfold classLoop
      rw [hds2]

/-- C9 (amended): with `ignoreImports` unset and no mobx import clause naming
`decorate` twice, the transform is idempotent — a second run on any changed
output completes and reports the unchanged sentinel. -/
theorem c9_idempotent_without_ignoreImports
    (f f' : List Stmt) (ds : List String)
    (hdup : noDupDecorate f = true)
    (h1 : tranform f false = .ok (some f', ds)) :
    isSentinel (tranform f' false) = true := by
  rcases hscan : scanImps f [] false with ⟨f1, scope, uses⟩
  have hclean1 : importsClean f1 = true := by
    have h0 := scanImps_clean_out f [] false hdup
    rw [hscan] at h0
    exact h0
  have hcol1 : ∀ sc, collectStmts f1 sc = collectStmts f sc := by
    intro sc
    have h0 := scanImps_collect f [] false sc
    rw [hscan] at h0
    exact h0
  have hscope : scope = collectStmts f [] := by
    have h0 := scanImps_scope f [] false
    rw [hscan] at h0
    exact h0
  have hmain : ∀ (g : List Stmt), importsClean g = true →
      collectStmts g [] = scope → stmtsInertP scope g →
      isSentinel (tranform g false) = true := by
    intro g hclean hcol hinert
    obtain ⟨ds2, hds2⟩ := classLoop_inert_run scope g [] false false hinert
    have hscan2 : scanImps g [] false = (g, collectStmts g [], false) :=
      scanImps_clean g [] false hclean
    unfold tranform
    simp only [Bool.false_eq_true, if_false]
    rw [hscan2]
    simp only [Bool.false_eq_true, if_false, hcol]
    rw [hds2]
    simp only [Bool.false_eq_true, if_false, List.nil_append]
    rw [ite_self]
    rfl
  unfold tranform at h1
  simp only [Bool.false_eq_true, if_false, hscan] at h1
  cases hdec2 : (if uses = true then
      decorateLoop (f1.length + 1) f1 0 { diags := [], changed := false }
    else .ok (f1, { diags := [], changed := false })) with
  | error er => rw [hdec2] at h1; simp at h1
  | ok t2 =>
    obtain ⟨stmts2, st1⟩ := t2
    rw [hdec2] at h1
    simp only [] at h1
    have h2 : importsClean stmts2 = importsClean f1 ∧
        ∀ sc, collectStmts stmts2 sc = collectStmts f1 sc := by
      by_cases hu : uses = true
      · rw [if_pos hu] at hdec2
        exact decorateLoop_imports _ _ _ _ _ _ hdec2
      · rw [if_neg hu] at hdec2
        simp only [Except.ok.injEq, Prod.mk.injEq] at hdec2
        obtain ⟨rfl, rfl⟩ := hdec2
        exact ⟨rfl, fun _ => rfl⟩
    cases hcl : classLoop scope stmts2 st1.diags st1.changed false with
    | error er => rw [hcl] at h1; simp at h1
    | ok t3 =>
      obtain ⟨stmts3, diags2, changed2, ni2⟩ := t3
      rw [hcl] at h1
      simp only [] at h1
      obtain ⟨hic3, hcs3, hsi3⟩ := classLoop_out scope stmts2 _ _ _ _ _ _ _ hcl
      have hclean3 : importsClean stmts3 = true := by
        rw [hic3, h2.1, hclean1]
      have hcol3 : collectStmts stmts3 [] = scope := by
        rw [hcs3, h2.2, hcol1, hscope]
      by_cases hni : ni2 = true
      · simp only [hni, if_true] at h1
        cases hpat : patchInit stmts3 with
        | none =>
          simp only [hpat] at h1
          by_cases hse : (scope.isEmpty = true ∧ ¬(uses = true))
          · rw [if_pos hse] at h1
            simp at h1
          · rw [if_neg hse] at h1
            by_cases hch : changed2 = true
            · simp only [hch, if_true, Except.ok.injEq, Prod.mk.injEq,
                Option.some.injEq] at h1
              obtain ⟨rfl, rfl⟩ := h1
              exact hmain stmts3 hclean3 hcol3 hsi3
            · simp only [Bool.not_eq_true] at hch
              simp only [hch, Bool.false_eq_true, if_false] at h1
              simp at h1
        | some s4 =>
          simp only [hpat] at h1
          obtain ⟨hp1, hp2, hp3⟩ := patchInit_out stmts3 s4 hpat
          by_cases hse : (scope.isEmpty = true ∧ ¬(uses = true))
          · rw [if_pos hse] at h1
            simp at h1
          · rw [if_neg hse] at h1
            by_cases hch : changed2 = true
            · simp only [hch, if_true, Except.ok.injEq, Prod.mk.injEq,
                Option.some.injEq] at h1
              obtain ⟨rfl, rfl⟩ := h1
              refine hmain s4 (by rw [hp1, hclean3]) (by rw [hp2, hcol3]) ?_
              intro c2 hc2 mm hmm hg
              exact hsi3 c2 (hp3 c2 hc2) mm hmm hg
            · simp only [Bool.not_eq_true] at hch
              simp only [hch, Bool.false_eq_true, if_false] at h1
              simp at h1
      · simp only [Bool.not_eq_true] at hni
        simp only [hni, Bool.false_eq_true, if_false] at h1
        by_cases hse : (scope.isEmpty = true ∧ ¬(uses = true))
        · rw [if_pos hse] at h1
          simp at h1
        · rw [if_neg hse] at h1
          by_cases hch : changed2 = true
          · simp only [hch, if_true, Except.ok.injEq, Prod.mk.injEq,
              Option.some.injEq] at h1
            obtain ⟨rfl, rfl⟩ := h1
            exact hmain stmts3 hclean3 hcol3 hsi3
          · simp only [Bool.not_eq_true] at hch
            simp only [hch, Bool.false_eq_true, if_false] at h1
            simp at h1

/-! ### C9 — counterexample with `ignoreImports` set -/

/-- C9 counterexample input (as source text, run with `ignoreImports`):

```
class C { x = 1 }
decorate(C, { x: observable.ref, y: [a] })
```

The array-valued entry keeps the decorate call in the tree, so a second run
re-applies it to the already rewritten class. -/
def exC9 : List Stmt :=
  [ .classStmt { name := some "C", hasSuper := false
               , body := [plainField "x" (some (.litExpr 1 l0))], loc := l0 }
  , .exprStmt (.callExpr (.ident "decorate" l0)
      [.ident "C" l0,
       .objectExpr
         [.prop (some "x") l0 false false false
            (.memberAcc (.ident "observable" l0) (.ident "ref" l0) false l0) l0,
          .prop (some "y") l0 false false false (.arrayExpr l0) l0] l0] l0) l0 ]

/-- The first-run output on `exC9`. -/
def exC9run1 : List Stmt := okStmts (tranform exC9 true)

/-- The second-run output on `exC9run1`. -/
def exC9run2 : List Stmt := okStmts (tranform exC9run1 true)

/-- C9 counterexample: with `ignoreImports` set the transform is not
idempotent.  The first run on `exC9` converts the field, synthesizes a
constructor with one `initializeObservables(this)` call and retains the
decorate call; the second run reports a *changed* tree again (not the
unchanged sentinel) whose constructor holds two init calls — the retained
call re-decorated the already-wrapped field and the constructor patch ran a
second time. -/
theorem c9_cex_not_idempotent :
    tranform exC9 true = .ok (some exC9run1, [msgComposed, msgNoMobxImp]) ∧
    tranform exC9run1 true = .ok (some exC9run2, [msgComposed, msgNoMobxImp]) ∧
    countInit exC9run1 = 1 ∧ countInit exC9run2 = 2 := by
  refine ⟨?_, ?_, ?_, ?_⟩ <;> rfl

/-- C9 witness input: `import { observable } from "mobx"` and
`class W { @observable x = 1 }`. -/
def exC9W : List Stmt :=
  [ .impStmt "mobx" [.named "observable"]
  , .classStmt { name := some "W", hasSuper := false
               , body := [withDecs (plainField "x" (some (.litExpr 1 l0)))
                   [{ expr := .ident "observable" l0, loc := l0 }]]
               , loc := l0 } ]

/-- The (changed) first-run output on `exC9W`. -/
def exC9Wout : List Stmt := okStmts (tranform exC9W false)

/-- Witness for the amended C9 theorem at a concrete changed run. -/
theorem c9_idempotent_without_ignoreImports_witness :
    noDupDecorate exC9W = true ∧
    tranform exC9W false = .ok (some exC9Wout, []) ∧
    isSentinel (tranform exC9Wout false) = true :=
  ⟨rfl, rfl, c9_idempotent_without_ignoreImports exC9W exC9Wout [] rfl rfl⟩

end Undecorate
